import Mathlib

set_option linter.unusedSectionVars false

set_option linter.unnecessarySeqFocus false

/-!
Verification of the `zset` sorted-set library (skip list with span counters).

The Go source is shallowly embedded: nodes live in an arena (`nodes : List (SNode T)`),
a Go `*node` pointer is an `Option Nat` arena index, the header sentinel is index 0,
`nil` is `none`.  Go `int` is `Int`.  The caller-supplied comparison is a `Bool`-valued
`less` stored in the structure.  The random level drawn by `randomLevel` is passed to
`insert`/`Add` as an explicit parameter (the function `randomLevel` itself is modelled
over an abstract stream of 16-bit draws, and always yields a value in `[1, maxLevel]`).
Loops that follow pointers take explicit fuel `sl.nodes.length`, which is shown adequate
under the structural invariant.
-/

namespace Zset

/-- Mirrors Go `skipListLevel`: a forward pointer and a span counter. -/
structure SLevel where
  forward : Option Nat
  span : Int
  deriving Repr, DecidableEq

/-- Mirrors Go `node`: stored item, backward pointer, per-level links. -/
structure SNode (T : Type) where
  item : T
  backward : Option Nat
  level : List SLevel
  deriving Repr, DecidableEq

/-- Go constant `DefaultMaxLevel = 32`. -/
def DefaultMaxLevel : Nat := 32

/-- Strict weak ordering, as assumed of `less` by the spec: irreflexive,
transitive, with transitive incomparability. -/
def IsSWO {α : Type _} (less : α → α → Bool) : Prop :=
  (∀ a, less a a = false) ∧
  (∀ a b c, less a b = true → less b c = true → less a c = true) ∧
  (∀ a b c, less a b = false → less b c = false → less a c = false)

/-- Go constant `DefaultFreeListSize = 32`. -/
def DefaultFreeListSize : Nat := 32

/-- Mirrors Go `skipList`.  The header node is arena slot 0.  The free list holds
arena indices of recycled slots; `freeCap` is the slice capacity fixed at creation. -/
structure SkipList (T : Type) where
  nodes : List (SNode T)
  tail : Option Nat
  length : Int
  level : Nat
  maxLevel : Nat
  freelist : List Nat
  freeCap : Nat
  less : T → T → Bool

variable {T : Type} [Inhabited T]

/-- Dereference an arena index (out-of-range reads yield a dummy node; the source
never dereferences an invalid pointer on the paths we verify). -/
def nodeAt (sl : SkipList T) (id : Nat) : SNode T :=
  sl.nodes.getD id ⟨default, none, []⟩

/-- Read `x.level[i]` of node `id`. -/
def lvlAt (sl : SkipList T) (id i : Nat) : SLevel :=
  (nodeAt sl id).level.getD i ⟨none, 0⟩

/-- Read `x.item` of node `id`. -/
def itemAt (sl : SkipList T) (id : Nat) : T :=
  (nodeAt sl id).item

/-- Length of the level array of node `id` (its height). -/
def heightOf (sl : SkipList T) (id : Nat) : Nat :=
  (nodeAt sl id).level.length

/-- Overwrite arena slot `id`. -/
def setNode (sl : SkipList T) (id : Nat) (n : SNode T) : SkipList T :=
  { sl with nodes := sl.nodes.set id n }

/-- Write `x.level[i] = e` on node `id`. -/
def setLvl (sl : SkipList T) (id i : Nat) (e : SLevel) : SkipList T :=
  setNode sl id { nodeAt sl id with level := (nodeAt sl id).level.set i e }

/-- Write `x.item = v` on node `id`. -/
def setItem (sl : SkipList T) (id : Nat) (v : T) : SkipList T :=
  setNode sl id { nodeAt sl id with item := v }

/-- Write `x.backward = b` on node `id`. -/
def setBackward (sl : SkipList T) (id : Nat) (b : Option Nat) : SkipList T :=
  setNode sl id { nodeAt sl id with backward := b }

/-- Mirrors Go `newSkipList` (the `maxLevel < DefaultMaxLevel` panic aside; the
façade always passes `DefaultMaxLevel`). -/
def newSkipList (maxLevel : Nat) (less : T → T → Bool) : SkipList T :=
  { nodes := [⟨default, none, List.replicate maxLevel ⟨none, 0⟩⟩]
    tail := none
    length := 0
    level := 1
    maxLevel := maxLevel
    freelist := []
    freeCap := DefaultFreeListSize
    less := less }

/-- The inner advance loop shared by `insert`, `getRank`, `findNext`, `findPrev`:
`for y := x.level[i].forward; y != nil && p(y.item); y = x.level[i].forward
   { r += x.level[i].span; x = y }`. -/
def walk (sl : SkipList T) (p : T → Bool) (i : Nat) : Nat → Int → Nat → Nat × Int
  | x, r, 0 => (x, r)
  | x, r, fuel+1 =>
    match (lvlAt sl x i).forward with
    | none => (x, r)
    | some y => if p (itemAt sl y) then walk sl p i y (r + (lvlAt sl x i).span) fuel else (x, r)

/-- The inner advance loop of `delete` (identical to `walk` but without the rank
accumulator, as in the source). -/
def walkN (sl : SkipList T) (p : T → Bool) (i : Nat) : Nat → Nat → Nat
  | x, 0 => x
  | x, fuel+1 =>
    match (lvlAt sl x i).forward with
    | none => x
    | some y => if p (itemAt sl y) then walkN sl p i y fuel else x

/-- The descent of `insert`: per level `i` (from `sl.level-1` down to 0) record
`(update[i], rank[i])`; the result list is indexed by level. -/
def descendR (sl : SkipList T) (p : T → Bool) : Nat → Nat → Int → List (Nat × Int)
  | 0, x, r => [walk sl p 0 x r sl.nodes.length]
  | i+1, x, r =>
    let s := walk sl p (i+1) x r sl.nodes.length
    descendR sl p i s.1 s.2 ++ [s]

/-- The descent of `delete`: per level record `update[i]` only. -/
def descendU (sl : SkipList T) (p : T → Bool) : Nat → Nat → List Nat
  | 0, x => [walkN sl p 0 x sl.nodes.length]
  | i+1, x =>
    let u := walkN sl p (i+1) x sl.nodes.length
    descendU sl p i u ++ [u]

/-- The descent of `findNext`/`findPrev`: only the final `(x, rank)` is kept. -/
def descendF (sl : SkipList T) (p : T → Bool) : Nat → Nat → Int → Nat × Int
  | 0, x, r => walk sl p 0 x r sl.nodes.length
  | i+1, x, r =>
    let s := walk sl p (i+1) x r sl.nodes.length
    descendF sl p i s.1 s.2

/-- Mirrors `FreeList.newNode` as used by `insert`: pop the most recently released
slot, else allocate a fresh one.  The popped slot's level entries were zeroed by
`freeNode`, and `insert` overwrites item, backward and all `lvl` level entries,
so resetting the slot to a zeroed node of height `lvl` is faithful (the Go slice
capacity reuse is unobservable). -/
def allocNode (sl : SkipList T) (lvl : Nat) : SkipList T × Nat :=
  match sl.freelist.getLast? with
  | none =>
    ({ sl with nodes := sl.nodes ++ [⟨default, none, List.replicate lvl ⟨none, 0⟩⟩] },
      sl.nodes.length)
  | some id =>
    ({ setNode sl id ⟨default, none, List.replicate lvl ⟨none, 0⟩⟩ with
        freelist := sl.freelist.dropLast }, id)

/-- Mirrors `FreeList.freeNode` on an arena slot: clear the item (for gc), zero
every level entry, and push the slot onto the free list if capacity permits. -/
def freeNode (sl : SkipList T) (id : Nat) : SkipList T :=
  let n := nodeAt sl id
  let sl1 := setNode sl id { n with item := default, level := n.level.map (fun _ => ⟨none, 0⟩) }
  if sl1.freelist.length < sl1.freeCap then { sl1 with freelist := sl1.freelist ++ [id] } else sl1

/-- Mirrors `skipList.insert`.  `lvl` is the value drawn by `randomLevel`.
Returns the new state and the arena index of the inserted node. -/
def insert (sl : SkipList T) (v : T) (lvl : Nat) : SkipList T × Nat :=
  let ur := descendR sl (fun y => sl.less y v) (sl.level - 1) 0 0
  -- update[i] / rank[i]; for i in [sl.level, lvl) the raise loop sets header / 0
  let upd : Nat → Nat := fun i => if i < sl.level then (ur.getD i (0, 0)).1 else 0
  let rnk : Nat → Int := fun i => if i < sl.level then (ur.getD i (0, 0)).2 else 0
  -- if lvl > sl.level: for i in [sl.level, lvl) set header.level[i].span = sl.length
  let sl1 := (List.range (lvl - sl.level)).foldl
    (fun s k => setLvl s 0 (sl.level + k) ⟨(lvlAt s 0 (sl.level + k)).forward, s.length⟩) sl
  let newLevel := max sl.level lvl
  let a := allocNode sl1 lvl
  let xid := a.2
  let sl3 := setItem a.1 xid v
  -- splice loop: for i in [0, lvl)
  let sl4 := (List.range lvl).foldl (fun s i =>
    let e := lvlAt s (upd i) i
    let s := setLvl s xid i ⟨e.forward, e.span - (rnk 0 - rnk i)⟩
    setLvl s (upd i) i ⟨some xid, (rnk 0 - rnk i) + 1⟩) sl3
  -- increment span for untouched levels: for i in [lvl, newLevel)
  let sl5 := (List.range (newLevel - lvl)).foldl (fun s k =>
    let i := lvl + k
    setLvl s (upd i) i ⟨(lvlAt s (upd i) i).forward, (lvlAt s (upd i) i).span + 1⟩) sl4
  let sl6 := setBackward sl5 xid (if upd 0 = 0 then none else some (upd 0))
  let sl7 := match (lvlAt sl6 xid 0).forward with
    | none => { sl6 with tail := some xid }
    | some f => setBackward sl6 f (some xid)
  ({ sl7 with length := sl7.length + 1, level := newLevel }, xid)

/-- The level-shrinking loop of `delete`:
`for sl.level > 1 && sl.header.level[sl.level-1].forward == nil { sl.level-- }`. -/
def shrinkAux (sl : SkipList T) : Nat → SkipList T
  | 0 => sl
  | f+1 =>
    if 1 < sl.level ∧ (lvlAt sl 0 (sl.level - 1)).forward = none
    then shrinkAux { sl with level := sl.level - 1 } f
    else sl

def shrink (sl : SkipList T) : SkipList T := shrinkAux sl sl.level

/-- Mirrors `skipList.delete`.  `nid` is the node pointer passed by the façade.
Returns the new state and the removed item (the zero value when nothing was removed). -/
def delete (sl : SkipList T) (nid : Nat) : SkipList T × T :=
  let w := itemAt sl nid
  let ul := descendU sl (fun y => sl.less y w) (sl.level - 1) 0
  let u : Nat → Nat := fun i => ul.getD i 0
  match (lvlAt sl (u 0) 0).forward with
  | none => (sl, default)
  | some x =>
    if sl.less w (itemAt sl x) then (sl, default)
    else
      let sl1 := (List.range sl.level).foldl (fun s i =>
        if (lvlAt s (u i) i).forward = some x then
          setLvl s (u i) i ⟨(lvlAt s x i).forward, (lvlAt s (u i) i).span + (lvlAt s x i).span - 1⟩
        else
          setLvl s (u i) i ⟨(lvlAt s (u i) i).forward, (lvlAt s (u i) i).span - 1⟩) sl
      let sl2 := shrink sl1
      let sl3 := match (lvlAt sl2 x 0).forward with
        | none => { sl2 with tail := (nodeAt sl2 x).backward }
        | some f => setBackward sl2 f (nodeAt sl2 x).backward
      let removed := itemAt sl3 x
      let sl4 := freeNode sl3 x
      ({ sl4 with length := sl4.length - 1 }, removed)

/-- Mirrors `skipList.updateItem`: overwrite in place iff the new item still
respects the ordering against both level-0 neighbours. -/
def updateItem (sl : SkipList T) (nid : Nat) (v : T) : SkipList T × Bool :=
  let fwdOk := match (lvlAt sl nid 0).forward with
    | none => true
    | some f => !sl.less (itemAt sl f) v
  let bwdOk := match (nodeAt sl nid).backward with
    | none => true
    | some b => !sl.less v (itemAt sl b)
  if fwdOk && bwdOk then (setItem sl nid v, true) else (sl, false)

/-- Mirrors `skipList.getRank` (the early `return rank` on each level included;
`x != sl.header` is index inequality with 0). -/
def getRankAux (sl : SkipList T) (v : T) : Nat → Nat → Int → Int
  | 0, x, r =>
    let s := walk sl (fun y => !sl.less v y) 0 x r sl.nodes.length
    if s.1 ≠ 0 ∧ sl.less (itemAt sl s.1) v = false then s.2 else 0
  | i+1, x, r =>
    let s := walk sl (fun y => !sl.less v y) (i+1) x r sl.nodes.length
    if s.1 ≠ 0 ∧ sl.less (itemAt sl s.1) v = false then s.2
    else getRankAux sl v i s.1 s.2

def getRank (sl : SkipList T) (v : T) : Int := getRankAux sl v (sl.level - 1) 0 0

/-- The inner advance loop of `getNodeByRank`:
advance while `forward != nil && traversed + span <= target`. -/
def walkSpan (sl : SkipList T) (target : Int) (i : Nat) : Nat → Int → Nat → Nat × Int
  | x, tr, 0 => (x, tr)
  | x, tr, fuel+1 =>
    match (lvlAt sl x i).forward with
    | none => (x, tr)
    | some y =>
      if tr + (lvlAt sl x i).span ≤ target
      then walkSpan sl target i y (tr + (lvlAt sl x i).span) fuel
      else (x, tr)

/-- Mirrors `skipList.getNodeByRank` (with its per-level `traversed == rank` early return). -/
def getNodeByRankAux (sl : SkipList T) (target : Int) : Nat → Nat → Int → Option Nat
  | 0, x, tr =>
    let s := walkSpan sl target 0 x tr sl.nodes.length
    if s.2 = target then some s.1 else none
  | i+1, x, tr =>
    let s := walkSpan sl target (i+1) x tr sl.nodes.length
    if s.2 = target then some s.1 else getNodeByRankAux sl target i s.1 s.2

def getNodeByRank (sl : SkipList T) (target : Int) : Option Nat :=
  getNodeByRankAux sl target (sl.level - 1) 0 0

def getMinNode (sl : SkipList T) : Option Nat := (lvlAt sl 0 0).forward

def getMaxNode (sl : SkipList T) : Option Nat := sl.tail

/-- Mirrors `skipList.findNext`: first node whose item satisfies `greater`, with its
1-based rank. -/
def findNext (sl : SkipList T) (greater : T → Bool) : Option Nat × Int :=
  let s := descendF sl (fun y => !greater y) (sl.level - 1) 0 0
  ((lvlAt sl s.1 0).forward, s.2 + (lvlAt sl s.1 0).span)

/-- Mirrors `skipList.findPrev`: last node whose item satisfies `lessp` (the header,
index 0 with rank 0, when none does). -/
def findPrev (sl : SkipList T) (lessp : T → Bool) : Nat × Int :=
  descendF sl (fun y => lessp y) (sl.level - 1) 0 0

/-- Mirrors Go `randomLevel` over a stream of draws.  `float32(u & 0xFFFF) < 0.25*0xFFFF`
is exact in float32 and equivalent to `u % 2^16 < 16384`. -/
def randomLevelAux (maxLevel : Nat) (draws : Nat → Nat) : Nat → Nat → Nat → Nat
  | _, lvl, 0 => lvl
  | k, lvl, f+1 =>
    if lvl < maxLevel ∧ draws k % 65536 < 16384
    then randomLevelAux maxLevel draws (k+1) (lvl+1) f
    else lvl

def randomLevel (maxLevel : Nat) (draws : Nat → Nat) : Nat :=
  randomLevelAux maxLevel draws 0 1 maxLevel

/-! ### The ZSet façade -/

/-- Mirrors Go `ZSet`: a key→node map (modelled as an association list) plus the
skip list. -/
structure ZSet (K T : Type) where
  dict : List (K × Nat)
  sl : SkipList T

variable {K : Type} [DecidableEq K]

/-- Go map read `zs.dict[key]` (nil for absent). -/
def dictFind : List (K × Nat) → K → Option Nat
  | [], _ => none
  | e :: rest, k => if e.1 = k then some e.2 else dictFind rest k

/-- Go map write `zs.dict[key] = n`. -/
def dictSet : List (K × Nat) → K → Nat → List (K × Nat)
  | [], k, n => [(k, n)]
  | e :: rest, k, n => if e.1 = k then (k, n) :: rest else e :: dictSet rest k n

/-- Go `delete(zs.dict, key)`. -/
def dictErase (d : List (K × Nat)) (k : K) : List (K × Nat) :=
  d.filter (fun e => decide (e.1 ≠ k))

/-- Mirrors `New` (the façade always uses `DefaultMaxLevel`). -/
def zsNew (less : T → T → Bool) : ZSet K T :=
  ⟨[], newSkipList DefaultMaxLevel less⟩

/-- Mirrors `ZSet.Add`.  `lvl` is the level `randomLevel` would draw for the
insertion.  Returns the new set and the `removeItem` result (the zero value of `T`
when the key was absent or the in-place update succeeded). -/
def Add (zs : ZSet K T) (key : K) (v : T) (lvl : Nat) : ZSet K T × T :=
  match dictFind zs.dict key with
  | some nid =>
    let r := updateItem zs.sl nid v
    if r.2 then ({ zs with sl := r.1 }, default)
    else
      let d := delete zs.sl nid
      let ins := insert d.1 v lvl
      (⟨dictSet zs.dict key ins.2, ins.1⟩, d.2)
  | none =>
    let ins := insert zs.sl v lvl
    (⟨dictSet zs.dict key ins.2, ins.1⟩, default)

/-- Mirrors `ZSet.Remove`. -/
def Remove (zs : ZSet K T) (key : K) : ZSet K T × T :=
  match dictFind zs.dict key with
  | none => (zs, default)
  | some nid =>
    let d := delete zs.sl nid
    (⟨dictErase zs.dict key, d.1⟩, d.2)

/-- Mirrors `ZSet.Rank`. -/
def Rank (zs : ZSet K T) (key : K) (reverse : Bool) : Int :=
  match dictFind zs.dict key with
  | none => 0
  | some nid =>
    let r := getRank zs.sl (itemAt zs.sl nid)
    if 0 < r then (if reverse then zs.sl.length - r + 1 else r) else 0

/-- Mirrors `ZSet.Get`. -/
def Get (zs : ZSet K T) (key : K) : Option T :=
  match dictFind zs.dict key with
  | none => none
  | some nid => some (itemAt zs.sl nid)

def Length (zs : ZSet K T) : Int := zs.sl.length

/-! Visitor loops.  A Go visitor call trace is modelled as the returned list of
`(item, rank)` pairs the visitor was invoked with (the call on which the visitor
returns `false`, terminating the loop, is included). -/

/-- Forward loop of `RangeByScore`: `for i := minRank; i <= maxRank; i++`. -/
def rbsFwd (sl : SkipList T) (it : T → Int → Bool) : Nat → Nat → Int → List (T × Int)
  | 0, _, _ => []
  | cnt+1, nid, i =>
    let v := itemAt sl nid
    if it v i then (v, i) :: rbsFwd sl it cnt ((lvlAt sl nid 0).forward.getD 0) (i + 1)
    else [(v, i)]

/-- Reverse loop of `RangeByScore`: `for i := maxRank; i >= minRank; i--`. -/
def rbsRev (sl : SkipList T) (it : T → Int → Bool) : Nat → Nat → Int → List (T × Int)
  | 0, _, _ => []
  | cnt+1, nid, i =>
    let v := itemAt sl nid
    if it v (sl.length - i + 1)
    then (v, sl.length - i + 1) :: rbsRev sl it cnt ((nodeAt sl nid).backward.getD 0) (i - 1)
    else [(v, sl.length - i + 1)]

/-- Mirrors `ZSet.RangeByScore`. -/
def RangeByScore (zs : ZSet K T) (lo hi : Option (T → Bool)) (reverse : Bool)
    (it : T → Int → Bool) : List (T × Int) :=
  let sl := zs.sl
  let llen := sl.length
  let minp : Option Nat × Int := match lo with
    | none => (getMinNode sl, 1)
    | some p => findNext sl p
  match minp.1 with
  | none => []
  | some minN =>
    let maxp : Option Nat × Int := match hi with
      | none => (getMaxNode sl, llen)
      | some p => (some (findPrev sl p).1, (findPrev sl p).2)
    match maxp.1 with
    | none => []
    | some maxN =>
      if reverse then rbsRev sl it (maxp.2 - minp.2 + 1).toNat maxN maxp.2
      else rbsFwd sl it (maxp.2 - minp.2 + 1).toNat minN minp.2

/-- Forward loop of `Range`: `for i := 1; i <= rangeLen; i++ { it(ln.item, start+i) }`. -/
def rangeFwd (sl : SkipList T) (it : T → Int → Bool) (start : Int) :
    Nat → Nat → Int → List (T × Int)
  | 0, _, _ => []
  | cnt+1, nid, i =>
    let v := itemAt sl nid
    if it v (start + i)
    then (v, start + i) :: rangeFwd sl it start cnt ((lvlAt sl nid 0).forward.getD 0) (i + 1)
    else [(v, start + i)]

/-- Reverse loop of `Range` (steps along backward pointers). -/
def rangeRev (sl : SkipList T) (it : T → Int → Bool) (start : Int) :
    Nat → Nat → Int → List (T × Int)
  | 0, _, _ => []
  | cnt+1, nid, i =>
    let v := itemAt sl nid
    if it v (start + i)
    then (v, start + i) :: rangeRev sl it start cnt ((nodeAt sl nid).backward.getD 0) (i + 1)
    else [(v, start + i)]

/-- Mirrors `ZSet.Range` (Python-style negative index normalisation included). -/
def Range (zs : ZSet K T) (start0 end0 : Int) (reverse : Bool) (it : T → Int → Bool) :
    List (T × Int) :=
  let llen := zs.sl.length
  let s1 := if start0 < 0 then llen + start0 else start0
  let e1 := if end0 < 0 then llen + end0 else end0
  let s2 := if s1 < 0 then 0 else s1
  if s2 > e1 ∨ s2 ≥ llen then []
  else
    let e2 := if e1 ≥ llen then llen - 1 else e1
    let rangeLen := e2 - s2 + 1
    if reverse then
      rangeRev zs.sl it s2 rangeLen.toNat ((getNodeByRank zs.sl (llen - s2)).getD 0) 1
    else
      rangeFwd zs.sl it s2 rangeLen.toNat ((getNodeByRank zs.sl (s2 + 1)).getD 0) 1

/-- Mirrors Go `RangeIterator` (the struct; `end` is named `stop`). -/
structure RangeIter (T : Type) where
  node : Option Nat
  start : Int
  stop : Int
  cur : Int
  reverse : Bool

def RangeIter.lenI (r : RangeIter T) : Int := r.stop - r.start + 1

def RangeIter.valid (r : RangeIter T) : Bool := decide (r.cur ≤ r.stop)

/-- Mirrors `RangeIterator.Next` (pointer steps need the arena, hence the `sl`). -/
def iterNext (sl : SkipList T) (r : RangeIter T) : RangeIter T :=
  { r with
    node := if r.reverse then (nodeAt sl (r.node.getD 0)).backward
            else (lvlAt sl (r.node.getD 0) 0).forward
    cur := r.cur + 1 }

def iterItem (sl : SkipList T) (r : RangeIter T) : T := itemAt sl (r.node.getD 0)

/-- Mirrors `RangeIterator.Rank`: `return r.cur + 1`. -/
def RangeIter.rankI (r : RangeIter T) : Int := r.cur + 1

/-- Mirrors `ZSet.RangeIterator`. -/
def RangeIterator (zs : ZSet K T) (start0 end0 : Int) (reverse : Bool) : RangeIter T :=
  let llen := zs.sl.length
  let s1 := if start0 < 0 then llen + start0 else start0
  let e1 := if end0 < 0 then llen + end0 else end0
  let s2 := if s1 < 0 then 0 else s1
  if s2 > e1 ∨ s2 ≥ llen then ⟨none, 0, -1, 0, false⟩
  else
    let e2 := if e1 ≥ llen then llen - 1 else e1
    let n := if reverse then getNodeByRank zs.sl (llen - s2) else getNodeByRank zs.sl (s2 + 1)
    ⟨n, s2, e2, s2, reverse⟩

/-! ### Standalone `FreeList` model (for the pool claims)

The pool holds nodes by value here (Go holds `*node`; `freeNode` mutates the pointee
and conditionally retains the pointer, so we return the mutated node alongside). -/

structure FreeList (T : Type) where
  freelist : List (SNode T)
  cap : Nat

def NewFreeList (size : Nat) : FreeList T := ⟨[], size⟩

/-- Mirrors `FreeList.freeNode` (generic version, lines 947-960): clear the item,
zero every level entry, push if capacity permits, report retention. -/
def FreeList.free (f : FreeList T) (n : SNode T) : FreeList T × SNode T × Bool :=
  let n2 : SNode T := { n with item := default, level := n.level.map (fun _ => ⟨none, 0⟩) }
  if f.freelist.length < f.cap
  then ({ f with freelist := f.freelist ++ [n2] }, n2, true)
  else (f, n2, false)

/-! ### Operation sequences -/

/-- One façade mutation; `add` carries the level `randomLevel` drew. -/
inductive ZOp (K T : Type) where
  | add (key : K) (v : T) (lvl : Nat)
  | rem (key : K)

def applyOp (zs : ZSet K T) : ZOp K T → ZSet K T
  | .add k v lvl => (Add zs k v lvl).1
  | .rem k => (Remove zs k).1

def applyOps (less : T → T → Bool) (ops : List (ZOp K T)) : ZSet K T :=
  ops.foldl applyOp (zsNew less)

/-- A level drawn by `randomLevel` is always in `[1, maxLevel]` (for `maxLevel ≥ 1`);
`validOps` is the corresponding constraint on an operation sequence. -/
def validOps (ops : List (ZOp K T)) : Prop :=
  ∀ op ∈ ops, match op with
    | .add _ _ lvl => 1 ≤ lvl ∧ lvl ≤ DefaultMaxLevel
    | .rem _ => True

/-- Executable sum of the span fields along the level-`i` chain from the header,
including the span of the final link whose forward pointer is nil. -/
def spanSumFrom (sl : SkipList T) (i : Nat) : Nat → Int → Nat → Int
  | x, acc, 0 => acc + (lvlAt sl x i).span
  | x, acc, fuel+1 =>
    match (lvlAt sl x i).forward with
    | none => acc + (lvlAt sl x i).span
    | some y => spanSumFrom sl i y (acc + (lvlAt sl x i).span) fuel

def spanSum (sl : SkipList T) (i : Nat) : Int := spanSumFrom sl i 0 0 sl.nodes.length

/-- Executable bottom-level traversal: the items in list order. -/
def itemsFrom (sl : SkipList T) : Option Nat → Nat → List T
  | none, _ => []
  | some x, 0 => [itemAt sl x]
  | some x, fuel+1 => itemAt sl x :: itemsFrom sl (lvlAt sl x 0).forward fuel

def toList (sl : SkipList T) : List T := itemsFrom sl (lvlAt sl 0 0).forward sl.nodes.length

/-! ### The structural invariant

`chain` lists the arena indices of the non-header nodes in bottom-level order;
the node at (1-based) position `p` of `chain` has rank `p`.  For every level
`i < sl.level`, the level-`i` forward chain from the header must visit exactly
the chain nodes of height `> i`, with each span equal to the position difference
and the final (nil-forward) span equal to `length - position`. -/

/-- Pair each chain element with its 1-based position. -/
def withPos : List Nat → Int → List (Nat × Int)
  | [], _ => []
  | v :: rest, p => (v, p) :: withPos rest (p + 1)

/-- The level-`i` subchain: chain elements of height `> i`, with positions. -/
def levOf (sl : SkipList T) (chain : List Nat) (i : Nat) : List (Nat × Int) :=
  (withPos chain 1).filter (fun e => decide (i < heightOf sl e.1))

/-- The level-`i` linked structure starting after node `x` (at position `p`) is
exactly `l`: forwards and spans match, and the final link is nil with span
`len - lastPosition`. -/
def chainAt (sl : SkipList T) (len : Int) (i : Nat) : Nat → Int → List (Nat × Int) → Prop
  | x, p, [] => (lvlAt sl x i).forward = none ∧ (lvlAt sl x i).span = len - p
  | x, p, (v, q) :: rest =>
    (lvlAt sl x i).forward = some v ∧ (lvlAt sl x i).span = q - p ∧ chainAt sl len i v q rest

/-- Backward pointers: each chain node points to its predecessor (none for the first). -/
def backOk (sl : SkipList T) : Option Nat → List Nat → Prop
  | _, [] => True
  | prev, v :: rest => (nodeAt sl v).backward = prev ∧ backOk sl (some v) rest

/-- The structural well-formedness invariant of the skip list, relative to the
bottom-order chain of arena indices. -/
structure WF (sl : SkipList T) (chain : List Nat) : Prop where
  hlen : sl.length = (chain.length : Int)
  hnodes : 0 < sl.nodes.length
  hheadh : heightOf sl 0 = sl.maxLevel
  hlevel1 : 1 ≤ sl.level
  hlevelM : sl.level ≤ sl.maxLevel
  hvalid : ∀ id ∈ chain, id < sl.nodes.length ∧ id ≠ 0
  hnodup : chain.Nodup
  hhts : ∀ id ∈ chain, 1 ≤ heightOf sl id ∧ heightOf sl id ≤ sl.level
  hchains : ∀ i < sl.level, chainAt sl sl.length i 0 0 (levOf sl chain i)
  htop : ∀ i, sl.level ≤ i → (lvlAt sl 0 i).forward = none
  hback : backOk sl none chain
  htail : sl.tail = chain.getLast?
  hfree : ∀ id ∈ sl.freelist, id < sl.nodes.length ∧ id ≠ 0 ∧ id ∉ chain
  hfreend : sl.freelist.Nodup

/-- Segment predicate: the links from `x` through `l`, without the condition on the
final outgoing link. -/
def segAt (sl : SkipList T) (i : Nat) : Nat → Int → List (Nat × Int) → Prop
  | _, _, [] => True
  | x, p, (v, q) :: rest =>
    (lvlAt sl x i).forward = some v ∧ (lvlAt sl x i).span = q - p ∧ segAt sl i v q rest

/-! ### Descent specification -/

/-- What holds of the stop `s` of the level-`k` walk started at `s1`:
membership on the level-`k` chain with its true position, the stop (if not the
header) was stepped onto and so satisfies `q`, positions are monotone, everything
on the level-`k` chain in the interval `(s1.2, s.2]` satisfies `q`, and the node
after the stop (if any) fails `q`. -/
def LevelStop (sl : SkipList T) (chain : List Nat) (q : T → Bool) (k : Nat)
    (s1 s : Nat × Int) : Prop :=
  s ∈ ((0 : Nat), (0 : Int)) :: levOf sl chain k ∧
  (s.1 ≠ 0 → q (itemAt sl s.1) = true) ∧
  s1.2 ≤ s.2 ∧
  (∀ e ∈ levOf sl chain k, s1.2 < e.2 → e.2 ≤ s.2 → q (itemAt sl e.1) = true) ∧
  (∀ y, (lvlAt sl s.1 k).forward = some y → q (itemAt sl y) = false)

/-! ### Shape preservation and fold characterizations -/

/-- Everything except the level entries: all preserved by `setLvl` writes. -/
def SameShape (s sl : SkipList T) : Prop :=
  s.nodes.length = sl.nodes.length ∧ s.tail = sl.tail ∧ s.length = sl.length ∧
  s.level = sl.level ∧ s.maxLevel = sl.maxLevel ∧ s.freelist = sl.freelist ∧
  s.freeCap = sl.freeCap ∧ s.less = sl.less ∧
  (∀ id, heightOf s id = heightOf sl id) ∧
  (∀ id, itemAt s id = itemAt sl id) ∧
  (∀ id, (nodeAt s id).backward = (nodeAt sl id).backward)

/-! ### Consolidated descent facts -/

/-- The level-`k` stop of the full descent of `insert`/`delete`/`findNext`. -/
def updOf (sl : SkipList T) (q : T → Bool) (k : Nat) : Nat × Int :=
  (descendR sl q (sl.level - 1) 0 0).getD k (0, 0)

/-- The entering back-pointer after traversing `l` from `prev`. -/
def optLast (prev : Option Nat) (l : List Nat) : Option Nat :=
  l.foldl (fun _ a => some a) prev

/-! ### Named decomposition of `insert` (definitionally equal to the source function) -/

def insQ (sl : SkipList T) (v : T) : T → Bool := fun y => sl.less y v

def insUpd (sl : SkipList T) (v : T) (i : Nat) : Nat :=
  if i < sl.level then (updOf sl (insQ sl v) i).1 else 0

def insRnk (sl : SkipList T) (v : T) (i : Nat) : Int :=
  if i < sl.level then (updOf sl (insQ sl v) i).2 else 0

def insS1 (sl : SkipList T) (v : T) (lvl : Nat) : SkipList T :=
  (List.range (lvl - sl.level)).foldl
    (fun s k => setLvl s 0 (sl.level + k) ⟨(lvlAt s 0 (sl.level + k)).forward, s.length⟩) sl

def insXid (sl : SkipList T) (v : T) (lvl : Nat) : Nat :=
  (allocNode (insS1 sl v lvl) lvl).2

def insS3 (sl : SkipList T) (v : T) (lvl : Nat) : SkipList T :=
  setItem (allocNode (insS1 sl v lvl) lvl).1 (insXid sl v lvl) v

def insS4 (sl : SkipList T) (v : T) (lvl : Nat) : SkipList T :=
  (List.range lvl).foldl (fun s i =>
    setLvl (setLvl s (insXid sl v lvl) i
      ⟨(lvlAt s (insUpd sl v i) i).forward,
       (lvlAt s (insUpd sl v i) i).span - (insRnk sl v 0 - insRnk sl v i)⟩)
      (insUpd sl v i) i ⟨some (insXid sl v lvl), (insRnk sl v 0 - insRnk sl v i) + 1⟩)
    (insS3 sl v lvl)

def insS5 (sl : SkipList T) (v : T) (lvl : Nat) : SkipList T :=
  (List.range (max sl.level lvl - lvl)).foldl (fun s k =>
    setLvl s (insUpd sl v (lvl + k)) (lvl + k)
      ⟨(lvlAt s (insUpd sl v (lvl + k)) (lvl + k)).forward,
       (lvlAt s (insUpd sl v (lvl + k)) (lvl + k)).span + 1⟩)
    (insS4 sl v lvl)

def insS6 (sl : SkipList T) (v : T) (lvl : Nat) : SkipList T :=
  setBackward (insS5 sl v lvl) (insXid sl v lvl)
    (if insUpd sl v 0 = 0 then none else some (insUpd sl v 0))

def insS7 (sl : SkipList T) (v : T) (lvl : Nat) : SkipList T :=
  match (lvlAt (insS6 sl v lvl) (insXid sl v lvl) 0).forward with
  | none => { insS6 sl v lvl with tail := some (insXid sl v lvl) }
  | some f => setBackward (insS6 sl v lvl) f (some (insXid sl v lvl))

def insFin (sl : SkipList T) (v : T) (lvl : Nat) : SkipList T :=
  { insS7 sl v lvl with length := (insS7 sl v lvl).length + 1, level := max sl.level lvl }

/-- The forward pointer the new node inherits at level 0. -/
def insFwd0 (sl : SkipList T) (v : T) : Option Nat :=
  (lvlAt sl (insUpd sl v 0) 0).forward

/-- Insertion position of the new node in the bottom chain (number of retained
predecessors), i.e. the level-0 stop rank. -/
def insChainIdx (sl : SkipList T) (v : T) : Nat := (insRnk sl v 0).toNat

/-- Prefix of the level-`i` subchain strictly before the insertion point. -/
def insAi (sl : SkipList T) (chain : List Nat) (v : T) (i : Nat) : List (Nat × Int) :=
  (levOf sl chain i).filter (fun e => decide (e.2 ≤ insRnk sl v 0))

/-- Suffix of the level-`i` subchain after the insertion point. -/
def insBi (sl : SkipList T) (chain : List Nat) (v : T) (i : Nat) : List (Nat × Int) :=
  (levOf sl chain i).filter (fun e => decide (insRnk sl v 0 < e.2))

/-! ### Named decomposition of `delete` -/

def delW (sl : SkipList T) (nid : Nat) : T := itemAt sl nid

def delQ (sl : SkipList T) (nid : Nat) : T → Bool := fun y => sl.less y (delW sl nid)

def delUl (sl : SkipList T) (nid : Nat) : List Nat :=
  descendU sl (delQ sl nid) (sl.level - 1) 0

def delU (sl : SkipList T) (nid : Nat) (i : Nat) : Nat := (delUl sl nid).getD i 0

def delX (sl : SkipList T) (nid : Nat) : Option Nat :=
  (lvlAt sl (delU sl nid 0) 0).forward

def delS1 (sl : SkipList T) (nid x : Nat) : SkipList T :=
  (List.range sl.level).foldl (fun s i =>
    if (lvlAt s (delU sl nid i) i).forward = some x then
      setLvl s (delU sl nid i) i
        ⟨(lvlAt s x i).forward, (lvlAt s (delU sl nid i) i).span + (lvlAt s x i).span - 1⟩
    else
      setLvl s (delU sl nid i) i
        ⟨(lvlAt s (delU sl nid i) i).forward, (lvlAt s (delU sl nid i) i).span - 1⟩) sl

def delS2 (sl : SkipList T) (nid x : Nat) : SkipList T := shrink (delS1 sl nid x)

def delS3 (sl : SkipList T) (nid x : Nat) : SkipList T :=
  match (lvlAt (delS2 sl nid x) x 0).forward with
  | none => { delS2 sl nid x with tail := (nodeAt (delS2 sl nid x) x).backward }
  | some f => setBackward (delS2 sl nid x) f (nodeAt (delS2 sl nid x) x).backward

def delFin (sl : SkipList T) (nid x : Nat) : SkipList T :=
  { freeNode (delS3 sl nid x) x with length := (freeNode (delS3 sl nid x) x).length - 1 }

def delChainIdx (sl : SkipList T) (nid : Nat) : Nat := (updOf sl (delQ sl nid) 0).2.toNat

/-! ### Accessor / mutator lemmas -/

theorem getD_set_self {α : Type _} (l : List α) (i : Nat) (a d : α) (h : i < l.length) :
    (l.set i a).getD i d = a := by
  simp [List.getD_eq_getElem?_getD, List.getElem?_set, h]

theorem getD_set_ne {α : Type _} (l : List α) {i j : Nat} (a d : α) (h : i ≠ j) :
    (l.set i a).getD j d = l.getD j d := by
  simp [List.getD_eq_getElem?_getD, List.getElem?_set, h]

@[simp] theorem nodes_setNode (sl : SkipList T) (id : Nat) (n : SNode T) :
    (setNode sl id n).nodes.length = sl.nodes.length := by
  simp [setNode]

theorem nodeAt_setNode_self (sl : SkipList T) {id : Nat} (n : SNode T)
    (h : id < sl.nodes.length) : nodeAt (setNode sl id n) id = n := by
  simp [nodeAt, setNode, List.getD_eq_getElem?_getD, List.getElem?_set, h]

theorem nodeAt_setNode_ne (sl : SkipList T) {id id' : Nat} (n : SNode T)
    (h : id ≠ id') : nodeAt (setNode sl id n) id' = nodeAt sl id' := by
  simp [nodeAt, setNode, List.getD_eq_getElem?_getD, List.getElem?_set, h]

@[simp] theorem setNode_tail (sl : SkipList T) (id : Nat) (n : SNode T) :
    (setNode sl id n).tail = sl.tail := rfl

@[simp] theorem setNode_length (sl : SkipList T) (id : Nat) (n : SNode T) :
    (setNode sl id n).length = sl.length := rfl

@[simp] theorem setNode_level (sl : SkipList T) (id : Nat) (n : SNode T) :
    (setNode sl id n).level = sl.level := rfl

@[simp] theorem setNode_maxLevel (sl : SkipList T) (id : Nat) (n : SNode T) :
    (setNode sl id n).maxLevel = sl.maxLevel := rfl

@[simp] theorem setNode_freelist (sl : SkipList T) (id : Nat) (n : SNode T) :
    (setNode sl id n).freelist = sl.freelist := rfl

@[simp] theorem setNode_less (sl : SkipList T) (id : Nat) (n : SNode T) :
    (setNode sl id n).less = sl.less := rfl

theorem heightOf_setLvl (sl : SkipList T) (id i : Nat) (e : SLevel) (id' : Nat) :
    heightOf (setLvl sl id i e) id' = heightOf sl id' := by
  by_cases h : id = id'
  · subst h
    by_cases hlt : id < sl.nodes.length
    · simp [heightOf, setLvl, nodeAt_setNode_self _ _ hlt]
    · simp [heightOf, setLvl, setNode, nodeAt, List.set_eq_of_length_le (Nat.le_of_not_lt hlt)]
  · simp [heightOf, setLvl, nodeAt_setNode_ne _ _ h]

theorem itemAt_setLvl (sl : SkipList T) (id i : Nat) (e : SLevel) (id' : Nat) :
    itemAt (setLvl sl id i e) id' = itemAt sl id' := by
  by_cases h : id = id'
  · subst h
    by_cases hlt : id < sl.nodes.length
    · simp [itemAt, setLvl, nodeAt_setNode_self _ _ hlt]
    · simp [itemAt, setLvl, setNode, nodeAt, List.set_eq_of_length_le (Nat.le_of_not_lt hlt)]
  · simp [itemAt, setLvl, nodeAt_setNode_ne _ _ h]

theorem backward_setLvl (sl : SkipList T) (id i : Nat) (e : SLevel) (id' : Nat) :
    (nodeAt (setLvl sl id i e) id').backward = (nodeAt sl id').backward := by
  by_cases h : id = id'
  · subst h
    by_cases hlt : id < sl.nodes.length
    · simp [setLvl, nodeAt_setNode_self _ _ hlt]
    · simp [setLvl, setNode, nodeAt, List.set_eq_of_length_le (Nat.le_of_not_lt hlt)]
  · simp [setLvl, nodeAt_setNode_ne _ _ h]

theorem lvlAt_setLvl_ne_id (sl : SkipList T) {id : Nat} (i : Nat) (e : SLevel) {id' : Nat}
    (h : id ≠ id') (i' : Nat) : lvlAt (setLvl sl id i e) id' i' = lvlAt sl id' i' := by
  simp [lvlAt, setLvl, nodeAt_setNode_ne _ _ h]

theorem lvlAt_setLvl_ne_lvl (sl : SkipList T) (id : Nat) {i : Nat} (e : SLevel) (id' : Nat)
    {i' : Nat} (h : i ≠ i') : lvlAt (setLvl sl id i e) id' i' = lvlAt sl id' i' := by
  by_cases hid : id = id'
  · subst hid
    by_cases hlt : id < sl.nodes.length
    · simp [lvlAt, setLvl, nodeAt_setNode_self _ _ hlt, List.getD_eq_getElem?_getD, List.getElem?_set, h]
    · simp [lvlAt, setLvl, setNode, nodeAt, List.set_eq_of_length_le (Nat.le_of_not_lt hlt)]
  · exact lvlAt_setLvl_ne_id sl i e hid i'

theorem lvlAt_setLvl_self (sl : SkipList T) {id i : Nat} (e : SLevel)
    (hid : id < sl.nodes.length) (hi : i < heightOf sl id) :
    lvlAt (setLvl sl id i e) id i = e := by
  have hi2 : i < (nodeAt sl id).level.length := hi
  simp [lvlAt, setLvl, nodeAt_setNode_self _ _ hid, List.getD_eq_getElem?_getD, List.getElem?_set, hi2]

theorem lvlAt_setItem (sl : SkipList T) (id : Nat) (v : T) (id' i' : Nat) :
    lvlAt (setItem sl id v) id' i' = lvlAt sl id' i' := by
  by_cases h : id = id'
  · subst h
    by_cases hlt : id < sl.nodes.length
    · simp [lvlAt, setItem, nodeAt_setNode_self _ _ hlt]
    · simp [lvlAt, setItem, setNode, nodeAt, List.set_eq_of_length_le (Nat.le_of_not_lt hlt)]
  · simp [lvlAt, setItem, nodeAt_setNode_ne _ _ h]

theorem heightOf_setItem (sl : SkipList T) (id : Nat) (v : T) (id' : Nat) :
    heightOf (setItem sl id v) id' = heightOf sl id' := by
  by_cases h : id = id'
  · subst h
    by_cases hlt : id < sl.nodes.length
    · simp [heightOf, setItem, nodeAt_setNode_self _ _ hlt]
    · simp [heightOf, setItem, setNode, nodeAt, List.set_eq_of_length_le (Nat.le_of_not_lt hlt)]
  · simp [heightOf, setItem, nodeAt_setNode_ne _ _ h]

theorem itemAt_setItem_self (sl : SkipList T) {id : Nat} (v : T) (h : id < sl.nodes.length) :
    itemAt (setItem sl id v) id = v := by
  simp [itemAt, setItem, nodeAt_setNode_self _ _ h]

theorem itemAt_setItem_ne (sl : SkipList T) {id id' : Nat} (v : T) (h : id ≠ id') :
    itemAt (setItem sl id v) id' = itemAt sl id' := by
  simp [itemAt, setItem, nodeAt_setNode_ne _ _ h]

theorem backward_setItem (sl : SkipList T) (id : Nat) (v : T) (id' : Nat) :
    (nodeAt (setItem sl id v) id').backward = (nodeAt sl id').backward := by
  by_cases h : id = id'
  · subst h
    by_cases hlt : id < sl.nodes.length
    · simp [setItem, nodeAt_setNode_self _ _ hlt]
    · simp [setItem, setNode, nodeAt, List.set_eq_of_length_le (Nat.le_of_not_lt hlt)]
  · simp [setItem, nodeAt_setNode_ne _ _ h]

theorem lvlAt_setBackward (sl : SkipList T) (id : Nat) (b : Option Nat) (id' i' : Nat) :
    lvlAt (setBackward sl id b) id' i' = lvlAt sl id' i' := by
  by_cases h : id = id'
  · subst h
    by_cases hlt : id < sl.nodes.length
    · simp [lvlAt, setBackward, nodeAt_setNode_self _ _ hlt]
    · simp [lvlAt, setBackward, setNode, nodeAt, List.set_eq_of_length_le (Nat.le_of_not_lt hlt)]
  · simp [lvlAt, setBackward, nodeAt_setNode_ne _ _ h]

theorem heightOf_setBackward (sl : SkipList T) (id : Nat) (b : Option Nat) (id' : Nat) :
    heightOf (setBackward sl id b) id' = heightOf sl id' := by
  by_cases h : id = id'
  · subst h
    by_cases hlt : id < sl.nodes.length
    · simp [heightOf, setBackward, nodeAt_setNode_self _ _ hlt]
    · simp [heightOf, setBackward, setNode, nodeAt, List.set_eq_of_length_le (Nat.le_of_not_lt hlt)]
  · simp [heightOf, setBackward, nodeAt_setNode_ne _ _ h]

theorem itemAt_setBackward (sl : SkipList T) (id : Nat) (b : Option Nat) (id' : Nat) :
    itemAt (setBackward sl id b) id' = itemAt sl id' := by
  by_cases h : id = id'
  · subst h
    by_cases hlt : id < sl.nodes.length
    · simp [itemAt, setBackward, nodeAt_setNode_self _ _ hlt]
    · simp [itemAt, setBackward, setNode, nodeAt, List.set_eq_of_length_le (Nat.le_of_not_lt hlt)]
  · simp [itemAt, setBackward, nodeAt_setNode_ne _ _ h]

theorem backward_setBackward_self (sl : SkipList T) {id : Nat} (b : Option Nat)
    (h : id < sl.nodes.length) : (nodeAt (setBackward sl id b) id).backward = b := by
  simp [setBackward, nodeAt_setNode_self _ _ h]

theorem backward_setBackward_ne (sl : SkipList T) {id id' : Nat} (b : Option Nat)
    (h : id ≠ id') : (nodeAt (setBackward sl id b) id').backward = (nodeAt sl id').backward := by
  simp [setBackward, nodeAt_setNode_ne _ _ h]

/-! ### Position-list lemmas -/

theorem withPos_append (l1 l2 : List Nat) (p : Int) :
    withPos (l1 ++ l2) p = withPos l1 p ++ withPos l2 (p + l1.length) := by
  induction l1 generalizing p with
  | nil => simp [withPos]
  | cons a t ih => simp [withPos, ih (p + 1)]; ring_nf

theorem withPos_length (l : List Nat) (p : Int) : (withPos l p).length = l.length := by
  induction l generalizing p with
  | nil => rfl
  | cons a t ih => simp [withPos, ih]

theorem withPos_map_fst (l : List Nat) (p : Int) : (withPos l p).map Prod.fst = l := by
  induction l generalizing p with
  | nil => rfl
  | cons a t ih => simp [withPos, ih]

theorem mem_withPos {l : List Nat} {p : Int} {e : Nat × Int} (h : e ∈ withPos l p) :
    e.1 ∈ l ∧ p ≤ e.2 ∧ e.2 < p + l.length := by
  induction l generalizing p with
  | nil => simp [withPos] at h
  | cons a t ih =>
    simp only [withPos, List.mem_cons] at h
    rcases h with h | h
    · subst h
      refine ⟨List.mem_cons_self _ _, le_refl _, ?_⟩
      simp only [List.length_cons]
      push_cast
      omega
    · obtain ⟨h1, h2, h3⟩ := ih h
      refine ⟨List.mem_cons_of_mem _ h1, by omega, ?_⟩
      simp only [List.length_cons]
      push_cast at h3 ⊢
      omega

theorem withPos_pairwise (l : List Nat) (p : Int) :
    (withPos l p).Pairwise (fun a b => a.2 < b.2) := by
  induction l generalizing p with
  | nil => simp [withPos]
  | cons a t ih =>
    simp only [withPos, List.pairwise_cons]
    exact ⟨fun e he => by have := (mem_withPos he).2.1; omega, ih (p + 1)⟩

theorem withPos_get {l : List Nat} {p : Int} :
    ∀ {k : Nat}, k < l.length → (l.getD k 0, p + k) ∈ withPos l p := by
  induction l generalizing p with
  | nil => intro k h; simp at h
  | cons a t ih =>
    intro k h
    cases k with
    | zero => simp [withPos]
    | succ k =>
      simp only [withPos, List.mem_cons]
      right
      have := ih (p := p + 1) (k := k) (by simpa using h)
      have harith : p + 1 + (k : Int) = p + (k + 1 : Nat) := by push_cast; ring
      rw [harith] at this
      simpa using this

/-- Membership at a given position is unique in `withPos`. -/
theorem withPos_pos_inj {l : List Nat} {p : Int} {e f : Nat × Int}
    (he : e ∈ withPos l p) (hf : f ∈ withPos l p) (h : e.2 = f.2) : e = f := by
  induction l generalizing p with
  | nil => simp [withPos] at he
  | cons a t ih =>
    simp only [withPos, List.mem_cons] at he hf
    rcases he with he | he <;> rcases hf with hf | hf
    · rw [he, hf]
    · exfalso; have := (mem_withPos hf).2.1; rw [he] at h; simp at h; omega
    · exfalso; have := (mem_withPos he).2.1; rw [hf] at h; simp at h; omega
    · exact ih he hf

theorem levOf_sub {sl : SkipList T} {chain : List Nat} {i : Nat} {e : Nat × Int}
    (h : e ∈ levOf sl chain i) : e ∈ withPos chain 1 ∧ i < heightOf sl e.1 := by
  have := List.mem_filter.mp h
  exact ⟨this.1, by simpa using this.2⟩

theorem levOf_intro {sl : SkipList T} {chain : List Nat} {i : Nat} {e : Nat × Int}
    (h1 : e ∈ withPos chain 1) (h2 : i < heightOf sl e.1) : e ∈ levOf sl chain i :=
  List.mem_filter.mpr ⟨h1, by simpa using h2⟩

theorem levOf_mono {sl : SkipList T} {chain : List Nat} {i j : Nat} (hij : j ≤ i)
    {e : Nat × Int} (h : e ∈ levOf sl chain i) : e ∈ levOf sl chain j := by
  obtain ⟨h1, h2⟩ := levOf_sub h
  exact levOf_intro h1 (by omega)

theorem levOf_pairwise (sl : SkipList T) (chain : List Nat) (i : Nat) :
    (levOf sl chain i).Pairwise (fun a b => a.2 < b.2) :=
  (withPos_pairwise chain 1).filter _

theorem levOf_pos {sl : SkipList T} {chain : List Nat} {i : Nat} {e : Nat × Int}
    (h : e ∈ levOf sl chain i) : 1 ≤ e.2 ∧ e.2 ≤ chain.length := by
  have h2 := mem_withPos (levOf_sub h).1
  exact ⟨h2.2.1, by have := h2.2.2; omega⟩

theorem levOf_length_le (sl : SkipList T) (chain : List Nat) (i : Nat) :
    (levOf sl chain i).length ≤ chain.length := by
  calc (levOf sl chain i).length ≤ (withPos chain 1).length := List.length_filter_le _ _
    _ = chain.length := withPos_length _ _

/-- `levOf` only depends on the heights of the chain nodes. -/
theorem levOf_congr {sl sl' : SkipList T} {chain : List Nat} (i : Nat)
    (h : ∀ id ∈ chain, heightOf sl' id = heightOf sl id) :
    levOf sl' chain i = levOf sl chain i := by
  unfold levOf
  apply List.filter_congr
  intro e he
  have hmem : e.1 ∈ chain := by
    have := withPos_map_fst chain 1 ▸ List.mem_map_of_mem Prod.fst he
    exact this
  rw [h e.1 hmem]

theorem nodup_length_le (l : List Nat) (n : Nat) (hnd : l.Nodup) (h : ∀ x ∈ l, x < n) :
    l.length ≤ n := by
  have h1 : l.toFinset.card = l.length := List.toFinset_card_of_nodup hnd
  have h2 : l.toFinset ⊆ Finset.range n := by
    intro x hx
    simp only [Finset.mem_range]
    exact h x (List.mem_toFinset.mp hx)
  have := Finset.card_le_card h2
  rw [h1, Finset.card_range] at this
  exact this

theorem WF.chain_length_lt {sl : SkipList T} {chain : List Nat} (wf : WF sl chain) :
    chain.length < sl.nodes.length := by
  have hnd : (0 :: chain).Nodup := by
    refine List.nodup_cons.mpr ⟨fun h => ?_, wf.hnodup⟩
    exact (wf.hvalid 0 h).2 rfl
  have := nodup_length_le (0 :: chain) sl.nodes.length hnd (by
    intro x hx
    rcases List.mem_cons.mp hx with h | h
    · subst h; exact wf.hnodes
    · exact (wf.hvalid x h).1)
  simpa using this

/-! ### chainAt lemmas -/

theorem chainAt_congr {sl sl' : SkipList T} {len : Int} {i : Nat} :
    ∀ {l : List (Nat × Int)} {x : Nat} {p : Int}, chainAt sl len i x p l →
      lvlAt sl' x i = lvlAt sl x i →
      (∀ e ∈ l, lvlAt sl' e.1 i = lvlAt sl e.1 i) →
      chainAt sl' len i x p l := by
  intro l
  induction l with
  | nil => intro x p h hx _; exact ⟨hx ▸ h.1, hx ▸ h.2⟩
  | cons a t ih =>
    intro x p h hx hl
    obtain ⟨h1, h2, h3⟩ := h
    rcases a with ⟨v, q⟩
    exact ⟨hx ▸ h1, hx ▸ h2,
      ih h3 (hl (v, q) (List.mem_cons_self _ _)) (fun e he => hl e (List.mem_cons_of_mem _ he))⟩

/-- Shifting all positions and the total length by the same amount preserves `chainAt`. -/
theorem chainAt_shift {sl : SkipList T} {len δ : Int} {i : Nat} :
    ∀ {l : List (Nat × Int)} {x : Nat} {p : Int}, chainAt sl len i x p l →
      chainAt sl (len + δ) i x (p + δ) (l.map (fun e => (e.1, e.2 + δ))) := by
  intro l
  induction l with
  | nil =>
    intro x p h
    refine ⟨h.1, ?_⟩
    rw [h.2]; ring
  | cons a t ih =>
    intro x p h
    rcases a with ⟨v, q⟩
    obtain ⟨h1, h2, h3⟩ := h
    exact ⟨h1, by rw [h2]; ring, ih h3⟩

theorem dropLast_cons₂ {α : Type _} (a b : α) (l : List α) :
    (a :: b :: l).dropLast = a :: (b :: l).dropLast := rfl

/-- `segAt` depends only on the entries of `x` and the non-final elements of `l`. -/
theorem segAt_congr {sl sl' : SkipList T} {i : Nat} :
    ∀ {l : List (Nat × Int)} {x : Nat} {p : Int}, segAt sl i x p l →
      (∀ id ∈ x :: (l.map Prod.fst).dropLast, lvlAt sl' id i = lvlAt sl id i) →
      segAt sl' i x p l := by
  intro l
  induction l with
  | nil => intro x p _ _; trivial
  | cons a t ih =>
    intro x p h hl
    rcases a with ⟨v, q⟩
    obtain ⟨h1, h2, h3⟩ := h
    have hx := hl x (List.mem_cons_self _ _)
    refine ⟨hx ▸ h1, hx ▸ h2, ?_⟩
    cases t with
    | nil => trivial
    | cons b t2 =>
      refine ih h3 ?_
      intro id hid
      apply hl
      rcases List.mem_cons.mp hid with h | h
      · subst h
        simp only [List.map_cons]
        rw [dropLast_cons₂]
        exact List.mem_cons_of_mem _ (List.mem_cons_self _ _)
      · simp only [List.map_cons] at h ⊢
        rw [dropLast_cons₂]
        exact List.mem_cons_of_mem _ (List.mem_cons_of_mem _ h)

theorem chainAt_append {sl : SkipList T} {len : Int} {i : Nat} :
    ∀ {l1 l2 : List (Nat × Int)} {x : Nat} {p : Int},
      chainAt sl len i x p (l1 ++ l2) ↔
        segAt sl i x p l1 ∧
          chainAt sl len i (l1.getLastD (x, p)).1 (l1.getLastD (x, p)).2 l2 := by
  intro l1
  induction l1 with
  | nil => intro l2 x p; simp [segAt, List.getLastD]
  | cons a t ih =>
    intro l2 x p
    rcases a with ⟨v, q⟩
    constructor
    · intro h
      obtain ⟨h1, h2, h3⟩ := h
      have := ih.mp h3
      rw [List.getLastD_cons]
      exact ⟨⟨h1, h2, this.1⟩, this.2⟩
    · intro h
      obtain ⟨⟨h1, h2, hseg⟩, hch⟩ := h
      rw [List.getLastD_cons] at hch
      exact ⟨h1, h2, ih.mpr ⟨hseg, hch⟩⟩

theorem getLastD_mem_cons {α : Type _} : ∀ (l : List α) (d : α), l.getLastD d ∈ d :: l
  | [], _ => by simp [List.getLastD]
  | a :: t, d => by
    rw [List.getLastD_cons]
    rcases List.mem_cons.mp (getLastD_mem_cons t a) with h | h
    · rw [h]; exact List.mem_cons_of_mem _ (List.mem_cons_self _ _)
    · exact List.mem_cons_of_mem _ (List.mem_cons_of_mem _ h)

/-- From the full `chainAt` starting at `(x, px)`, the chain restarted at any of its
members `(u, r)` is the filtered tail of positions beyond `r`. -/
theorem chainAt_suffix {sl : SkipList T} {len : Int} {i : Nat} :
    ∀ {l : List (Nat × Int)} {x : Nat} {px : Int},
      chainAt sl len i x px l →
      l.Pairwise (fun a b => a.2 < b.2) →
      (∀ e ∈ l, px < e.2) →
      ∀ {u : Nat} {r : Int}, (u, r) ∈ (x, px) :: l →
        chainAt sl len i u r (l.filter (fun e => decide (r < e.2))) := by
  intro l
  induction l with
  | nil =>
    intro x px h _ _ u r hm
    simp only [List.mem_singleton] at hm
    have hu : u = x := congrArg Prod.fst hm
    have hr : r = px := congrArg Prod.snd hm
    rw [List.filter_nil, hu, hr]
    exact h
  | cons a t ih =>
    intro x px h hpw hgt u r hm
    obtain ⟨h1, h2, h3⟩ := h
    have hpw' := List.pairwise_cons.mp hpw
    rcases List.mem_cons.mp hm with he | he
    · -- (u, r) = (x, px): every element of a :: t has position > px = r
      have hu : u = x := congrArg Prod.fst he
      have hr : r = px := congrArg Prod.snd he
      have hfil : (a :: t).filter (fun e => decide (r < e.2)) = a :: t := by
        apply List.filter_eq_self.mpr
        intro e hme
        simp only [decide_eq_true_eq]
        have := hgt e hme
        omega
      rw [hfil, hu, hr]
      exact ⟨h1, h2, h3⟩
    · rcases List.mem_cons.mp he with hea | het
      · -- (u, r) = a
        have hu : u = a.1 := congrArg Prod.fst hea
        have hr : r = a.2 := congrArg Prod.snd hea
        have hfa : ¬ (decide (r < a.2) = true) := by simp; omega
        have hfil : (a :: t).filter (fun e => decide (r < e.2)) = t := by
          rw [List.filter_cons, if_neg hfa]
          apply List.filter_eq_self.mpr
          intro e hme
          simp only [decide_eq_true_eq]
          have := hpw'.1 e hme
          omega
        rw [hfil, hu, hr]
        exact h3
      · -- (u, r) ∈ t
        have hra : a.2 < r := hpw'.1 (u, r) het
        have hfil : (a :: t).filter (fun e => decide (r < e.2))
            = t.filter (fun e => decide (r < e.2)) := by
          rw [List.filter_cons, if_neg (by simp; omega)]
        rw [hfil]
        exact ih h3 hpw'.2 (fun e hme => hpw'.1 e hme) (List.mem_cons_of_mem _ het)

/-! ### Walk specification -/

/-- The advance loop consumes the maximal prefix of the remaining chain whose items
satisfy `p`, stops on its last element (or stays put), and leaves the chain suffix. -/
theorem walk_spec {sl : SkipList T} {len : Int} {i : Nat} {p : T → Bool} :
    ∀ {l : List (Nat × Int)} {x : Nat} {px : Int} {fuel : Nat},
      chainAt sl len i x px l → l.length ≤ fuel →
      ∃ l1 l2, l = l1 ++ l2 ∧
        (∀ e ∈ l1, p (itemAt sl e.1) = true) ∧
        walk sl p i x px fuel = l1.getLastD (x, px) ∧
        chainAt sl len i (l1.getLastD (x, px)).1 (l1.getLastD (x, px)).2 l2 ∧
        (∀ e ∈ l2.head?, p (itemAt sl e.1) = false) := by
  intro l
  induction l with
  | nil =>
    intro x px fuel h _
    refine ⟨[], [], by simp, by simp, ?_, by simpa [List.getLastD] using h, by simp⟩
    cases fuel with
    | zero => rfl
    | succ f => simp [walk, h.1]
  | cons a rest ih =>
    intro x px fuel h hf
    rcases a with ⟨v, q0⟩
    obtain ⟨h1, h2, h3⟩ := h
    cases fuel with
    | zero => simp at hf
    | succ f =>
      have hf' : rest.length ≤ f := by simpa using hf
      by_cases hp : p (itemAt sl v) = true
      · have harith : px + (lvlAt sl x i).span = q0 := by rw [h2]; ring
        obtain ⟨l1, l2, heq, hq, hw, hc, hh⟩ := ih h3 hf'
        refine ⟨(v, q0) :: l1, l2, by simp [heq], ?_, ?_, ?_, hh⟩
        · intro e he
          rcases List.mem_cons.mp he with he | he
          · rw [he]; exact hp
          · exact hq e he
        · simp only [walk, h1, hp, if_true]
          rw [harith, List.getLastD_cons]
          exact hw
        · rw [List.getLastD_cons]
          exact hc
      · refine ⟨[], (v, q0) :: rest, by simp, by simp, ?_, ?_, ?_⟩
        · simp [walk, h1, hp]
        · exact ⟨h1, h2, h3⟩
        · intro e he
          simp only [List.head?_cons, Option.mem_def, Option.some.injEq] at he
          rw [← he]
          exact Bool.not_eq_true _ ▸ (Bool.eq_false_iff.mpr (by simpa using hp))

/-- `walkN` is `walk` without the accumulator. -/
theorem walkN_eq_walk (sl : SkipList T) (p : T → Bool) (i : Nat) :
    ∀ (fuel x : Nat) (r : Int), walkN sl p i x fuel = (walk sl p i x r fuel).1 := by
  intro fuel
  induction fuel with
  | zero => intro x r; rfl
  | succ f ih =>
    intro x r
    simp only [walkN, walk]
    cases (lvlAt sl x i).forward with
    | none => rfl
    | some y =>
      simp only
      by_cases hp : p (itemAt sl y) = true
      · simp only [hp, if_true]
        exact ih y _
      · simp [hp]

theorem descendR_length (sl : SkipList T) (p : T → Bool) :
    ∀ (j : Nat) (x : Nat) (r : Int), (descendR sl p j x r).length = j + 1 := by
  intro j
  induction j with
  | zero => intro x r; rfl
  | succ j ih => intro x r; simp [descendR, ih]

/-- `descendU` records the node components of `descendR`. -/
theorem descendU_eq (sl : SkipList T) (p : T → Bool) :
    ∀ (j : Nat) (x : Nat) (r : Int),
      descendU sl p j x = (descendR sl p j x r).map Prod.fst := by
  intro j
  induction j with
  | zero => intro x r; simp [descendU, descendR, walkN_eq_walk sl p 0 _ x r]
  | succ j ih =>
    intro x r
    simp only [descendU, descendR, List.map_append, List.map_cons, List.map_nil]
    rw [walkN_eq_walk sl p (j+1) _ x r]
    rw [ih]

/-- `descendF` is the level-0 entry of `descendR`. -/
theorem descendF_eq (sl : SkipList T) (p : T → Bool) :
    ∀ (j : Nat) (x : Nat) (r : Int),
      descendF sl p j x r = (descendR sl p j x r).getD 0 (0, 0) := by
  intro j
  induction j with
  | zero => intro x r; simp [descendF, descendR]
  | succ j ih =>
    intro x r
    simp only [descendF, descendR]
    rw [ih]
    rw [List.getD_append]
    rw [descendR_length]
    omega

/-- Entries of `descendR` below the top level come from the recursive call. -/
theorem descendR_getD_lt (sl : SkipList T) (p : T → Bool) (j : Nat) (x : Nat) (r : Int)
    {k : Nat} (hk : k ≤ j) :
    (descendR sl p (j+1) x r).getD k (0, 0) =
      (descendR sl p j (walk sl p (j+1) x r sl.nodes.length).1
        (walk sl p (j+1) x r sl.nodes.length).2).getD k (0, 0) := by
  simp only [descendR]
  rw [List.getD_append]
  rw [descendR_length]
  omega

theorem descendR_getD_top (sl : SkipList T) (p : T → Bool) (j : Nat) (x : Nat) (r : Int) :
    (descendR sl p j x r).getD j (0, 0) = walk sl p j x r sl.nodes.length := by
  cases j with
  | zero => rfl
  | succ j =>
    simp only [descendR]
    rw [List.getD_append_right] <;> rw [descendR_length] <;> simp

theorem walk_levelStop {sl : SkipList T} {chain : List Nat} (wf : WF sl chain)
    {q : T → Bool} {j : Nat} (hj : j < sl.level) {x : Nat} {px : Int}
    (hm : (x, px) ∈ ((0 : Nat), (0 : Int)) :: levOf sl chain j)
    (hx : x ≠ 0 → q (itemAt sl x) = true) :
    LevelStop sl chain q j (x, px) (walk sl q j x px sl.nodes.length) := by
  have hch0 := wf.hchains j hj
  have hpw := levOf_pairwise sl chain j
  have hpos : ∀ e ∈ levOf sl chain j, (0 : Int) < e.2 := fun e he => (levOf_pos he).1
  have hsfx := chainAt_suffix hch0 hpw hpos hm
  set sfx := (levOf sl chain j).filter (fun e => decide (px < e.2)) with hsfxdef
  have hsub : ∀ e ∈ sfx, e ∈ levOf sl chain j := fun e he => (List.mem_filter.mp he).1
  have hgt : ∀ e ∈ sfx, px < e.2 := fun e he => by
    have := (List.mem_filter.mp he).2; simpa using this
  have hflen : sfx.length ≤ sl.nodes.length := by
    calc sfx.length ≤ (levOf sl chain j).length := List.length_filter_le _ _
      _ ≤ chain.length := levOf_length_le _ _ _
      _ ≤ sl.nodes.length := le_of_lt wf.chain_length_lt
  obtain ⟨l1, l2, heq, hq, hw, hc, hh⟩ := walk_spec hsfx hflen
  set s := l1.getLastD (x, px) with hsdef
  have hsmem : s = (x, px) ∨ s ∈ l1 := by
    rcases List.mem_cons.mp (getLastD_mem_cons l1 (x, px)) with h | h
    · exact Or.inl h
    · exact Or.inr h
  have hl1sub : ∀ e ∈ l1, e ∈ sfx := fun e he => heq ▸ List.mem_append_left _ he
  have hl2sub : ∀ e ∈ l2, e ∈ sfx := fun e he => heq ▸ List.mem_append_right _ he
  rw [hw]
  refine ⟨?_, ?_, ?_, ?_, ?_⟩
  · rcases hsmem with h | h
    · rw [h]; exact hm
    · exact List.mem_cons_of_mem _ (hsub s (hl1sub s h))
  · intro hne
    rcases hsmem with h | h
    · rw [h]; exact hx (by rw [h] at hne; exact hne)
    · exact hq s h
  · rcases hsmem with h | h
    · rw [h]
    · exact le_of_lt (hgt s (hl1sub s h))
  · intro e he hgt1 hle
    have hesfx : e ∈ sfx := List.mem_filter.mpr ⟨he, by simpa using hgt1⟩
    rw [heq] at hesfx
    rcases List.mem_append.mp hesfx with h | h
    · exact hq e h
    · -- e in the untraversed suffix: its position exceeds s.2, contradiction
      exfalso
      rcases hsmem with hs | hs
      · have := hgt e (hl2sub e h)
        rw [hs] at hle
        simp at hle
        omega
      · have hpw2 : sfx.Pairwise (fun a b => a.2 < b.2) := hpw.filter _
        rw [heq] at hpw2
        have := (List.pairwise_append.mp hpw2).2.2 s hs e h
        omega
  · intro y hy
    cases l2 with
    | nil =>
      rw [hc.1] at hy
      exact absurd hy (by simp)
    | cons e2 rest2 =>
      rcases e2 with ⟨v2, q2⟩
      have hfwd : (lvlAt sl s.1 j).forward = some v2 := hc.1
      rw [hfwd] at hy
      have hyv : y = v2 := by injection hy with h; exact h.symm
      rw [hyv]
      exact hh (v2, q2) (by simp)

/-- Full specification of the `insert`-style descent: every level's stop satisfies
`LevelStop` with respect to its start (the stop of the level above, or the run's
start at the top level). -/
theorem descendR_spec {sl : SkipList T} {chain : List Nat} (wf : WF sl chain)
    {q : T → Bool} :
    ∀ (j : Nat), j < sl.level → ∀ (x : Nat) (px : Int),
      (x, px) ∈ ((0 : Nat), (0 : Int)) :: levOf sl chain j →
      (x ≠ 0 → q (itemAt sl x) = true) →
      ∀ k, k ≤ j →
        LevelStop sl chain q k
          (if k = j then (x, px) else (descendR sl q j x px).getD (k+1) (0, 0))
          ((descendR sl q j x px).getD k (0, 0)) := by
  intro j
  induction j with
  | zero =>
    intro hj x px hm hx k hk
    interval_cases k
    simp only [if_pos rfl]
    rw [descendR_getD_top]
    exact walk_levelStop wf hj hm hx
  | succ j ih =>
    intro hj x px hm hx k hk
    have hstop := walk_levelStop wf hj hm hx
    set s := walk sl q (j+1) x px sl.nodes.length with hs
    have hsm : s ∈ ((0 : Nat), (0 : Int)) :: levOf sl chain j := by
      rcases List.mem_cons.mp hstop.1 with h | h
      · rw [h]; exact List.mem_cons_self _ _
      · exact List.mem_cons_of_mem _ (levOf_mono (Nat.le_succ j) h)
    by_cases hkj : k = j + 1
    · subst hkj
      simp only [if_pos rfl]
      rw [descendR_getD_top]
      exact hstop
    · have hk' : k ≤ j := by omega
      have hrec := ih (by omega) s.1 s.2 (by exact hsm) hstop.2.1 k hk'
      rw [descendR_getD_lt sl q j x px hk', if_neg hkj]
      by_cases hkj2 : k = j
      · subst hkj2
        rw [descendR_getD_top]
        have h2 := hrec
        rw [if_pos rfl] at h2
        exact h2
      · have : k + 1 ≤ j := by omega
        rw [descendR_getD_lt sl q j x px (by omega : k + 1 ≤ j)]
        simpa [if_neg hkj2] using hrec

theorem sameShape_refl (sl : SkipList T) : SameShape sl sl := by
  refine ⟨rfl, rfl, rfl, rfl, rfl, rfl, rfl, rfl, ?_, ?_, ?_⟩ <;> intro id <;> rfl

theorem sameShape_trans {s1 s2 s3 : SkipList T} (h1 : SameShape s1 s2) (h2 : SameShape s2 s3) :
    SameShape s1 s3 := by
  obtain ⟨a1, b1, c1, d1, e1, f1, g1, h1', i1, j1, k1⟩ := h1
  obtain ⟨a2, b2, c2, d2, e2, f2, g2, h2', i2, j2, k2⟩ := h2
  exact ⟨a1.trans a2, b1.trans b2, c1.trans c2, d1.trans d2, e1.trans e2, f1.trans f2,
    g1.trans g2, h1'.trans h2', fun id => (i1 id).trans (i2 id),
    fun id => (j1 id).trans (j2 id), fun id => (k1 id).trans (k2 id)⟩

theorem sameShape_setLvl (sl : SkipList T) (id i : Nat) (e : SLevel) :
    SameShape (setLvl sl id i e) sl := by
  refine ⟨by simp [setLvl], rfl, rfl, rfl, rfl, rfl, rfl, rfl,
    fun id' => heightOf_setLvl sl id i e id', fun id' => itemAt_setLvl sl id i e id',
    fun id' => backward_setLvl sl id i e id'⟩

theorem sameShape_foldl {f : SkipList T → Nat → SkipList T}
    (hf : ∀ s k, SameShape (f s k) s) :
    ∀ (l : List Nat) (s : SkipList T), SameShape (l.foldl f s) s := by
  intro l
  induction l with
  | nil => intro s; exact sameShape_refl s
  | cons a t ih =>
    intro s
    exact sameShape_trans (ih (f s a)) (hf s a)

/-- Characterization of the level-raising loop of `insert`
(`update[i].level[i].span = sl.length` for the new top levels). -/
theorem raise_fold_lvlAt (sl : SkipList T) (base n : Nat)
    (hh : base + n ≤ heightOf sl 0) (hn : 0 < sl.nodes.length) :
    ∀ id i, lvlAt ((List.range n).foldl
        (fun s k => setLvl s 0 (base + k) ⟨(lvlAt s 0 (base + k)).forward, s.length⟩) sl) id i
      = if id = 0 ∧ base ≤ i ∧ i < base + n
        then ⟨(lvlAt sl 0 i).forward, sl.length⟩ else lvlAt sl id i := by
  induction n with
  | zero =>
    intro id i
    simp only [List.range_zero, List.foldl_nil]
    rw [if_neg (by rintro ⟨_, h2, h3⟩; omega)]
  | succ n ih =>
    intro id i
    rw [List.range_succ, List.foldl_append, List.foldl_cons, List.foldl_nil]
    have ihh := ih (by omega)
    have hsh := sameShape_foldl (f := fun s k =>
      setLvl s 0 (base + k) ⟨(lvlAt s 0 (base + k)).forward, s.length⟩)
      (fun s k => sameShape_setLvl s 0 (base + k) _) (List.range n) sl
    set S := (List.range n).foldl
      (fun s k => setLvl s 0 (base + k) ⟨(lvlAt s 0 (base + k)).forward, s.length⟩) sl with hS
    have hlen : S.length = sl.length := hsh.2.2.1
    have hread : lvlAt S 0 (base + n) = lvlAt sl 0 (base + n) := by
      rw [ihh 0 (base + n)]
      simp
    by_cases hc : id = 0 ∧ i = base + n
    · obtain ⟨h1, h2⟩ := hc
      subst h1; subst h2
      rw [lvlAt_setLvl_self S _ (by rw [hsh.1]; exact hn)
        (by rw [hsh.2.2.2.2.2.2.2.2.1 0]; omega)]
      rw [hread, hlen]
      simp
    · have : lvlAt (setLvl S 0 (base + n) ⟨(lvlAt S 0 (base + n)).forward, S.length⟩) id i
          = lvlAt S id i := by
        rcases Decidable.not_and_iff_or_not.mp hc with h | h
        · exact lvlAt_setLvl_ne_id S _ _ (fun heq => h heq.symm) i
        · exact lvlAt_setLvl_ne_lvl S _ _ id (fun heq => h heq.symm)
      rw [this, ihh id i]
      by_cases hid : id = 0
      · subst hid
        by_cases hlt : base ≤ i ∧ i < base + n
        · rw [if_pos ⟨rfl, hlt.1, hlt.2⟩, if_pos ⟨rfl, hlt.1, by omega⟩]
        · have hlt2 : ¬ (base ≤ i ∧ i < base + (n + 1)) := by
            intro hcon
            have hne : i ≠ base + n := fun heq => hc ⟨rfl, heq⟩
            exact hlt ⟨hcon.1, by omega⟩
          rw [if_neg (by rintro ⟨_, h2, h3⟩; exact hlt ⟨h2, h3⟩),
              if_neg (by rintro ⟨_, h2, h3⟩; exact hlt2 ⟨h2, h3⟩)]
      · rw [if_neg (by rintro ⟨hh1, _, _⟩; exact hid hh1),
            if_neg (by rintro ⟨hh1, _, _⟩; exact hid hh1)]

/-- Characterization of the splice loop of `insert`.  `U i` is `update[i]`,
`d i = rank[0] - rank[i]`; requires the targets to be distinct from the new node
and writable. -/
theorem splice_fold_lvlAt (sl : SkipList T) (xid : Nat) (U : Nat → Nat) (d : Nat → Int)
    (n : Nat)
    (hux : ∀ i, i < n → U i ≠ xid)
    (hulen : ∀ i, i < n → U i < sl.nodes.length)
    (huh : ∀ i, i < n → i < heightOf sl (U i))
    (hxlen : xid < sl.nodes.length)
    (hxh : n ≤ heightOf sl xid) :
    ∀ a i, lvlAt ((List.range n).foldl (fun s i =>
        setLvl (setLvl s xid i ⟨(lvlAt s (U i) i).forward, (lvlAt s (U i) i).span - d i⟩)
          (U i) i ⟨some xid, d i + 1⟩) sl) a i
      = if i < n then
          (if a = xid then ⟨(lvlAt sl (U i) i).forward, (lvlAt sl (U i) i).span - d i⟩
           else if a = U i then ⟨some xid, d i + 1⟩
           else lvlAt sl a i)
        else lvlAt sl a i := by
  induction n with
  | zero => intro a i; simp
  | succ n ih =>
    intro a i
    rw [List.range_succ, List.foldl_append, List.foldl_cons, List.foldl_nil]
    have ihh := ih (fun i hi => hux i (by omega)) (fun i hi => hulen i (by omega))
      (fun i hi => huh i (by omega)) (by omega)
    have hsh := sameShape_foldl (f := fun s i =>
      setLvl (setLvl s xid i ⟨(lvlAt s (U i) i).forward, (lvlAt s (U i) i).span - d i⟩)
        (U i) i ⟨some xid, d i + 1⟩)
      (fun s i => sameShape_trans
        (sameShape_setLvl _ (U i) i _) (sameShape_setLvl s xid i _)) (List.range n) sl
    set S := (List.range n).foldl (fun s i =>
      setLvl (setLvl s xid i ⟨(lvlAt s (U i) i).forward, (lvlAt s (U i) i).span - d i⟩)
        (U i) i ⟨some xid, d i + 1⟩) sl with hS
    have hread : lvlAt S (U n) n = lvlAt sl (U n) n := by
      rw [ihh (U n) n]
      simp
    -- heights in S agree with sl
    have hts : ∀ id, heightOf S id = heightOf sl id := hsh.2.2.2.2.2.2.2.2.1
    have hSlen : S.nodes.length = sl.nodes.length := hsh.1
    -- the two writes of step n
    have hxw : xid < S.nodes.length := by rw [hSlen]; exact hxlen
    have hxh' : n < heightOf S xid := by rw [hts]; omega
    have huw : U n < (setLvl S xid n ⟨(lvlAt S (U n) n).forward, (lvlAt S (U n) n).span - d n⟩).nodes.length := by
      simp [setLvl, hSlen]
      exact hulen n (by omega)
    have huh' : n < heightOf (setLvl S xid n ⟨(lvlAt S (U n) n).forward, (lvlAt S (U n) n).span - d n⟩) (U n) := by
      rw [heightOf_setLvl, hts]
      exact huh n (by omega)
    by_cases hi : i = n
    · subst hi
      by_cases ha : a = U i
      · subst ha
        rw [lvlAt_setLvl_self _ _ huw huh']
        simp [if_pos (show i < i + 1 by omega), if_neg (Ne.symm (hux i (by omega))),
          hux i (by omega)]
      · rw [lvlAt_setLvl_ne_id _ _ _ (fun heq => ha heq.symm) i]
        by_cases hax : a = xid
        · subst hax
          rw [lvlAt_setLvl_self _ _ hxw hxh', hread]
          simp
        · rw [lvlAt_setLvl_ne_id _ _ _ (fun heq => hax heq.symm) i]
          rw [ihh a i]
          simp [hax, ha]
    · rw [lvlAt_setLvl_ne_lvl _ _ _ _ (fun heq => hi heq.symm)]
      rw [lvlAt_setLvl_ne_lvl _ _ _ _ (fun heq => hi heq.symm)]
      rw [ihh a i]
      by_cases hin : i < n
      · simp [hin, show i < n + 1 by omega]
      · simp [hin, show ¬ (i < n + 1) by omega]

/-- Characterization of the untouched-upper-levels loop of `insert`
(`update[i].level[i].span++`). -/
theorem bump_fold_lvlAt (sl : SkipList T) (U : Nat → Nat) (base n : Nat)
    (hulen : ∀ k, k < n → U (base + k) < sl.nodes.length)
    (huh : ∀ k, k < n → base + k < heightOf sl (U (base + k))) :
    ∀ a i, lvlAt ((List.range n).foldl (fun s k =>
        setLvl s (U (base + k)) (base + k)
          ⟨(lvlAt s (U (base + k)) (base + k)).forward,
           (lvlAt s (U (base + k)) (base + k)).span + 1⟩) sl) a i
      = if base ≤ i ∧ i < base + n ∧ a = U i then
          ⟨(lvlAt sl a i).forward, (lvlAt sl a i).span + 1⟩
        else lvlAt sl a i := by
  induction n with
  | zero =>
    intro a i
    simp only [List.range_zero, List.foldl_nil]
    rw [if_neg (by rintro ⟨h1, h2, _⟩; omega)]
  | succ n ih =>
    intro a i
    rw [List.range_succ, List.foldl_append, List.foldl_cons, List.foldl_nil]
    have ihh := ih (fun k hk => hulen k (by omega)) (fun k hk => huh k (by omega))
    have hsh := sameShape_foldl (f := fun s k =>
      setLvl s (U (base + k)) (base + k)
        ⟨(lvlAt s (U (base + k)) (base + k)).forward,
         (lvlAt s (U (base + k)) (base + k)).span + 1⟩)
      (fun s k => sameShape_setLvl s _ _ _) (List.range n) sl
    set S := (List.range n).foldl (fun s k =>
      setLvl s (U (base + k)) (base + k)
        ⟨(lvlAt s (U (base + k)) (base + k)).forward,
         (lvlAt s (U (base + k)) (base + k)).span + 1⟩) sl with hS
    have hread : lvlAt S (U (base + n)) (base + n) = lvlAt sl (U (base + n)) (base + n) := by
      rw [ihh (U (base + n)) (base + n)]
      simp
    by_cases hc : a = U (base + n) ∧ i = base + n
    · obtain ⟨h1, h2⟩ := hc
      subst h2; subst h1
      rw [lvlAt_setLvl_self S _ (by rw [hsh.1]; exact hulen n (by omega))
        (by rw [hsh.2.2.2.2.2.2.2.2.1]; exact huh n (by omega))]
      rw [hread]
      simp
    · have hnw : lvlAt (setLvl S (U (base + n)) (base + n)
          ⟨(lvlAt S (U (base + n)) (base + n)).forward,
           (lvlAt S (U (base + n)) (base + n)).span + 1⟩) a i = lvlAt S a i := by
        rcases Decidable.not_and_iff_or_not.mp hc with h | h
        · exact lvlAt_setLvl_ne_id S _ _ (fun heq => h heq.symm) i
        · exact lvlAt_setLvl_ne_lvl S _ _ a (fun heq => h heq.symm)
      rw [hnw, ihh a i]
      by_cases hin : base ≤ i ∧ i < base + n ∧ a = U i
      · simp only [if_pos hin, if_pos (show base ≤ i ∧ i < base + (n+1) ∧ a = U i by
          exact ⟨hin.1, by omega, hin.2.2⟩)]
      · have : ¬ (base ≤ i ∧ i < base + (n + 1) ∧ a = U i) := by
          intro hcon
          by_cases hieq : i = base + n
          · exact hc ⟨hieq ▸ hcon.2.2, hieq⟩
          · exact hin ⟨hcon.1, by omega, hcon.2.2⟩
        simp only [if_neg hin, if_neg this]

/-! ### More position-list helpers -/

theorem withPos_shift (l : List Nat) (p : Int) :
    withPos l (p + 1) = (withPos l p).map (fun e => (e.1, e.2 + 1)) := by
  induction l generalizing p with
  | nil => rfl
  | cons a t ih => simp [withPos, ih (p + 1)]

/-- A position-sorted list splits as the prefix `≤ c` followed by the suffix `> c`. -/
theorem sorted_split {l : List (Nat × Int)} (hpw : l.Pairwise (fun a b => a.2 < b.2)) (c : Int) :
    l = l.filter (fun e => decide (e.2 ≤ c)) ++ l.filter (fun e => decide (c < e.2)) := by
  induction l with
  | nil => rfl
  | cons a t ih =>
    have hpw' := List.pairwise_cons.mp hpw
    by_cases ha : a.2 ≤ c
    · rw [List.filter_cons, if_pos (by simpa using ha), List.filter_cons,
        if_neg (by simp; omega), List.cons_append]
      rw [← ih hpw'.2]
    · rw [List.filter_cons, if_neg (by simpa using ha), List.filter_cons,
        if_pos (by simp; omega)]
      have h1 : t.filter (fun e => decide (e.2 ≤ c)) = [] := by
        apply List.filter_eq_nil_iff.mpr
        intro e he
        have := hpw'.1 e he
        simp
        omega
      have h2 : t.filter (fun e => decide (c < e.2)) = t := by
        apply List.filter_eq_self.mpr
        intro e he
        have := hpw'.1 e he
        simp
        omega
      rw [h1, h2, List.nil_append]

theorem withPos_take_drop (chain : List Nat) (m : Nat) (hm : m ≤ chain.length) :
    (withPos chain 1).filter (fun e => decide (e.2 ≤ (m : Int))) = withPos (chain.take m) 1 ∧
    (withPos chain 1).filter (fun e => decide ((m : Int) < e.2)) = withPos (chain.drop m) (m + 1) := by
  have hsplit : withPos chain 1 = withPos (chain.take m) 1 ++ withPos (chain.drop m) (m + 1) := by
    conv_lhs => rw [← List.take_append_drop m chain]
    rw [withPos_append]
    congr 2
    rw [List.length_take]
    omega
  have htake : ∀ e ∈ withPos (chain.take m) 1, e.2 ≤ (m : Int) := by
    intro e he
    have := (mem_withPos he).2.2
    rw [List.length_take] at this
    omega
  have hdrop : ∀ e ∈ withPos (chain.drop m) (m + 1), (m : Int) < e.2 := by
    intro e he
    have := (mem_withPos he).2.1
    omega
  constructor
  · rw [hsplit, List.filter_append]
    rw [List.filter_eq_self.mpr (fun e he => by simpa using htake e he)]
    rw [List.filter_eq_nil_iff.mpr (fun e he => by have := hdrop e he; simp; omega)]
    simp
  · rw [hsplit, List.filter_append]
    rw [List.filter_eq_nil_iff.mpr (fun e he => by have := htake e he; simp; omega)]
    rw [List.filter_eq_self.mpr (fun e he => by simpa using hdrop e he)]
    simp

theorem updOf_levelStop {sl : SkipList T} {chain : List Nat} (wf : WF sl chain)
    (q : T → Bool) {k : Nat} (hk : k < sl.level) :
    LevelStop sl chain q k
      (if k = sl.level - 1 then ((0 : Nat), (0 : Int)) else updOf sl q (k + 1))
      (updOf sl q k) := by
  have h1 : sl.level - 1 < sl.level := by have := wf.hlevel1; omega
  exact descendR_spec wf (sl.level - 1) h1 0 0 (List.mem_cons_self _ _)
    (fun h => absurd rfl h) k (by omega)

theorem updOf_mem {sl : SkipList T} {chain : List Nat} (wf : WF sl chain)
    (q : T → Bool) {k : Nat} (hk : k < sl.level) :
    updOf sl q k ∈ ((0 : Nat), (0 : Int)) :: levOf sl chain k :=
  (updOf_levelStop wf q hk).1

theorem updOf_nonneg {sl : SkipList T} {chain : List Nat} (wf : WF sl chain)
    (q : T → Bool) {k : Nat} (hk : k < sl.level) : 0 ≤ (updOf sl q k).2 := by
  rcases List.mem_cons.mp (updOf_mem wf q hk) with h | h
  · rw [show (updOf sl q k).2 = ((0:Nat),(0:Int)).2 from congrArg Prod.snd h]
  · exact le_of_lt (by have := (levOf_pos h).1; omega)

theorem updOf_le_chain {sl : SkipList T} {chain : List Nat} (wf : WF sl chain)
    (q : T → Bool) {k : Nat} (hk : k < sl.level) : (updOf sl q k).2 ≤ chain.length := by
  rcases List.mem_cons.mp (updOf_mem wf q hk) with h | h
  · rw [show (updOf sl q k).2 = ((0:Nat),(0:Int)).2 from congrArg Prod.snd h]
    exact Int.ofNat_nonneg _
  · exact (levOf_pos h).2

/-- Stop positions grow as the level descends. -/
theorem updOf_mono {sl : SkipList T} {chain : List Nat} (wf : WF sl chain)
    (q : T → Bool) : ∀ {k k' : Nat}, k < sl.level → k' ≤ k →
      (updOf sl q k).2 ≤ (updOf sl q k').2 := by
  intro k
  induction k with
  | zero => intro k' _ h; interval_cases k'; exact le_refl _
  | succ k ih =>
    intro k' hk hk'
    by_cases hk2 : k' = k + 1
    · subst hk2; exact le_refl _
    · have hstep : (updOf sl q (k + 1)).2 ≤ (updOf sl q k).2 := by
        have hls := updOf_levelStop wf q (show k < sl.level by omega)
        rcases Decidable.em (k = sl.level - 1) with h | h
        · exfalso; have := wf.hlevel1; omega
        · rw [if_neg h] at hls
          exact hls.2.2.1
      exact le_trans hstep (ih (by omega) (by omega))

/-- No element of the level-`k` chain lies strictly between the level-`k` stop and
the level-0 stop: `update[k]` is the last level-`k` node at position `≤ rank[0]`. -/
theorem updOf_between {sl : SkipList T} {chain : List Nat} (wf : WF sl chain)
    (q : T → Bool) {k : Nat} (hk : k < sl.level) :
    ∀ c ∈ levOf sl chain k, c.2 ≤ (updOf sl q 0).2 → c.2 ≤ (updOf sl q k).2 := by
  intro c hc hc0
  by_contra hgt
  push_neg at hgt
  have hmem := updOf_mem wf q hk
  have hch : chainAt sl sl.length k (updOf sl q k).1 (updOf sl q k).2
      ((levOf sl chain k).filter (fun e => decide ((updOf sl q k).2 < e.2))) :=
    chainAt_suffix (wf.hchains k hk) (levOf_pairwise sl chain k)
      (fun e he => (levOf_pos he).1) (by exact hmem)
  set sfx := (levOf sl chain k).filter (fun e => decide ((updOf sl q k).2 < e.2)) with hsfx
  have hcin : c ∈ sfx := List.mem_filter.mpr ⟨hc, by simpa using hgt⟩
  cases hsq : sfx with
  | nil => rw [hsq] at hcin; simp at hcin
  | cons hd rest =>
    rcases hd with ⟨y, qy⟩
    rw [hsq] at hch
    have hfwd : (lvlAt sl (updOf sl q k).1 k).forward = some y := hch.1
    have hqy : q (itemAt sl y) = false := (updOf_levelStop wf q hk).2.2.2.2 y hfwd
    have hyin : (y, qy) ∈ sfx := by rw [hsq]; exact List.mem_cons_self _ _
    have hylev : (y, qy) ∈ levOf sl chain k := (List.mem_filter.mp hyin).1
    have hrk_qy : (updOf sl q k).2 < qy := by
      have := (List.mem_filter.mp hyin).2; simpa using this
    have hqy_c : qy ≤ c.2 := by
      rw [hsq] at hcin
      rcases List.mem_cons.mp hcin with h | h
      · rw [show c.2 = qy from congrArg Prod.snd h]
      · have hpw : sfx.Pairwise (fun a b => a.2 < b.2) := (levOf_pairwise sl chain k).filter _
        rw [hsq] at hpw
        exact le_of_lt ((List.pairwise_cons.mp hpw).1 c h)
    -- every stop position below level k stays below qy
    have key : ∀ d, d ≤ k → (updOf sl q (k - d)).2 < qy := by
      intro d
      induction d with
      | zero => intro _; simpa using hrk_qy
      | succ d ih =>
        intro hd
        have ihv := ih (by omega)
        set m := k - (d + 1) with hm
        have hm1 : k - d = m + 1 := by omega
        rw [hm1] at ihv
        by_contra hge
        push_neg at hge
        have hmlt : m < sl.level := by omega
        have hls := updOf_levelStop wf q hmlt
        have hmne : m ≠ sl.level - 1 := by have := wf.hlevel1; omega
        rw [if_neg hmne] at hls
        have hymem : (y, qy) ∈ levOf sl chain m := levOf_mono (by omega) hylev
        have := hls.2.2.2.1 (y, qy) hymem (by simpa using ihv) (by simpa using hge)
        rw [hqy] at this
        exact Bool.false_ne_true this
    have hfin := key k (le_refl k)
    simp only [Nat.sub_self] at hfin
    omega

/-! ### Helpers for the insert/delete preservation proofs -/

theorem getLastD_eq_getD {α : Type _} : ∀ (l : List α) (d : α), l.getLastD d = l.getD (l.length - 1) d
  | [], d => rfl
  | [a], d => rfl
  | a :: b :: t, d => by
    rw [List.getLastD_cons, getLastD_eq_getD (b :: t) a]
    simp [List.getD_cons_succ]

theorem getD_take (l : List α) (m k : Nat) (d : α) (hk : k < m) :
    (l.take m).getD k d = l.getD k d := by
  simp only [List.getD_eq_getElem?_getD]
  rw [List.getElem?_take]
  simp [hk]

/-- In a position-sorted list, an element of maximal position is the last. -/
theorem sorted_getLastD_eq : ∀ {l : List (Nat × Int)} {e : Nat × Int} (d : Nat × Int),
    l.Pairwise (fun a b => a.2 < b.2) → e ∈ l → (∀ f ∈ l, f.2 ≤ e.2) → l.getLastD d = e := by
  intro l
  induction l with
  | nil => intro e d _ he _; simp at he
  | cons a t ih =>
    intro e d hpw he hmax
    rw [List.getLastD_cons]
    cases t with
    | nil =>
      simp only [List.mem_singleton] at he
      rw [List.getLastD]
      exact he.symm
    | cons b t2 =>
      have hpw' := List.pairwise_cons.mp hpw
      rcases List.mem_cons.mp he with h | h
      · exfalso
        have h1 := hpw'.1 b (List.mem_cons_self _ _)
        have h2 := hmax b (List.mem_cons_of_mem _ (List.mem_cons_self _ _))
        rw [← h] at h1
        omega
      · exact ih a hpw'.2 h (fun f hf => hmax f (List.mem_cons_of_mem _ hf))

/-- Position determines the element of `withPos` of a duplicate-free list, and
conversely the element determines the position. -/
theorem withPos_fst_inj {chain : List Nat} (hnd : chain.Nodup) :
    ∀ {p : Int} {u : Nat} {p1 p2 : Int}, (u, p1) ∈ withPos chain p → (u, p2) ∈ withPos chain p →
      p1 = p2 := by
  induction chain with
  | nil => intro p u p1 p2 h; simp [withPos] at h
  | cons a t ih =>
    intro p u p1 p2 h1 h2
    have hnd' := List.nodup_cons.mp hnd
    simp only [withPos, List.mem_cons] at h1 h2
    rcases h1 with h1 | h1 <;> rcases h2 with h2 | h2
    · have := (congrArg Prod.snd h1).trans (congrArg Prod.snd h2).symm; exact this
    · exfalso
      have hu : u = a := congrArg Prod.fst h1
      have := (mem_withPos h2).1
      rw [hu] at this
      exact hnd'.1 this
    · exfalso
      have hu : u = a := congrArg Prod.fst h2
      have := (mem_withPos h1).1
      rw [hu] at this
      exact hnd'.1 this
    · exact ih hnd'.2 h1 h2

theorem withPos_mem_getD {chain : List Nat} {u : Nat} {r : Int}
    (h : (u, r) ∈ withPos chain 1) :
    chain.getD (r.toNat - 1) 0 = u ∧ 1 ≤ r ∧ r.toNat ≤ chain.length := by
  have hb := mem_withPos h
  have h1 : (1 : Int) ≤ r := hb.2.1
  have h2 : r.toNat ≤ chain.length := by
    have := hb.2.2
    omega
  have hk : r.toNat - 1 < chain.length := by omega
  have hget := withPos_get (l := chain) (p := 1) hk
  have harith : (1 : Int) + (r.toNat - 1 : Nat) = r := by
    push_cast
    omega
  rw [harith] at hget
  have := withPos_pos_inj hget h rfl
  exact ⟨congrArg Prod.fst this, h1, h2⟩

/-- The level-0 subchain is the full chain. -/
theorem lev0_eq {sl : SkipList T} {chain : List Nat} (wf : WF sl chain) :
    levOf sl chain 0 = withPos chain 1 := by
  apply List.filter_eq_self.mpr
  intro e he
  have : e.1 ∈ chain := by
    have := withPos_map_fst chain 1 ▸ List.mem_map_of_mem Prod.fst he
    exact this
  simp only [decide_eq_true_eq]
  exact (wf.hhts e.1 this).1

theorem optLast_cons (prev : Option Nat) (a : Nat) (t : List Nat) :
    optLast prev (a :: t) = optLast (some a) t := rfl

theorem getLastD_irrel {α : Type _} : ∀ {l : List α}, l ≠ [] → ∀ (d1 d2 : α),
    l.getLastD d1 = l.getLastD d2 := by
  intro l
  induction l with
  | nil => intro h; exact absurd rfl h
  | cons a t ih =>
    intro _ d1 d2
    rw [List.getLastD_cons, List.getLastD_cons]

theorem optLast_eq_some {l : List Nat} : l ≠ [] → ∀ (prev : Option Nat),
    optLast prev l = some (l.getLastD 0) := by
  induction l with
  | nil => intro h; exact absurd rfl h
  | cons a t ih =>
    intro _ prev
    rw [optLast_cons, List.getLastD_cons]
    cases ht : t with
    | nil => rfl
    | cons b t2 =>
      rw [← ht, ih (by rw [ht]; exact List.cons_ne_nil _ _) (some a),
        getLastD_irrel (by rw [ht]; exact List.cons_ne_nil _ _) 0 a]

theorem backOk_append {sl : SkipList T} :
    ∀ {l1 l2 : List Nat} {prev : Option Nat},
      backOk sl prev (l1 ++ l2) ↔ backOk sl prev l1 ∧ backOk sl (optLast prev l1) l2 := by
  intro l1
  induction l1 with
  | nil =>
    intro l2 prev
    exact ⟨fun h => ⟨trivial, h⟩, fun h => h.2⟩
  | cons a t ih =>
    intro l2 prev
    rw [optLast_cons]
    constructor
    · intro h
      obtain ⟨h1, h2⟩ := h
      have hr := ih.mp h2
      exact ⟨⟨h1, hr.1⟩, hr.2⟩
    · rintro ⟨⟨h1, h2⟩, h3⟩
      exact ⟨h1, ih.mpr ⟨h2, h3⟩⟩

theorem backOk_congr {sl sl' : SkipList T} :
    ∀ {l : List Nat} {prev : Option Nat}, backOk sl prev l →
      (∀ id ∈ l, (nodeAt sl' id).backward = (nodeAt sl id).backward) →
      backOk sl' prev l := by
  intro l
  induction l with
  | nil => intro prev _ _; trivial
  | cons a t ih =>
    intro prev h hc
    exact ⟨(hc a (List.mem_cons_self _ _)).trans h.1,
      ih h.2 (fun id hid => hc id (List.mem_cons_of_mem _ hid))⟩

theorem mem_of_getLastQ {α : Type _} {l : List α} {a : α} (h : l.getLast? = some a) : a ∈ l := by
  cases l with
  | nil => simp at h
  | cons b t =>
    rw [List.getLast?_cons] at h
    have h2 : t.getLastD b = a := by rw [List.getLastD_eq_getLast?]; injection h
    exact h2 ▸ getLastD_mem_cons t b

/-- Characterization of `allocNode`. -/
theorem allocNode_spec (sl : SkipList T) (lvl : Nat)
    (hfree : ∀ id ∈ sl.freelist, id < sl.nodes.length ∧ id ≠ 0)
    (hn : 0 < sl.nodes.length) :
    sl.nodes.length ≤ (allocNode sl lvl).1.nodes.length ∧
    (allocNode sl lvl).2 < (allocNode sl lvl).1.nodes.length ∧
    (allocNode sl lvl).2 ≠ 0 ∧
    ((allocNode sl lvl).2 = sl.nodes.length ∨ sl.freelist.getLast? = some (allocNode sl lvl).2) ∧
    (∀ id, id ≠ (allocNode sl lvl).2 → nodeAt (allocNode sl lvl).1 id = nodeAt sl id) ∧
    nodeAt (allocNode sl lvl).1 (allocNode sl lvl).2
      = ⟨default, none, List.replicate lvl ⟨none, 0⟩⟩ ∧
    (allocNode sl lvl).1.freelist = sl.freelist.dropLast ∧
    (allocNode sl lvl).1.tail = sl.tail ∧ (allocNode sl lvl).1.length = sl.length ∧
    (allocNode sl lvl).1.level = sl.level ∧ (allocNode sl lvl).1.maxLevel = sl.maxLevel ∧
    (allocNode sl lvl).1.freeCap = sl.freeCap ∧ (allocNode sl lvl).1.less = sl.less := by
  rcases hgl : sl.freelist.getLast? with _ | id0
  · have hfe : sl.freelist = [] := by
      cases hl : sl.freelist with
      | nil => rfl
      | cons a t =>
        exfalso
        rw [hl, List.getLast?_cons] at hgl
        exact Option.some_ne_none _ hgl
    have hA : allocNode sl lvl
        = ({ sl with nodes := sl.nodes ++ [⟨default, none, List.replicate lvl ⟨none, 0⟩⟩] },
           sl.nodes.length) := by
      unfold allocNode
      rw [hgl]
    rw [hA]
    refine ⟨by simp, by simp, by omega, Or.inl rfl, ?_, ?_, by simp [hfe], rfl, rfl, rfl, rfl,
      rfl, rfl⟩
    · intro id hid
      unfold nodeAt
      simp only
      by_cases h : id < sl.nodes.length
      · rw [List.getD_eq_getElem?_getD, List.getElem?_append_left h,
          ← List.getD_eq_getElem?_getD]
      · rw [List.getD_eq_getElem?_getD, List.getD_eq_getElem?_getD]
        rw [List.getElem?_eq_none (by simp; omega), List.getElem?_eq_none (by omega)]
    · unfold nodeAt
      simp only
      rw [List.getD_eq_getElem?_getD, List.getElem?_append_right (le_refl _)]
      simp
  · have hmem : id0 ∈ sl.freelist := mem_of_getLastQ hgl
    have hid0 := hfree id0 hmem
    have hB : allocNode sl lvl
        = ({ setNode sl id0 ⟨default, none, List.replicate lvl ⟨none, 0⟩⟩ with
              freelist := sl.freelist.dropLast }, id0) := by
      unfold allocNode
      rw [hgl]
    rw [hB]
    refine ⟨by simp [setNode], by simp [setNode]; omega, hid0.2, Or.inr rfl, ?_, ?_, rfl,
      rfl, rfl, rfl, rfl, rfl, rfl⟩
    · intro id hid
      show nodeAt (setNode sl id0 _) id = nodeAt sl id
      exact nodeAt_setNode_ne sl _ (fun h => hid h.symm)
    · show nodeAt (setNode sl id0 _) id0 = _
      exact nodeAt_setNode_self sl _ hid0.1

theorem insert_eq (sl : SkipList T) (v : T) (lvl : Nat) :
    insert sl v lvl = (insFin sl v lvl, insXid sl v lvl) := rfl

theorem getD_replicate {α : Type _} (n i : Nat) (c : α) : (List.replicate n c).getD i c = c := by
  by_cases h : i < n
  · simp [List.getD_eq_getElem?_getD, List.getElem?_replicate, h]
  · simp [List.getD_eq_getElem?_getD, List.getElem?_eq_none (show (List.replicate n c).length ≤ i by simp; omega)]

theorem insS1_shape (sl : SkipList T) (v : T) (lvl : Nat) : SameShape (insS1 sl v lvl) sl :=
  sameShape_foldl (fun s k => sameShape_setLvl s 0 (sl.level + k) _) _ sl

theorem insS1_lvlAt {sl : SkipList T} {chain : List Nat} (wf : WF sl chain) (v : T)
    {lvl : Nat} (hM : lvl ≤ sl.maxLevel) :
    ∀ a i, lvlAt (insS1 sl v lvl) a i
      = if a = 0 ∧ sl.level ≤ i ∧ i < sl.level + (lvl - sl.level)
        then ⟨(lvlAt sl 0 i).forward, sl.length⟩ else lvlAt sl a i := by
  apply raise_fold_lvlAt sl sl.level (lvl - sl.level)
  · rw [wf.hheadh]
    have := wf.hlevelM
    omega
  · exact wf.hnodes

/-- Bundled facts about the state after allocation and item assignment (`insS3`),
relative to the original list. -/
theorem insS3_facts {sl : SkipList T} {chain : List Nat} (wf : WF sl chain) (v : T)
    {lvl : Nat} (hM : lvl ≤ sl.maxLevel) :
    (sl.nodes.length ≤ (insS3 sl v lvl).nodes.length) ∧
    (insXid sl v lvl < (insS3 sl v lvl).nodes.length) ∧
    (insXid sl v lvl ≠ 0) ∧
    (insXid sl v lvl = sl.nodes.length ∨ sl.freelist.getLast? = some (insXid sl v lvl)) ∧
    (∀ a, heightOf (insS3 sl v lvl) a = if a = insXid sl v lvl then lvl else heightOf sl a) ∧
    (itemAt (insS3 sl v lvl) (insXid sl v lvl) = v) ∧
    (∀ a, a ≠ insXid sl v lvl → itemAt (insS3 sl v lvl) a = itemAt sl a) ∧
    ((nodeAt (insS3 sl v lvl) (insXid sl v lvl)).backward = none) ∧
    (∀ a, a ≠ insXid sl v lvl →
      (nodeAt (insS3 sl v lvl) a).backward = (nodeAt sl a).backward) ∧
    (∀ i, lvlAt (insS3 sl v lvl) (insXid sl v lvl) i = ⟨none, 0⟩) ∧
    (∀ a i, a ≠ insXid sl v lvl → lvlAt (insS3 sl v lvl) a i = lvlAt (insS1 sl v lvl) a i) ∧
    ((insS3 sl v lvl).tail = sl.tail ∧ (insS3 sl v lvl).length = sl.length ∧
     (insS3 sl v lvl).level = sl.level ∧ (insS3 sl v lvl).maxLevel = sl.maxLevel ∧
     (insS3 sl v lvl).freelist = sl.freelist.dropLast ∧
     (insS3 sl v lvl).freeCap = sl.freeCap ∧ (insS3 sl v lvl).less = sl.less) := by
  have hsh := insS1_shape sl v lvl
  have hfree1 : ∀ id ∈ (insS1 sl v lvl).freelist,
      id < (insS1 sl v lvl).nodes.length ∧ id ≠ 0 := by
    intro id hid
    rw [hsh.2.2.2.2.2.1] at hid
    rw [hsh.1]
    exact ⟨(wf.hfree id hid).1, (wf.hfree id hid).2.1⟩
  have hn1 : 0 < (insS1 sl v lvl).nodes.length := by rw [hsh.1]; exact wf.hnodes
  obtain ⟨hA1, hA2, hA3, hA4, hA5, hA6, hA7, hA8, hA9, hA10, hA11, hA12, hA13⟩ :=
    allocNode_spec (insS1 sl v lvl) lvl hfree1 hn1
  have hxid : (allocNode (insS1 sl v lvl) lvl).2 = insXid sl v lvl := rfl
  set x := insXid sl v lvl with hx
  set N1 := (allocNode (insS1 sl v lvl) lvl).1 with hN1
  rw [hxid] at hA2 hA3 hA4 hA5 hA6
  have hxlt : x < N1.nodes.length := hA2
  have hs3nodes : (insS3 sl v lvl).nodes.length = N1.nodes.length := by
    show (setItem N1 x v).nodes.length = N1.nodes.length
    simp [setItem]
  have hnode3x : nodeAt (insS3 sl v lvl) x = ⟨v, none, List.replicate lvl ⟨none, 0⟩⟩ := by
    show nodeAt (setItem N1 x v) x = _
    unfold setItem
    rw [nodeAt_setNode_self _ _ hxlt, hA6]
  have hnode3ne : ∀ a, a ≠ x → nodeAt (insS3 sl v lvl) a = nodeAt (insS1 sl v lvl) a := by
    intro a ha
    show nodeAt (setItem N1 x v) a = _
    unfold setItem
    rw [nodeAt_setNode_ne _ _ (fun h => ha h.symm)]
    exact hA5 a ha
  refine ⟨?_, ?_, hA3, ?_, ?_, ?_, ?_, ?_, ?_, ?_, ?_, ?_⟩
  · rw [hs3nodes, ← hsh.1]; exact hA1
  · rw [hs3nodes]; exact hA2
  · rcases hA4 with h | h
    · left; rw [h, hsh.1]
    · right; rwa [hsh.2.2.2.2.2.1] at h
  · intro a
    by_cases ha : a = x
    · subst ha
      rw [if_pos rfl]
      show (nodeAt (insS3 sl v lvl) x).level.length = lvl
      rw [hnode3x]
      simp
    · rw [if_neg ha]
      show (nodeAt (insS3 sl v lvl) a).level.length = heightOf sl a
      rw [hnode3ne a ha]
      exact hsh.2.2.2.2.2.2.2.2.1 a
  · show (nodeAt (insS3 sl v lvl) x).item = v
    rw [hnode3x]
  · intro a ha
    show (nodeAt (insS3 sl v lvl) a).item = itemAt sl a
    rw [hnode3ne a ha]
    exact hsh.2.2.2.2.2.2.2.2.2.1 a
  · rw [hnode3x]
  · intro a ha
    rw [hnode3ne a ha]
    exact hsh.2.2.2.2.2.2.2.2.2.2 a
  · intro i
    show (nodeAt (insS3 sl v lvl) x).level.getD i ⟨none, 0⟩ = ⟨none, 0⟩
    rw [hnode3x]
    exact getD_replicate lvl i (⟨none, 0⟩ : SLevel)
  · intro a i ha
    show (nodeAt (insS3 sl v lvl) a).level.getD i ⟨none, 0⟩ = lvlAt (insS1 sl v lvl) a i
    rw [hnode3ne a ha]
    rfl
  · refine ⟨?_, ?_, ?_, ?_, ?_, ?_, ?_⟩
    · show (setItem N1 x v).tail = sl.tail
      rw [show (setItem N1 x v).tail = N1.tail from rfl, hA8, hsh.2.1]
    · show (setItem N1 x v).length = sl.length
      rw [show (setItem N1 x v).length = N1.length from rfl, hA9, hsh.2.2.1]
    · show (setItem N1 x v).level = sl.level
      rw [show (setItem N1 x v).level = N1.level from rfl, hA10, hsh.2.2.2.1]
    · show (setItem N1 x v).maxLevel = sl.maxLevel
      rw [show (setItem N1 x v).maxLevel = N1.maxLevel from rfl, hA11, hsh.2.2.2.2.1]
    · show (setItem N1 x v).freelist = sl.freelist.dropLast
      rw [show (setItem N1 x v).freelist = N1.freelist from rfl, hA7, hsh.2.2.2.2.2.1]
    · show (setItem N1 x v).freeCap = sl.freeCap
      rw [show (setItem N1 x v).freeCap = N1.freeCap from rfl, hA12, hsh.2.2.2.2.2.2.1]
    · show (setItem N1 x v).less = sl.less
      rw [show (setItem N1 x v).less = N1.less from rfl, hA13, hsh.2.2.2.2.2.2.2.1]

/-- Facts about `update[i]` as used by `insert` (guarded by `i < sl.level`). -/
theorem insUpd_facts {sl : SkipList T} {chain : List Nat} (wf : WF sl chain) (v : T)
    {lvl : Nat} (hM : lvl ≤ sl.maxLevel) :
    ∀ i < max sl.level lvl,
      insUpd sl v i < sl.nodes.length ∧
      i < heightOf sl (insUpd sl v i) ∧
      (insUpd sl v i = 0 ∨ insUpd sl v i ∈ chain) := by
  intro i hi
  by_cases hil : i < sl.level
  · unfold insUpd
    rw [if_pos hil]
    rcases List.mem_cons.mp (updOf_mem wf (insQ sl v) hil) with h | h
    · have h0 : (updOf sl (insQ sl v) i).1 = 0 := congrArg Prod.fst h
      rw [h0]
      refine ⟨wf.hnodes, ?_, Or.inl rfl⟩
      rw [wf.hheadh]
      have := wf.hlevelM
      omega
    · obtain ⟨hw, hh⟩ := levOf_sub h
      have hmem : (updOf sl (insQ sl v) i).1 ∈ chain := by
        have := withPos_map_fst chain 1 ▸ List.mem_map_of_mem Prod.fst hw
        exact this
      exact ⟨(wf.hvalid _ hmem).1, hh, Or.inr hmem⟩
  · unfold insUpd
    rw [if_neg hil]
    refine ⟨wf.hnodes, ?_, Or.inl rfl⟩
    rw [wf.hheadh]
    omega

theorem insUpd_ne_xid {sl : SkipList T} {chain : List Nat} (wf : WF sl chain) (v : T)
    {lvl : Nat} (hM : lvl ≤ sl.maxLevel) :
    ∀ i < max sl.level lvl, insUpd sl v i ≠ insXid sl v lvl := by
  intro i hi
  obtain ⟨_, _, hx0, hxor, _⟩ := insS3_facts wf v hM
  rcases (insUpd_facts wf v hM i hi).2.2 with h | h
  · rw [h]; exact fun heq => hx0 heq.symm
  · intro heq
    rcases hxor with h2 | h2
    · have := (wf.hvalid _ h).1
      omega
    · exact (wf.hfree _ (mem_of_getLastQ h2)).2.2 (heq ▸ h)

/-- The final-state level entries of `insert`, in terms of the original state. -/
theorem insFin_lvlAt {sl : SkipList T} {chain : List Nat} (wf : WF sl chain) (v : T)
    {lvl : Nat} (hM : lvl ≤ sl.maxLevel) :
    ∀ a i, lvlAt (insFin sl v lvl) a i =
      if i < lvl ∧ a = insXid sl v lvl then
        (if i < sl.level then
          ⟨(lvlAt sl (insUpd sl v i) i).forward,
           (lvlAt sl (insUpd sl v i) i).span - (insRnk sl v 0 - insRnk sl v i)⟩
         else ⟨(lvlAt sl 0 i).forward, sl.length - (insRnk sl v 0 - insRnk sl v i)⟩)
      else if i < lvl ∧ a = insUpd sl v i then
        ⟨some (insXid sl v lvl), (insRnk sl v 0 - insRnk sl v i) + 1⟩
      else if lvl ≤ i ∧ i < max sl.level lvl ∧ a = insUpd sl v i then
        ⟨(lvlAt sl a i).forward, (lvlAt sl a i).span + 1⟩
      else if a = insXid sl v lvl then ⟨none, 0⟩
      else lvlAt sl a i := by
  obtain ⟨hN, hxN, hx0, hxor, hh3, hit3, hit3n, hbw3, hbw3n, hlv3x, hlv3n, hmisc⟩ :=
    insS3_facts wf v hM
  have hs3h : ∀ i, i < lvl → i < heightOf (insS3 sl v lvl) (insUpd sl v i) := by
    intro i hi
    rw [hh3 (insUpd sl v i), if_neg (insUpd_ne_xid wf v hM i (by omega))]
    exact (insUpd_facts wf v hM i (by omega)).2.1
  have hs3len : ∀ i, i < lvl → insUpd sl v i < (insS3 sl v lvl).nodes.length := by
    intro i hi
    have := (insUpd_facts wf v hM i (by omega)).1
    omega
  have h4 : ∀ a i, lvlAt (insS4 sl v lvl) a i =
      if i < lvl then
        (if a = insXid sl v lvl then
            ⟨(lvlAt (insS3 sl v lvl) (insUpd sl v i) i).forward,
             (lvlAt (insS3 sl v lvl) (insUpd sl v i) i).span
               - (insRnk sl v 0 - insRnk sl v i)⟩
         else if a = insUpd sl v i then
            ⟨some (insXid sl v lvl), (insRnk sl v 0 - insRnk sl v i) + 1⟩
         else lvlAt (insS3 sl v lvl) a i)
      else lvlAt (insS3 sl v lvl) a i := by
    intro a i
    exact splice_fold_lvlAt (insS3 sl v lvl) (insXid sl v lvl) (insUpd sl v)
      (fun i => insRnk sl v 0 - insRnk sl v i) lvl
      (fun i hi => insUpd_ne_xid wf v hM i (by omega)) hs3len hs3h hxN
      (by rw [hh3 (insXid sl v lvl), if_pos rfl]) a i
  have hsh4 : SameShape (insS4 sl v lvl) (insS3 sl v lvl) :=
    sameShape_foldl (fun s i => sameShape_trans
      (sameShape_setLvl _ (insUpd sl v i) i _) (sameShape_setLvl s (insXid sl v lvl) i _)) _ _
  have hs4len : ∀ k, k < max sl.level lvl - lvl →
      insUpd sl v (lvl + k) < (insS4 sl v lvl).nodes.length := by
    intro k hk
    rw [hsh4.1]
    have := (insUpd_facts wf v hM (lvl + k) (by omega)).1
    omega
  have hs4h : ∀ k, k < max sl.level lvl - lvl →
      lvl + k < heightOf (insS4 sl v lvl) (insUpd sl v (lvl + k)) := by
    intro k hk
    rw [hsh4.2.2.2.2.2.2.2.2.1, hh3 (insUpd sl v (lvl + k)),
      if_neg (insUpd_ne_xid wf v hM (lvl + k) (by omega))]
    exact (insUpd_facts wf v hM (lvl + k) (by omega)).2.1
  have h5 : ∀ a i, lvlAt (insS5 sl v lvl) a i =
      if lvl ≤ i ∧ i < lvl + (max sl.level lvl - lvl) ∧ a = insUpd sl v i then
        ⟨(lvlAt (insS4 sl v lvl) a i).forward, (lvlAt (insS4 sl v lvl) a i).span + 1⟩
      else lvlAt (insS4 sl v lvl) a i := by
    intro a i
    exact bump_fold_lvlAt (insS4 sl v lvl) (insUpd sl v) lvl (max sl.level lvl - lvl)
      hs4len hs4h a i
  have h7 : ∀ a i, lvlAt (insS7 sl v lvl) a i = lvlAt (insS6 sl v lvl) a i := by
    intro a i
    unfold insS7
    cases hf : (lvlAt (insS6 sl v lvl) (insXid sl v lvl) 0).forward with
    | none => rfl
    | some f => exact lvlAt_setBackward _ _ _ a i
  have hfin5 : ∀ a i, lvlAt (insFin sl v lvl) a i = lvlAt (insS5 sl v lvl) a i := by
    intro a i
    calc lvlAt (insFin sl v lvl) a i = lvlAt (insS7 sl v lvl) a i := rfl
      _ = lvlAt (insS6 sl v lvl) a i := h7 a i
      _ = lvlAt (insS5 sl v lvl) a i := lvlAt_setBackward _ _ _ a i
  intro a i
  rw [hfin5 a i, h5 a i, h4 a i]
  by_cases hc1 : i < lvl ∧ a = insXid sl v lvl
  · rw [if_pos hc1]
    rw [if_neg (by rintro ⟨hl, _, _⟩; omega)]
    rw [if_pos hc1.1, if_pos hc1.2]
    rw [hlv3n _ i (insUpd_ne_xid wf v hM i (by omega)),
      insS1_lvlAt wf v hM (insUpd sl v i) i]
    by_cases hil : i < sl.level
    · rw [if_pos hil]
      rw [if_neg (by rintro ⟨_, hle, _⟩; omega)]
    · rw [if_neg hil]
      have hU0 : insUpd sl v i = 0 := by unfold insUpd; rw [if_neg hil]
      have hcond : insUpd sl v i = 0 ∧ sl.level ≤ i ∧ i < sl.level + (lvl - sl.level) := by
        refine ⟨hU0, by omega, ?_⟩
        have := wf.hlevel1
        omega
      rw [if_pos hcond]
  · rw [if_neg hc1]
    by_cases hc2 : i < lvl ∧ a = insUpd sl v i
    · rw [if_pos hc2]
      have hax : ¬ a = insXid sl v lvl := fun h => hc1 ⟨hc2.1, h⟩
      rw [if_neg (by rintro ⟨hl, _, _⟩; omega)]
      rw [if_pos hc2.1, if_neg hax, if_pos hc2.2]
    · rw [if_neg hc2]
      by_cases hc3 : lvl ≤ i ∧ i < max sl.level lvl ∧ a = insUpd sl v i
      · rw [if_pos hc3]
        have hbump : lvl ≤ i ∧ i < lvl + (max sl.level lvl - lvl) ∧ a = insUpd sl v i := by
          refine ⟨hc3.1, by omega, hc3.2.2⟩
        rw [if_pos hbump]
        rw [if_neg (show ¬ i < lvl by omega)]
        have hax : a ≠ insXid sl v lvl := by
          rw [hc3.2.2]
          exact insUpd_ne_xid wf v hM i (by omega)
        rw [hlv3n a i hax, insS1_lvlAt wf v hM a i]
        have hilvl : i < sl.level := by omega
        rw [if_neg (by rintro ⟨_, hle, hlt⟩; omega)]
      · rw [if_neg hc3]
        have hnb : ¬ (lvl ≤ i ∧ i < lvl + (max sl.level lvl - lvl) ∧ a = insUpd sl v i) := by
          rintro ⟨hl, hlt, heq⟩
          exact hc3 ⟨hl, by omega, heq⟩
        rw [if_neg hnb]
        by_cases hc4 : a = insXid sl v lvl
        · rw [if_pos hc4]
          have hnl : ¬ i < lvl := fun h => hc1 ⟨h, hc4⟩
          rw [if_neg hnl, hc4, hlv3x i, if_pos rfl]
        · rw [if_neg hc4]
          by_cases hil : i < lvl
          · rw [if_pos hil, if_neg hc4, if_neg (fun h => hc2 ⟨hil, h⟩)]
            rw [hlv3n a i hc4, insS1_lvlAt wf v hM a i]
            have hcond : ¬ (a = 0 ∧ sl.level ≤ i ∧ i < sl.level + (lvl - sl.level)) := by
              rintro ⟨ha0, hle, hlt⟩
              have hUi : insUpd sl v i = 0 := by unfold insUpd; rw [if_neg (by omega)]
              exact hc2 ⟨hil, by rw [ha0, hUi]⟩
            rw [if_neg hcond]
          · rw [if_neg hil, hlv3n a i hc4, insS1_lvlAt wf v hM a i]
            rw [if_neg (show ¬ (a = 0 ∧ sl.level ≤ i ∧ i < sl.level + (lvl - sl.level)) by
              rintro ⟨ha0, hle, hlt⟩; omega), if_neg hc4]

theorem insS5_shape (sl : SkipList T) (v : T) (lvl : Nat) :
    SameShape (insS5 sl v lvl) (insS3 sl v lvl) := by
  have hsh4 : SameShape (insS4 sl v lvl) (insS3 sl v lvl) :=
    sameShape_foldl (fun s i => sameShape_trans
      (sameShape_setLvl _ (insUpd sl v i) i _) (sameShape_setLvl s (insXid sl v lvl) i _)) _ _
  have hsh5 : SameShape (insS5 sl v lvl) (insS4 sl v lvl) :=
    sameShape_foldl (fun s k => sameShape_setLvl s _ _ _) _ _
  exact sameShape_trans hsh5 hsh4

theorem insS6_lvlAt_eq_fin (sl : SkipList T) (v : T) (lvl : Nat) :
    ∀ a i, lvlAt (insS6 sl v lvl) a i = lvlAt (insFin sl v lvl) a i := by
  intro a i
  have h7 : lvlAt (insS7 sl v lvl) a i = lvlAt (insS6 sl v lvl) a i := by
    unfold insS7
    cases hf : (lvlAt (insS6 sl v lvl) (insXid sl v lvl) 0).forward with
    | none => rfl
    | some f => exact lvlAt_setBackward _ _ _ a i
  calc lvlAt (insS6 sl v lvl) a i = lvlAt (insS7 sl v lvl) a i := h7.symm
    _ = lvlAt (insFin sl v lvl) a i := rfl

/-- The match scrutinee of the tail fix of `insert` is the inherited level-0 forward. -/
theorem insS6_fwd {sl : SkipList T} {chain : List Nat} (wf : WF sl chain) (v : T)
    {lvl : Nat} (h1 : 1 ≤ lvl) (hM : lvl ≤ sl.maxLevel) :
    (lvlAt (insS6 sl v lvl) (insXid sl v lvl) 0).forward = insFwd0 sl v := by
  rw [insS6_lvlAt_eq_fin sl v lvl, insFin_lvlAt wf v hM (insXid sl v lvl) 0]
  rw [if_pos ⟨by omega, rfl⟩, if_pos (show 0 < sl.level from wf.hlevel1)]
  rfl

theorem insFin_misc {sl : SkipList T} {chain : List Nat} (wf : WF sl chain) (v : T)
    {lvl : Nat} (hM : lvl ≤ sl.maxLevel) :
    (insFin sl v lvl).nodes.length = (insS3 sl v lvl).nodes.length ∧
    (insFin sl v lvl).length = sl.length + 1 ∧
    (insFin sl v lvl).level = max sl.level lvl ∧
    (insFin sl v lvl).maxLevel = sl.maxLevel ∧
    (insFin sl v lvl).freelist = sl.freelist.dropLast ∧
    (insFin sl v lvl).freeCap = sl.freeCap ∧
    (insFin sl v lvl).less = sl.less := by
  obtain ⟨_, _, _, _, _, _, _, _, _, _, _, hm1, hm2, hm3, hm4, hm5, hm6, hm7⟩ :=
    insS3_facts wf v hM
  have hsh := insS5_shape sl v lvl
  have hs7 : (insS7 sl v lvl).nodes.length = (insS5 sl v lvl).nodes.length ∧
      (insS7 sl v lvl).length = (insS5 sl v lvl).length ∧
      (insS7 sl v lvl).level = (insS5 sl v lvl).level ∧
      (insS7 sl v lvl).maxLevel = (insS5 sl v lvl).maxLevel ∧
      (insS7 sl v lvl).freelist = (insS5 sl v lvl).freelist ∧
      (insS7 sl v lvl).freeCap = (insS5 sl v lvl).freeCap ∧
      (insS7 sl v lvl).less = (insS5 sl v lvl).less := by
    unfold insS7
    cases hf : (lvlAt (insS6 sl v lvl) (insXid sl v lvl) 0).forward with
    | none => exact ⟨by simp [insS6, setBackward, setNode], rfl, rfl, rfl, rfl, rfl, rfl⟩
    | some f => exact ⟨by simp [setBackward, setNode, insS6, List.length_set], rfl, rfl, rfl,
        rfl, rfl, rfl⟩
  refine ⟨?_, ?_, ?_, ?_, ?_, ?_, ?_⟩
  · show (insS7 sl v lvl).nodes.length = _
    rw [hs7.1]
    exact hsh.1
  · show (insS7 sl v lvl).length + 1 = sl.length + 1
    rw [hs7.2.1]
    show (insS5 sl v lvl).length + 1 = sl.length + 1
    rw [hsh.2.2.1, hm2]
  · rfl
  · show (insS7 sl v lvl).maxLevel = _
    rw [hs7.2.2.2.1]
    show (insS5 sl v lvl).maxLevel = _
    rw [hsh.2.2.2.2.1, hm4]
  · show (insS7 sl v lvl).freelist = _
    rw [hs7.2.2.2.2.1]
    show (insS5 sl v lvl).freelist = _
    rw [hsh.2.2.2.2.2.1, hm5]
  · show (insS7 sl v lvl).freeCap = _
    rw [hs7.2.2.2.2.2.1]
    show (insS5 sl v lvl).freeCap = _
    rw [hsh.2.2.2.2.2.2.1, hm6]
  · show (insS7 sl v lvl).less = _
    rw [hs7.2.2.2.2.2.2]
    show (insS5 sl v lvl).less = _
    rw [hsh.2.2.2.2.2.2.2.1, hm7]

theorem insFin_heightOf {sl : SkipList T} {chain : List Nat} (wf : WF sl chain) (v : T)
    {lvl : Nat} (hM : lvl ≤ sl.maxLevel) :
    ∀ a, heightOf (insFin sl v lvl) a = if a = insXid sl v lvl then lvl else heightOf sl a := by
  intro a
  obtain ⟨_, _, _, _, hh3, _⟩ := insS3_facts wf v hM
  have hsh := insS5_shape sl v lvl
  have h6 : heightOf (insS6 sl v lvl) a = heightOf (insS5 sl v lvl) a :=
    heightOf_setBackward _ _ _ a
  have h7 : heightOf (insS7 sl v lvl) a = heightOf (insS6 sl v lvl) a := by
    unfold insS7
    cases hf : (lvlAt (insS6 sl v lvl) (insXid sl v lvl) 0).forward with
    | none => rfl
    | some f => exact heightOf_setBackward _ _ _ a
  calc heightOf (insFin sl v lvl) a = heightOf (insS7 sl v lvl) a := rfl
    _ = heightOf (insS5 sl v lvl) a := by rw [h7, h6]
    _ = heightOf (insS3 sl v lvl) a := hsh.2.2.2.2.2.2.2.2.1 a
    _ = _ := hh3 a

theorem insFin_itemAt {sl : SkipList T} {chain : List Nat} (wf : WF sl chain) (v : T)
    {lvl : Nat} (hM : lvl ≤ sl.maxLevel) :
    itemAt (insFin sl v lvl) (insXid sl v lvl) = v ∧
    (∀ a, a ≠ insXid sl v lvl → itemAt (insFin sl v lvl) a = itemAt sl a) := by
  obtain ⟨_, _, _, _, _, hit3, hit3n, _⟩ := insS3_facts wf v hM
  have hsh := insS5_shape sl v lvl
  have key : ∀ a, itemAt (insFin sl v lvl) a = itemAt (insS3 sl v lvl) a := by
    intro a
    have h6 : itemAt (insS6 sl v lvl) a = itemAt (insS5 sl v lvl) a :=
      itemAt_setBackward _ _ _ a
    have h7 : itemAt (insS7 sl v lvl) a = itemAt (insS6 sl v lvl) a := by
      unfold insS7
      cases hf : (lvlAt (insS6 sl v lvl) (insXid sl v lvl) 0).forward with
      | none => rfl
      | some f => exact itemAt_setBackward _ _ _ a
    calc itemAt (insFin sl v lvl) a = itemAt (insS7 sl v lvl) a := rfl
      _ = itemAt (insS5 sl v lvl) a := by rw [h7, h6]
      _ = itemAt (insS3 sl v lvl) a := hsh.2.2.2.2.2.2.2.2.2.1 a
  exact ⟨(key _).trans hit3, fun a ha => (key a).trans (hit3n a ha)⟩

theorem insFin_backward {sl : SkipList T} {chain : List Nat} (wf : WF sl chain) (v : T)
    {lvl : Nat} (h1 : 1 ≤ lvl) (hM : lvl ≤ sl.maxLevel)
    (hfx : ∀ f, insFwd0 sl v = some f →
      f ≠ insXid sl v lvl ∧ f < (insS3 sl v lvl).nodes.length) :
    ((nodeAt (insFin sl v lvl) (insXid sl v lvl)).backward
        = if insUpd sl v 0 = 0 then none else some (insUpd sl v 0)) ∧
    (∀ f, insFwd0 sl v = some f →
        (nodeAt (insFin sl v lvl) f).backward = some (insXid sl v lvl)) ∧
    (∀ a, a ≠ insXid sl v lvl → (∀ f, insFwd0 sl v = some f → a ≠ f) →
        (nodeAt (insFin sl v lvl) a).backward = (nodeAt sl a).backward) := by
  obtain ⟨_, hxN, _, _, _, _, _, hbw3, hbw3n, _⟩ := insS3_facts wf v hM
  have hsh := insS5_shape sl v lvl
  have hb5 : ∀ a, (nodeAt (insS5 sl v lvl) a).backward = (nodeAt (insS3 sl v lvl) a).backward :=
    hsh.2.2.2.2.2.2.2.2.2.2
  have hx5 : insXid sl v lvl < (insS5 sl v lvl).nodes.length := by rw [hsh.1]; exact hxN
  have h6len : (insS6 sl v lvl).nodes.length = (insS5 sl v lvl).nodes.length := by
    simp [insS6, setBackward, setNode]
  have hfwd := insS6_fwd wf v h1 hM
  refine ⟨?_, ?_, ?_⟩
  · have h6 : (nodeAt (insS6 sl v lvl) (insXid sl v lvl)).backward
        = if insUpd sl v 0 = 0 then none else some (insUpd sl v 0) := by
      unfold insS6
      exact backward_setBackward_self _ _ hx5
    show (nodeAt (insS7 sl v lvl) (insXid sl v lvl)).backward = _
    unfold insS7
    rw [hfwd]
    cases hf : insFwd0 sl v with
    | none => exact h6
    | some f =>
      rw [backward_setBackward_ne _ _ (hfx f hf).1]
      exact h6
  · intro f hf
    show (nodeAt (insS7 sl v lvl) f).backward = _
    unfold insS7
    rw [hfwd, hf]
    exact backward_setBackward_self _ _ (by rw [h6len, hsh.1]; exact (hfx f hf).2)
  · intro a hax haf
    have h6 : (nodeAt (insS6 sl v lvl) a).backward = (nodeAt (insS5 sl v lvl) a).backward := by
      unfold insS6
      exact backward_setBackward_ne _ _ (fun h => hax h.symm)
    show (nodeAt (insS7 sl v lvl) a).backward = _
    unfold insS7
    rw [hfwd]
    cases hf : insFwd0 sl v with
    | none =>
      show (nodeAt (insS6 sl v lvl) a).backward = _
      rw [h6, hb5 a, hbw3n a hax]
    | some f =>
      rw [backward_setBackward_ne _ _ (fun h => haf f hf h.symm)]
      rw [h6, hb5 a, hbw3n a hax]

theorem insFin_tail {sl : SkipList T} {chain : List Nat} (wf : WF sl chain) (v : T)
    {lvl : Nat} (h1 : 1 ≤ lvl) (hM : lvl ≤ sl.maxLevel) :
    (insFwd0 sl v = none → (insFin sl v lvl).tail = some (insXid sl v lvl)) ∧
    (∀ f, insFwd0 sl v = some f → (insFin sl v lvl).tail = sl.tail) := by
  have hsh := insS5_shape sl v lvl
  have hfwd := insS6_fwd wf v h1 hM
  have ht6 : (insS6 sl v lvl).tail = sl.tail := by
    have : (insS6 sl v lvl).tail = (insS5 sl v lvl).tail := rfl
    rw [this, hsh.2.1]
    exact (insS3_facts wf v hM).2.2.2.2.2.2.2.2.2.2.2.1
  constructor
  · intro hf
    show (insS7 sl v lvl).tail = _
    unfold insS7
    rw [hfwd, hf]
  · intro f hf
    show (insS7 sl v lvl).tail = _
    unfold insS7
    rw [hfwd, hf]
    show (setBackward (insS6 sl v lvl) f _).tail = _
    rw [show (setBackward (insS6 sl v lvl) f _).tail = (insS6 sl v lvl).tail from rfl, ht6]

/-! ### List helpers for the insertion-preservation proof -/

theorem filter_swap {α : Type _} (l : List α) (p q : α → Bool) :
    (l.filter p).filter q = (l.filter q).filter p := by
  induction l with
  | nil => rfl
  | cons a t ih =>
    rw [List.filter_cons, List.filter_cons]
    by_cases hp : p a <;> by_cases hq : q a <;>
      simp [List.filter_cons, hp, hq, ih]

theorem filter_map_snd (l : List (Nat × Int)) (p : Nat → Bool) (δ : Int) :
    ((l.map (fun e => (e.1, e.2 + δ))).filter (fun e => p e.1))
      = (l.filter (fun e => p e.1)).map (fun e => (e.1, e.2 + δ)) := by
  induction l with
  | nil => rfl
  | cons a t ih =>
    rw [List.map_cons, List.filter_cons, List.filter_cons]
    by_cases hp : p a.1
    · simp only [hp, if_pos, ih, List.map_cons]
    · simp only [hp, Bool.false_eq_true, if_false, ih]

theorem getLastQ_cons₂ {α : Type _} (a b : α) (l : List α) :
    (a :: b :: l).getLast? = (b :: l).getLast? := by
  rw [List.getLast?_cons, List.getLast?_cons]
  rfl

theorem getLastQ_append_right {α : Type _} : ∀ (l1 : List α) {l2 : List α}, l2 ≠ [] →
    (l1 ++ l2).getLast? = l2.getLast?
  | [], _, _ => rfl
  | a :: t, l2, h2 => by
    have hne : t ++ l2 ≠ [] := fun h => h2 (List.append_eq_nil.mp h).2
    rw [List.cons_append]
    rcases htl : t ++ l2 with _ | ⟨b, u⟩
    · exact absurd htl hne
    · rw [getLastQ_cons₂, ← htl, getLastQ_append_right t h2]

theorem nodup_getLast_dropLast {α : Type _} : ∀ {l : List α} {a : α}, l.Nodup →
    l.getLast? = some a → a ∉ l.dropLast := by
  intro l
  induction l with
  | nil => intro a _ h; simp at h
  | cons x t ih =>
    intro a hnd h
    cases t with
    | nil => simp
    | cons y u =>
      rw [getLastQ_cons₂] at h
      rw [dropLast_cons₂]
      intro hmem
      have hnd' := List.nodup_cons.mp hnd
      rcases List.mem_cons.mp hmem with heq | hmem2
      · exact hnd'.1 (heq ▸ mem_of_getLastQ h)
      · exact ih hnd'.2 h hmem2

theorem dropLast_map_eq {α β : Type _} (f : α → β) : ∀ (l : List α),
    (l.map f).dropLast = l.dropLast.map f
  | [] => rfl
  | [_] => rfl
  | a :: b :: t => by
    have ih := dropLast_map_eq f (b :: t)
    rw [List.map_cons, List.map_cons, dropLast_cons₂, dropLast_cons₂, List.map_cons]
    simp only [List.map_cons] at ih
    rw [ih]

theorem sorted_mem_dropLast_lt : ∀ {l : List (Nat × Int)},
    l.Pairwise (fun a b => a.2 < b.2) → ∀ (d : Nat × Int), ∀ e ∈ l.dropLast,
      e.2 < (l.getLastD d).2 := by
  intro l
  induction l with
  | nil => intro _ d e he; simp at he
  | cons a t ih =>
    intro hpw d e he
    cases t with
    | nil => simp at he
    | cons b u =>
      rw [dropLast_cons₂] at he
      rw [List.getLastD_cons]
      have hpw' := List.pairwise_cons.mp hpw
      rcases List.mem_cons.mp he with heq | he2
      · have hmem : (b :: u).getLastD a ∈ b :: u := by
          rw [List.getLastD_cons]
          exact getLastD_mem_cons u b
        rw [heq]
        exact hpw'.1 _ hmem
      · exact ih hpw'.2 a e he2

theorem insAB_split (sl : SkipList T) (chain : List Nat) (v : T) (i : Nat) :
    levOf sl chain i = insAi sl chain v i ++ insBi sl chain v i :=
  sorted_split (levOf_pairwise sl chain i) _

theorem insRnk0_eq {sl : SkipList T} {chain : List Nat} (wf : WF sl chain) (v : T) :
    insRnk sl v 0 = (updOf sl (insQ sl v) 0).2 := by
  unfold insRnk
  rw [if_pos (show 0 < sl.level from wf.hlevel1)]

theorem levOf_high_nil {sl : SkipList T} {chain : List Nat} (wf : WF sl chain)
    {i : Nat} (hi : sl.level ≤ i) : levOf sl chain i = [] := by
  apply List.filter_eq_nil_iff.mpr
  intro e he
  have hmem : e.1 ∈ chain := by
    have := withPos_map_fst chain 1 ▸ List.mem_map_of_mem Prod.fst he
    exact this
  have := (wf.hhts e.1 hmem).2
  simp only [decide_eq_true_eq]
  omega

theorem xid_not_mem_chain {sl : SkipList T} {chain : List Nat} (wf : WF sl chain) (v : T)
    {lvl : Nat} (hM : lvl ≤ sl.maxLevel) : insXid sl v lvl ∉ chain := by
  obtain ⟨_, _, _, hxor, _⟩ := insS3_facts wf v hM
  intro hmem
  rcases hxor with h | h
  · have := (wf.hvalid _ hmem).1
    omega
  · exact (wf.hfree _ (mem_of_getLastQ h)).2.2 hmem

/-- Properties of the retained prefix at a live level: its last element is the
level-`i` stop of the descent, and every element is positioned at or before it. -/
theorem insAi_facts {sl : SkipList T} {chain : List Nat} (wf : WF sl chain) (v : T)
    {i : Nat} (hi : i < sl.level) :
    (insAi sl chain v i).getLastD (0, 0) = (insUpd sl v i, insRnk sl v i) ∧
    (insUpd sl v i = 0 → insAi sl chain v i = []) ∧
    (insAi sl chain v i ≠ [] → insUpd sl v i ≠ 0) ∧
    (∀ e ∈ insAi sl chain v i, e.2 ≤ insRnk sl v i) ∧
    (insUpd sl v i ≠ 0 → (insUpd sl v i, insRnk sl v i) ∈ withPos chain 1) := by
  have hui : insUpd sl v i = (updOf sl (insQ sl v) i).1 := by
    unfold insUpd; rw [if_pos hi]
  have hri : insRnk sl v i = (updOf sl (insQ sl v) i).2 := by
    unfold insRnk; rw [if_pos hi]
  have hbound : ∀ e ∈ insAi sl chain v i,
      e ∈ levOf sl chain i ∧ e.2 ≤ insRnk sl v 0 := by
    intro e he
    have := List.mem_filter.mp he
    exact ⟨this.1, by simpa using this.2⟩
  have hle : ∀ e ∈ insAi sl chain v i, e.2 ≤ (updOf sl (insQ sl v) i).2 := by
    intro e he
    obtain ⟨hl, h2⟩ := hbound e he
    rw [insRnk0_eq wf v] at h2
    exact updOf_between wf _ hi e hl h2
  rcases List.mem_cons.mp (updOf_mem wf (insQ sl v) hi) with hz | hmem
  · have hr0 : (updOf sl (insQ sl v) i).2 = 0 := (congrArg Prod.snd hz)
    have hAe : insAi sl chain v i = [] := by
      rcases hA : insAi sl chain v i with _ | ⟨e, t⟩
      · rfl
      · exfalso
        have he : e ∈ insAi sl chain v i := by rw [hA]; exact List.mem_cons_self _ _
        have h1 := hle e he
        have hpos := (levOf_pos (hbound e he).1).1
        omega
    refine ⟨?_, fun _ => hAe, fun hne => absurd hAe hne, ?_, ?_⟩
    · rw [hAe]
      show ((0 : Nat), (0 : Int)) = _
      rw [hui, hri, show updOf sl (insQ sl v) i = ((0 : Nat), (0 : Int)) from hz]
    · intro e he
      rw [hAe] at he
      simp at he
    · intro hU0
      exfalso
      exact hU0 (by rw [hui, show updOf sl (insQ sl v) i = ((0 : Nat), (0 : Int)) from hz])
  · have hfst : (updOf sl (insQ sl v) i).1 ∈ chain := by
      obtain ⟨hw, _⟩ := levOf_sub hmem
      have := withPos_map_fst chain 1 ▸ List.mem_map_of_mem Prod.fst hw
      exact this
    have hU0 : (updOf sl (insQ sl v) i).1 ≠ 0 := (wf.hvalid _ hfst).2
    have hin : updOf sl (insQ sl v) i ∈ insAi sl chain v i := by
      apply List.mem_filter.mpr
      refine ⟨hmem, ?_⟩
      have h2 : (updOf sl (insQ sl v) i).2 ≤ (updOf sl (insQ sl v) 0).2 :=
        updOf_mono wf _ hi (Nat.zero_le i)
      rw [← insRnk0_eq wf v] at h2
      simpa using h2
    have hlast : (insAi sl chain v i).getLastD (0, 0) = updOf sl (insQ sl v) i :=
      sorted_getLastD_eq _ ((levOf_pairwise sl chain i).filter _) hin hle
    refine ⟨by rw [hlast, hui, hri], ?_, fun _ => by rw [hui]; exact hU0,
      fun e he => by rw [hri]; exact hle e he, ?_⟩
    · intro h0
      rw [hui] at h0
      exact absurd h0 hU0
    · intro _
      rw [hui, hri]
      exact (levOf_sub hmem).1

/-- The level-`i` subchain of the post-insert state over the extended bottom chain:
the retained prefix, the new node (iff it reaches level `i`), and the shifted suffix. -/
theorem insFin_levOf {sl : SkipList T} {chain : List Nat} (wf : WF sl chain) (v : T)
    {lvl : Nat} (hM : lvl ≤ sl.maxLevel) (i : Nat) :
    levOf (insFin sl v lvl)
        (chain.take (insChainIdx sl v) ++ insXid sl v lvl :: chain.drop (insChainIdx sl v)) i
      = insAi sl chain v i
        ++ (if i < lvl then [(insXid sl v lvl, insRnk sl v 0 + 1)] else [])
        ++ (insBi sl chain v i).map (fun e => (e.1, e.2 + 1)) := by
  have h0lv : 0 < sl.level := wf.hlevel1
  have hr0 := insRnk0_eq wf v
  have hr0n : 0 ≤ insRnk sl v 0 := by rw [hr0]; exact updOf_nonneg wf _ h0lv
  have hr0c : insRnk sl v 0 ≤ (chain.length : Int) := by rw [hr0]; exact updOf_le_chain wf _ h0lv
  have hmc : insChainIdx sl v ≤ chain.length := by unfold insChainIdx; omega
  have hmr : ((insChainIdx sl v : Nat) : Int) = insRnk sl v 0 := by unfold insChainIdx; omega
  have hxc : insXid sl v lvl ∉ chain := xid_not_mem_chain wf v hM
  have hlen_tk : ((chain.take (insChainIdx sl v)).length : Int) = insRnk sl v 0 := by
    rw [List.length_take, Nat.min_eq_left hmc]
    exact hmr
  have hsplit : withPos (chain.take (insChainIdx sl v)
        ++ insXid sl v lvl :: chain.drop (insChainIdx sl v)) 1
      = withPos (chain.take (insChainIdx sl v)) 1
        ++ (insXid sl v lvl, insRnk sl v 0 + 1)
          :: (withPos (chain.drop (insChainIdx sl v)) ((insChainIdx sl v : Int) + 1)).map
               (fun e => (e.1, e.2 + 1)) := by
    rw [withPos_append]
    congr 1
    have hp : (1 : Int) + ((chain.take (insChainIdx sl v)).length : Int) = insRnk sl v 0 + 1 := by
      rw [hlen_tk]; ring
    rw [hp]
    show (insXid sl v lvl, insRnk sl v 0 + 1)
        :: withPos (chain.drop (insChainIdx sl v)) (insRnk sl v 0 + 1 + 1) = _
    congr 1
    rw [← withPos_shift]
    congr 1
    omega
  have hmemtk : ∀ e ∈ withPos (chain.take (insChainIdx sl v)) 1, e.1 ∈ chain := by
    intro e he
    have h1 : e.1 ∈ chain.take (insChainIdx sl v) := by
      have := withPos_map_fst (chain.take (insChainIdx sl v)) 1
          ▸ List.mem_map_of_mem Prod.fst he
      exact this
    exact List.take_subset _ _ h1
  have hmemdp : ∀ e ∈ withPos (chain.drop (insChainIdx sl v)) ((insChainIdx sl v : Int) + 1),
      e.1 ∈ chain := by
    intro e he
    have h1 : e.1 ∈ chain.drop (insChainIdx sl v) := by
      have := withPos_map_fst (chain.drop (insChainIdx sl v)) ((insChainIdx sl v : Int) + 1)
          ▸ List.mem_map_of_mem Prod.fst he
      exact this
    exact List.drop_subset _ _ h1
  have hxh : heightOf (insFin sl v lvl) (insXid sl v lvl) = lvl := by
    rw [insFin_heightOf wf v hM, if_pos rfl]
  have hpiece1 : (withPos (chain.take (insChainIdx sl v)) 1).filter
        (fun e => decide (i < heightOf (insFin sl v lvl) e.1)) = insAi sl chain v i := by
    rw [List.filter_congr (fun e he => by
      rw [insFin_heightOf wf v hM e.1,
        if_neg (fun (h : e.1 = insXid sl v lvl) => hxc (h ▸ hmemtk e he))])]
    unfold insAi levOf
    rw [filter_swap, ← hmr, (withPos_take_drop chain (insChainIdx sl v) hmc).1]
  have hpiece3 : ((withPos (chain.drop (insChainIdx sl v))
          ((insChainIdx sl v : Int) + 1)).map (fun e => (e.1, e.2 + 1))).filter
        (fun e => decide (i < heightOf (insFin sl v lvl) e.1))
      = (insBi sl chain v i).map (fun e => (e.1, e.2 + 1)) := by
    rw [filter_map_snd _ (fun a => decide (i < heightOf (insFin sl v lvl) a)) 1]
    congr 1
    rw [List.filter_congr (fun e he => by
      rw [insFin_heightOf wf v hM e.1,
        if_neg (fun (h : e.1 = insXid sl v lvl) => hxc (h ▸ hmemdp e he))])]
    unfold insBi levOf
    rw [filter_swap, ← hmr, (withPos_take_drop chain (insChainIdx sl v) hmc).2]
  unfold levOf
  rw [hsplit, List.filter_append, List.filter_cons, hpiece1, hpiece3]
  by_cases hil : i < lvl
  · rw [if_pos (show decide (i < heightOf (insFin sl v lvl)
        (insXid sl v lvl, insRnk sl v 0 + 1).1) = true by rw [hxh]; simpa using hil),
      if_pos hil, List.append_assoc]
    rfl
  · rw [if_neg (show ¬ decide (i < heightOf (insFin sl v lvl)
        (insXid sl v lvl, insRnk sl v 0 + 1).1) = true by rw [hxh]; simpa using hil),
      if_neg hil, List.append_assoc]
    rfl

theorem insAi_pairwise (sl : SkipList T) (chain : List Nat) (v : T) (i : Nat) :
    (insAi sl chain v i).Pairwise (fun a b => a.2 < b.2) :=
  (levOf_pairwise sl chain i).filter _

/-- Each level-`i` chain of the post-insert state follows the rewired links with
correct spans, for the extended length. -/
theorem insFin_chains {sl : SkipList T} {chain : List Nat} (wf : WF sl chain) (v : T)
    {lvl : Nat} (h1 : 1 ≤ lvl) (hM : lvl ≤ sl.maxLevel) :
    ∀ i, i < max sl.level lvl →
      chainAt (insFin sl v lvl) (sl.length + 1) i 0 0
        (insAi sl chain v i
          ++ (if i < lvl then [(insXid sl v lvl, insRnk sl v 0 + 1)] else [])
          ++ (insBi sl chain v i).map (fun e => (e.1, e.2 + 1))) := by
  intro i hi
  have h0lv : 0 < sl.level := wf.hlevel1
  have hr0 := insRnk0_eq wf v
  have hxc := xid_not_mem_chain wf v hM
  have hxne : ∀ c ∈ chain, c ≠ insXid sl v lvl := fun c hc h => hxc (h ▸ hc)
  have hx0 : insXid sl v lvl ≠ 0 := (insS3_facts wf v hM).2.2.1
  have hUx : insUpd sl v i ≠ insXid sl v lvl := insUpd_ne_xid wf v hM i hi
  have hlvl_fin := insFin_lvlAt wf v hM
  have hLold : ∀ a, a ≠ insXid sl v lvl → a ≠ insUpd sl v i →
      lvlAt (insFin sl v lvl) a i = lvlAt sl a i := by
    intro a hax haU
    rw [hlvl_fin a i, if_neg (fun h => hax h.2), if_neg (fun h => haU h.2),
      if_neg (fun h => haU h.2.2), if_neg hax]
  have hmemlev : ∀ {j : Nat} {e : Nat × Int}, e ∈ levOf sl chain j → e.1 ∈ chain := by
    intro j e he
    obtain ⟨hw, _⟩ := levOf_sub he
    have := withPos_map_fst chain 1 ▸ List.mem_map_of_mem Prod.fst hw
    exact this
  have hBne : ∀ e ∈ insBi sl chain v i, e.1 ≠ insXid sl v lvl ∧ e.1 ≠ insUpd sl v i := by
    intro e he
    have helev : e ∈ levOf sl chain i := (List.mem_filter.mp he).1
    have hegt : insRnk sl v 0 < e.2 := by
      have := (List.mem_filter.mp he).2
      simpa using this
    have hec : e.1 ∈ chain := hmemlev helev
    refine ⟨hxne _ hec, ?_⟩
    by_cases hil : i < sl.level
    · intro heU
      by_cases hU0 : insUpd sl v i = 0
      · exact (wf.hvalid _ hec).2 (heU.trans hU0)
      · obtain ⟨_, _, _, _, hUR⟩ := insAi_facts wf v hil
        have hURm := hUR hU0
        obtain ⟨u, p⟩ := e
        have hp : p = insRnk sl v i :=
          withPos_fst_inj wf.hnodup (heU ▸ (levOf_sub helev).1) hURm
        have hRle : insRnk sl v i ≤ insRnk sl v 0 := by
          rw [hr0, show insRnk sl v i = (updOf sl (insQ sl v) i).2 by
            unfold insRnk; rw [if_pos hil]]
          exact updOf_mono wf _ hil (Nat.zero_le i)
        simp only at hegt
        omega
    · intro heU
      have h0 : insUpd sl v i = 0 := by unfold insUpd; rw [if_neg hil]
      exact (wf.hvalid _ hec).2 (heU.trans h0)
  have hBcongr : ∀ e ∈ insBi sl chain v i,
      lvlAt (insFin sl v lvl) e.1 i = lvlAt sl e.1 i := by
    intro e he
    obtain ⟨hb1, hb2⟩ := hBne e he
    exact hLold e.1 hb1 hb2
  by_cases hil' : i < sl.level
  · obtain ⟨hlast, hAe, hAne, hAle, hUR⟩ := insAi_facts wf v hil'
    have hsegF : segAt (insFin sl v lvl) i 0 0 (insAi sl chain v i) := by
      rcases hA : insAi sl chain v i with _ | ⟨a0, t0⟩
      · trivial
      · rw [← hA]
        have hU0 : insUpd sl v i ≠ 0 := hAne (by rw [hA]; exact List.cons_ne_nil _ _)
        have hold := wf.hchains i hil'
        rw [insAB_split sl chain v i] at hold
        have hseg := (chainAt_append.mp hold).1
        apply segAt_congr hseg
        intro id hid
        rcases List.mem_cons.mp hid with h0 | hdl
        · subst h0
          exact hLold 0 (fun h => hx0 h.symm) (fun h => hU0 h.symm)
        · rw [dropLast_map_eq] at hdl
          obtain ⟨e, hedl, rfl⟩ := List.mem_map.mp hdl
          have heA : e ∈ insAi sl chain v i := (List.dropLast_sublist _).subset hedl
          have helev : e ∈ levOf sl chain i := (List.mem_filter.mp heA).1
          have hec : e.1 ∈ chain := hmemlev helev
          have helt : e.2 < insRnk sl v i := by
            have := sorted_mem_dropLast_lt (insAi_pairwise sl chain v i) (0, 0) e hedl
            rw [hlast] at this
            exact this
          apply hLold e.1 (hxne _ hec)
          intro heU
          have hURm := hUR hU0
          obtain ⟨u, p⟩ := e
          have hp : p = insRnk sl v i :=
            withPos_fst_inj wf.hnodup (heU ▸ (levOf_sub helev).1) hURm
          simp only at helt
          omega
    have hold := wf.hchains i hil'
    rw [insAB_split sl chain v i] at hold
    have hch0 := (chainAt_append.mp hold).2
    rw [hlast] at hch0
    have hch : chainAt sl sl.length i (insUpd sl v i) (insRnk sl v i)
        (insBi sl chain v i) := hch0
    have hBtail : ∀ b pb rest, insBi sl chain v i = (b, pb) :: rest →
        chainAt (insFin sl v lvl) (sl.length + 1) i b (pb + 1)
          (rest.map (fun e => (e.1, e.2 + 1))) := by
      intro b pb rest hB
      rw [hB] at hch
      have hsh := chainAt_shift (δ := 1) hch.2.2
      apply chainAt_congr hsh
      · exact hBcongr (b, pb) (by rw [hB]; exact List.mem_cons_self _ _)
      · intro e he
        obtain ⟨f, hf, rfl⟩ := List.mem_map.mp he
        exact hBcongr f (by rw [hB]; exact List.mem_cons_of_mem _ hf)
    by_cases hil : i < lvl
    · rw [if_pos hil, List.append_assoc]
      apply chainAt_append.mpr
      refine ⟨hsegF, ?_⟩
      rw [hlast]
      show chainAt (insFin sl v lvl) (sl.length + 1) i (insUpd sl v i) (insRnk sl v i) _
      have hLU : lvlAt (insFin sl v lvl) (insUpd sl v i) i
          = ⟨some (insXid sl v lvl), (insRnk sl v 0 - insRnk sl v i) + 1⟩ := by
        rw [hlvl_fin _ i, if_neg (fun h => hUx h.2), if_pos ⟨hil, rfl⟩]
      have hLx : lvlAt (insFin sl v lvl) (insXid sl v lvl) i
          = ⟨(lvlAt sl (insUpd sl v i) i).forward,
             (lvlAt sl (insUpd sl v i) i).span - (insRnk sl v 0 - insRnk sl v i)⟩ := by
        rw [hlvl_fin _ i, if_pos ⟨hil, rfl⟩, if_pos hil']
      rcases hB : insBi sl chain v i with _ | ⟨⟨b, pb⟩, rest⟩
      · rw [hB] at hch
        refine ⟨?_, ?_, ?_, ?_⟩
        · rw [hLU]
        · rw [hLU]
          show (insRnk sl v 0 - insRnk sl v i) + 1 = insRnk sl v 0 + 1 - insRnk sl v i
          ring
        · rw [hLx]
          exact hch.1
        · rw [hLx]
          show (lvlAt sl (insUpd sl v i) i).span - (insRnk sl v 0 - insRnk sl v i)
              = sl.length + 1 - (insRnk sl v 0 + 1)
          rw [hch.2]
          ring
      · have hch2 := hB ▸ hch
        refine ⟨?_, ?_, ?_, ?_, ?_⟩
        · rw [hLU]
        · rw [hLU]
          show (insRnk sl v 0 - insRnk sl v i) + 1 = insRnk sl v 0 + 1 - insRnk sl v i
          ring
        · rw [hLx]
          exact hch2.1
        · rw [hLx]
          show (lvlAt sl (insUpd sl v i) i).span - (insRnk sl v 0 - insRnk sl v i)
              = pb + 1 - (insRnk sl v 0 + 1)
          rw [hch2.2.1]
          ring
        · exact hBtail b pb rest hB
    · rw [if_neg hil, List.append_assoc]
      apply chainAt_append.mpr
      refine ⟨hsegF, ?_⟩
      rw [hlast]
      show chainAt (insFin sl v lvl) (sl.length + 1) i (insUpd sl v i) (insRnk sl v i) _
      have hLU2 : lvlAt (insFin sl v lvl) (insUpd sl v i) i
          = ⟨(lvlAt sl (insUpd sl v i) i).forward, (lvlAt sl (insUpd sl v i) i).span + 1⟩ := by
        rw [hlvl_fin _ i, if_neg (fun h => hil h.1), if_neg (fun h => hil h.1),
          if_pos ⟨le_of_not_lt hil, hi, rfl⟩]
      rcases hB : insBi sl chain v i with _ | ⟨⟨b, pb⟩, rest⟩
      · rw [hB] at hch
        refine ⟨?_, ?_⟩
        · rw [hLU2]
          exact hch.1
        · rw [hLU2]
          show (lvlAt sl (insUpd sl v i) i).span + 1 = sl.length + 1 - insRnk sl v i
          rw [hch.2]
          ring
      · have hch2 := hB ▸ hch
        refine ⟨?_, ?_, ?_⟩
        · rw [hLU2]
          exact hch2.1
        · rw [hLU2]
          show (lvlAt sl (insUpd sl v i) i).span + 1 = pb + 1 - insRnk sl v i
          rw [hch2.2.1]
          ring
        · exact hBtail b pb rest hB
  · have hle' : sl.level ≤ i := le_of_not_lt hil'
    have hil : i < lvl := by
      rcases Nat.lt_or_ge i lvl with h | h
      · exact h
      · exfalso; omega
    have hU0 : insUpd sl v i = 0 := by unfold insUpd; rw [if_neg hil']
    have hR0 : insRnk sl v i = 0 := by unfold insRnk; rw [if_neg hil']
    have hlevnil : levOf sl chain i = [] := levOf_high_nil wf hle'
    have hA : insAi sl chain v i = [] := by unfold insAi; rw [hlevnil]; rfl
    have hBnil : insBi sl chain v i = [] := by unfold insBi; rw [hlevnil]; rfl
    rw [hA, hBnil, if_pos hil]
    refine ⟨?_, ?_, ?_, ?_⟩
    · rw [hlvl_fin 0 i, if_neg (fun h => hx0 h.2.symm), if_pos ⟨hil, hU0.symm⟩]
    · rw [hlvl_fin 0 i, if_neg (fun h => hx0 h.2.symm), if_pos ⟨hil, hU0.symm⟩]
      show insRnk sl v 0 - insRnk sl v i + 1 = insRnk sl v 0 + 1 - 0
      rw [hR0]
      ring
    · rw [hlvl_fin _ i, if_pos ⟨hil, rfl⟩, if_neg hil']
      show (lvlAt sl 0 i).forward = none
      exact wf.htop i hle'
    · rw [hlvl_fin _ i, if_pos ⟨hil, rfl⟩, if_neg hil']
      show sl.length - (insRnk sl v 0 - insRnk sl v i) = sl.length + 1 - (insRnk sl v 0 + 1)
      rw [hR0]
      ring

/-- The inherited bottom forward of the new node is the head of the dropped
suffix of the chain (nil iff the node is appended at the end). -/
theorem insFwd0_cases {sl : SkipList T} {chain : List Nat} (wf : WF sl chain) (v : T) :
    (chain.drop (insChainIdx sl v) = [] → insFwd0 sl v = none) ∧
    (∀ b dpt, chain.drop (insChainIdx sl v) = b :: dpt → insFwd0 sl v = some b) := by
  have h0lv : 0 < sl.level := wf.hlevel1
  have hr0 := insRnk0_eq wf v
  have hr0n : 0 ≤ insRnk sl v 0 := by rw [hr0]; exact updOf_nonneg wf _ h0lv
  have hr0c : insRnk sl v 0 ≤ (chain.length : Int) := by
    rw [hr0]; exact updOf_le_chain wf _ h0lv
  have hmc : insChainIdx sl v ≤ chain.length := by unfold insChainIdx; omega
  have hmr : ((insChainIdx sl v : Nat) : Int) = insRnk sl v 0 := by unfold insChainIdx; omega
  obtain ⟨hlast, _, _, _, _⟩ := insAi_facts wf v h0lv
  have hold := wf.hchains 0 h0lv
  rw [insAB_split sl chain v 0] at hold
  have hch0 := (chainAt_append.mp hold).2
  rw [hlast] at hch0
  have hch : chainAt sl sl.length 0 (insUpd sl v 0) (insRnk sl v 0)
      (insBi sl chain v 0) := hch0
  have hB0 : insBi sl chain v 0
      = withPos (chain.drop (insChainIdx sl v)) ((insChainIdx sl v : Int) + 1) := by
    unfold insBi
    rw [lev0_eq wf, ← hmr, (withPos_take_drop chain (insChainIdx sl v) hmc).2]
  constructor
  · intro hdp
    rw [hB0, hdp] at hch
    exact hch.1
  · intro b dpt hdp
    rw [hB0, hdp] at hch
    exact hch.1

/-- `insert` preserves the structural invariant: the new node enters the bottom
chain right after the level-0 stop position of the descent. -/
theorem insert_wf {sl : SkipList T} {chain : List Nat} (wf : WF sl chain) (v : T)
    {lvl : Nat} (h1 : 1 ≤ lvl) (hM : lvl ≤ sl.maxLevel) :
    WF (insFin sl v lvl)
      (chain.take (insChainIdx sl v) ++ insXid sl v lvl :: chain.drop (insChainIdx sl v)) := by
  obtain ⟨hN, hxN, hx0, hxor, _⟩ := insS3_facts wf v hM
  obtain ⟨hFnodes, hFlen, hFlev, hFmax, hFfree, hFcap, hFless⟩ := insFin_misc wf v hM
  have h0lv : 0 < sl.level := wf.hlevel1
  have hr0 := insRnk0_eq wf v
  have hr0n : 0 ≤ insRnk sl v 0 := by rw [hr0]; exact updOf_nonneg wf _ h0lv
  have hr0c : insRnk sl v 0 ≤ (chain.length : Int) := by
    rw [hr0]; exact updOf_le_chain wf _ h0lv
  have hmc : insChainIdx sl v ≤ chain.length := by unfold insChainIdx; omega
  have hxc : insXid sl v lvl ∉ chain := xid_not_mem_chain wf v hM
  have hslN : sl.nodes.length ≤ (insFin sl v lvl).nodes.length := by rw [hFnodes]; exact hN
  have hxFN : insXid sl v lvl < (insFin sl v lvl).nodes.length := by rw [hFnodes]; exact hxN
  have hmem2 : ∀ id, id ∈ chain.take (insChainIdx sl v)
      ++ insXid sl v lvl :: chain.drop (insChainIdx sl v) →
      id = insXid sl v lvl ∨ id ∈ chain := by
    intro id hid
    rcases List.mem_append.mp hid with h | h
    · exact Or.inr (List.take_subset _ _ h)
    · rcases List.mem_cons.mp h with h | h
      · exact Or.inl h
      · exact Or.inr (List.drop_subset _ _ h)
  have hhF := insFin_heightOf wf v hM
  have hfwdc := insFwd0_cases wf v
  have hfx : ∀ f, insFwd0 sl v = some f →
      f ≠ insXid sl v lvl ∧ f < (insS3 sl v lvl).nodes.length := by
    intro f hf
    rcases hdp : chain.drop (insChainIdx sl v) with _ | ⟨b, dpt⟩
    · rw [hfwdc.1 hdp] at hf
      exact absurd hf (by simp)
    · have hbf : b = f := by injection ((hfwdc.2 b dpt hdp).symm.trans hf)
      have hbc : f ∈ chain := List.drop_subset _ _ (by
        rw [hdp, ← hbf]; exact List.mem_cons_self _ _)
      exact ⟨fun h => hxc (h ▸ hbc), lt_of_lt_of_le (wf.hvalid _ hbc).1 hN⟩
  have hback := insFin_backward wf v h1 hM hfx
  have htail := insFin_tail wf v h1 hM
  have hu00 : insUpd sl v 0 = (updOf sl (insQ sl v) 0).1 := by
    unfold insUpd; rw [if_pos h0lv]
  have hU0R : insUpd sl v 0 = 0 → insRnk sl v 0 = 0 := by
    intro h
    rcases List.mem_cons.mp (updOf_mem wf (insQ sl v) h0lv) with hz | hmem
    · rw [hr0, show (updOf sl (insQ sl v) 0).2 = 0 from congrArg Prod.snd hz]
    · exfalso
      have hfst : (updOf sl (insQ sl v) 0).1 ∈ chain := by
        obtain ⟨hw, _⟩ := levOf_sub hmem
        have := withPos_map_fst chain 1 ▸ List.mem_map_of_mem Prod.fst hw
        exact this
      exact (wf.hvalid _ hfst).2 (by rw [← hu00]; exact h)
  have hlen2 : (chain.take (insChainIdx sl v)
      ++ insXid sl v lvl :: chain.drop (insChainIdx sl v)).length = chain.length + 1 := by
    rw [List.length_append, List.length_cons, List.length_take, List.length_drop]
    omega
  refine ⟨?_, ?_, ?_, ?_, ?_, ?_, ?_, ?_, ?_, ?_, ?_, ?_, ?_, ?_⟩
  · rw [hFlen, hlen2, wf.hlen]
    push_cast
    ring
  · exact lt_of_lt_of_le wf.hnodes hslN
  · rw [hhF 0, if_neg (fun h => hx0 h.symm), wf.hheadh, hFmax]
  · rw [hFlev]
    exact le_trans wf.hlevel1 (le_max_left _ _)
  · rw [hFlev, hFmax]
    exact max_le wf.hlevelM hM
  · intro id hid
    rcases hmem2 id hid with h | h
    · subst h
      exact ⟨hxFN, hx0⟩
    · exact ⟨lt_of_lt_of_le (wf.hvalid _ h).1 hslN, (wf.hvalid _ h).2⟩
  · rw [List.nodup_middle]
    refine List.nodup_cons.mpr ⟨?_, ?_⟩
    · rw [List.take_append_drop]
      exact hxc
    · rw [List.take_append_drop]
      exact wf.hnodup
  · intro id hid
    rw [hFlev]
    rcases hmem2 id hid with h | h
    · subst h
      rw [hhF _, if_pos rfl]
      exact ⟨h1, le_max_right _ _⟩
    · rw [hhF id, if_neg (fun (hh : id = insXid sl v lvl) => hxc (hh ▸ h))]
      exact ⟨(wf.hhts id h).1, le_trans (wf.hhts id h).2 (le_max_left _ _)⟩
  · intro i hilev
    rw [hFlev] at hilev
    rw [insFin_levOf wf v hM i, hFlen]
    exact insFin_chains wf v h1 hM i hilev
  · intro i hitop
    rw [hFlev] at hitop
    rw [insFin_lvlAt wf v hM 0 i,
      if_neg (fun h => absurd h.1 (by omega)),
      if_neg (fun h => absurd h.1 (by omega)),
      if_neg (fun h => absurd h.2.1 (by omega)),
      if_neg (fun h => hx0 h.symm)]
    exact wf.htop i (le_trans (le_max_left _ _) hitop)
  · have hold2 : backOk sl none (chain.take (insChainIdx sl v)
        ++ chain.drop (insChainIdx sl v)) := by
      rw [List.take_append_drop]
      exact wf.hback
    obtain ⟨hbk_tk, hbk_dp⟩ := backOk_append.mp hold2
    apply backOk_append.mpr
    constructor
    · apply backOk_congr hbk_tk
      intro id hid
      have hidc : id ∈ chain := List.take_subset _ _ hid
      apply hback.2.2 id (fun h => hxc (h ▸ hidc))
      intro f hf heq
      rcases hdp : chain.drop (insChainIdx sl v) with _ | ⟨b, dpt⟩
      · rw [hfwdc.1 hdp] at hf
        simp at hf
      · have hbf : b = f := by injection ((hfwdc.2 b dpt hdp).symm.trans hf)
        have hnd2 : (chain.take (insChainIdx sl v)
            ++ chain.drop (insChainIdx sl v)).Nodup := by
          rw [List.take_append_drop]
          exact wf.hnodup
        have hdisj := List.disjoint_of_nodup_append hnd2
        exact hdisj hid (by rw [hdp, heq, ← hbf]; exact List.mem_cons_self _ _)
    · refine ⟨?_, ?_⟩
      · rw [hback.1]
        by_cases hU0 : insUpd sl v 0 = 0
        · rw [if_pos hU0]
          have hz := hU0R hU0
          have hm0 : insChainIdx sl v = 0 := by unfold insChainIdx; omega
          rw [hm0]
          rfl
        · rw [if_neg hU0]
          obtain ⟨_, _, _, _, hUR⟩ := insAi_facts wf v h0lv
          obtain ⟨hgd, h1r, h2r⟩ := withPos_mem_getD (hUR hU0)
          have hm1 : 1 ≤ insChainIdx sl v := by unfold insChainIdx; omega
          have hcl : 1 ≤ chain.length := by
            have : 1 ≤ (insRnk sl v 0).toNat := by omega
            omega
          have htkne : chain.take (insChainIdx sl v) ≠ [] := by
            have hlt : 0 < (chain.take (insChainIdx sl v)).length := by
              rw [List.length_take]
              omega
            intro h
            rw [h] at hlt
            simp at hlt
          rw [optLast_eq_some htkne none, getLastD_eq_getD, List.length_take,
            Nat.min_eq_left hmc, getD_take _ _ _ _ (by omega),
            show insChainIdx sl v = (insRnk sl v 0).toNat from rfl, hgd]
      · rcases hdp : chain.drop (insChainIdx sl v) with _ | ⟨b, dpt⟩
        · trivial
        · refine ⟨?_, ?_⟩
          · exact hback.2.1 b (hfwdc.2 b dpt hdp)
          · rw [hdp] at hbk_dp
            apply backOk_congr hbk_dp.2
            intro id hid
            have hiddp : id ∈ chain.drop (insChainIdx sl v) := by
              rw [hdp]
              exact List.mem_cons_of_mem _ hid
            have hidc : id ∈ chain := List.drop_subset _ _ hiddp
            apply hback.2.2 id (fun h => hxc (h ▸ hidc))
            intro f hf heq
            have hbf : b = f := by injection ((hfwdc.2 b dpt hdp).symm.trans hf)
            have hnddp : (chain.drop (insChainIdx sl v)).Nodup :=
              List.Nodup.sublist (List.drop_sublist _ _) wf.hnodup
            rw [hdp] at hnddp
            exact (List.nodup_cons.mp hnddp).1 (by rw [hbf, ← heq]; exact hid)
  · rcases hdp : chain.drop (insChainIdx sl v) with _ | ⟨b, dpt⟩
    · rw [htail.1 (hfwdc.1 hdp), getLastQ_append_right _ (List.cons_ne_nil _ _)]
      rfl
    · rw [htail.2 b (hfwdc.2 b dpt hdp), wf.htail]
      have hcg : chain.getLast? = (b :: dpt).getLast? := by
        conv_lhs => rw [← List.take_append_drop (insChainIdx sl v) chain]
        rw [hdp, getLastQ_append_right _ (List.cons_ne_nil _ _)]
      rw [hcg, getLastQ_append_right _ (List.cons_ne_nil _ _), getLastQ_cons₂]
  · rw [hFfree]
    intro id hid
    have hidf : id ∈ sl.freelist := (List.dropLast_sublist _).subset hid
    refine ⟨lt_of_lt_of_le (wf.hfree _ hidf).1 hslN, (wf.hfree _ hidf).2.1, ?_⟩
    intro hid2
    rcases hmem2 id hid2 with h | h
    · rcases hxor with hx | hx
      · have := (wf.hfree _ hidf).1
        omega
      · exact nodup_getLast_dropLast wf.hfreend hx (h ▸ hid)
    · exact (wf.hfree _ hidf).2.2 h
  · rw [hFfree]
    exact List.Nodup.sublist (List.dropLast_sublist _) wf.hfreend

/-! ### Invariant congruence, shrink, and span-sum lemmas -/

/-- `WF` only depends on the listed observations of the state. -/
theorem WF_congr {sl sl' : SkipList T} {chain : List Nat} (wf : WF sl chain)
    (hn : sl'.nodes.length = sl.nodes.length)
    (hh : ∀ a, heightOf sl' a = heightOf sl a)
    (hl : ∀ a i, lvlAt sl' a i = lvlAt sl a i)
    (hb : ∀ a, (nodeAt sl' a).backward = (nodeAt sl a).backward)
    (ht : sl'.tail = sl.tail) (hlen : sl'.length = sl.length)
    (hlev : sl'.level = sl.level) (hmax : sl'.maxLevel = sl.maxLevel)
    (hf : sl'.freelist = sl.freelist) : WF sl' chain := by
  have hlev' : ∀ i, levOf sl' chain i = levOf sl chain i := fun i =>
    levOf_congr i (fun id _ => hh id)
  refine ⟨?_, ?_, ?_, ?_, ?_, ?_, wf.hnodup, ?_, ?_, ?_, ?_, ?_, ?_, ?_⟩
  · rw [hlen, wf.hlen]
  · rw [hn]; exact wf.hnodes
  · rw [hh 0, hmax]; exact wf.hheadh
  · rw [hlev]; exact wf.hlevel1
  · rw [hlev, hmax]; exact wf.hlevelM
  · intro id hid
    rw [hn]
    exact wf.hvalid id hid
  · intro id hid
    rw [hh id, hlev]
    exact wf.hhts id hid
  · intro i hi
    rw [hlev] at hi
    rw [hlen, hlev' i]
    exact chainAt_congr (wf.hchains i hi) (hl 0 i) (fun e _ => hl e.1 i)
  · intro i hi
    rw [hlev] at hi
    rw [hl 0 i]
    exact wf.htop i hi
  · exact backOk_congr wf.hback (fun id _ => hb id)
  · rw [ht]; exact wf.htail
  · intro id hid
    rw [hf] at hid
    rw [hn]
    exact wf.hfree id hid
  · rw [hf]; exact wf.hfreend

/-- In-place item overwrite preserves the structural invariant. -/
theorem setItem_wf {sl : SkipList T} {chain : List Nat} (wf : WF sl chain)
    (nid : Nat) (v : T) : WF (setItem sl nid v) chain :=
  WF_congr wf (by simp [setItem]) (heightOf_setItem sl nid v)
    (lvlAt_setItem sl nid v) (backward_setItem sl nid v) rfl rfl rfl rfl rfl

theorem getD_map_fst {l : List (Nat × Int)} {i : Nat} (hi : i < l.length) :
    (l.map Prod.fst).getD i 0 = (l.getD i (0, 0)).1 := by
  rw [List.getD_eq_getElem?_getD, List.getElem?_map, List.getD_eq_getElem?_getD,
    List.getElem?_eq_getElem hi]
  simp

/-- The level-shrinking loop only lowers the `level` field, stays at least 1, and
every level it removes had an empty chain. -/
theorem shrinkAux_spec : ∀ (f : Nat) (sl : SkipList T),
    (shrinkAux sl f).level ≤ sl.level ∧
    (1 ≤ sl.level → 1 ≤ (shrinkAux sl f).level) ∧
    (∀ i, (shrinkAux sl f).level ≤ i → i < sl.level → (lvlAt sl 0 i).forward = none) ∧
    shrinkAux sl f = { sl with level := (shrinkAux sl f).level } := by
  intro f
  induction f with
  | zero =>
    intro sl
    exact ⟨le_refl _, fun h => h, fun i h1 h2 => absurd (lt_of_le_of_lt h1 h2)
      (lt_irrefl _), rfl⟩
  | succ f ih =>
    intro sl
    have hunf : shrinkAux sl (f + 1)
        = if 1 < sl.level ∧ (lvlAt sl 0 (sl.level - 1)).forward = none
          then shrinkAux { sl with level := sl.level - 1 } f else sl := rfl
    by_cases hc : 1 < sl.level ∧ (lvlAt sl 0 (sl.level - 1)).forward = none
    · rw [hunf, if_pos hc]
      obtain ⟨ih1, ih2, ih3, ih4⟩ := ih { sl with level := sl.level - 1 }
      refine ⟨le_trans ih1 (Nat.sub_le _ _),
        fun _ => ih2 (show (1 : Nat) ≤ sl.level - 1 by omega), ?_, ?_⟩
      · intro i h1 h2
        by_cases hi : i = sl.level - 1
        · rw [hi]; exact hc.2
        · exact ih3 i h1 (show i < sl.level - 1 by omega)
      · rw [ih4]
    · rw [hunf, if_neg hc]
      exact ⟨le_refl _, fun h => h, fun i h1 h2 => absurd (lt_of_le_of_lt h1 h2)
        (lt_irrefl _), rfl⟩

theorem shrink_spec (sl : SkipList T) :
    (shrink sl).level ≤ sl.level ∧
    (1 ≤ sl.level → 1 ≤ (shrink sl).level) ∧
    (∀ i, (shrink sl).level ≤ i → i < sl.level → (lvlAt sl 0 i).forward = none) ∧
    shrink sl = { sl with level := (shrink sl).level } :=
  shrinkAux_spec sl.level sl

/-- Spans telescope along a `chainAt` chain: the traversal sum from `(x, p)` is
`len - p`. -/
theorem spanSumFrom_of_chainAt {sl : SkipList T} {len : Int} {i : Nat} :
    ∀ {l : List (Nat × Int)} {x : Nat} {p acc : Int} {fuel : Nat},
      chainAt sl len i x p l → l.length ≤ fuel →
      spanSumFrom sl i x acc fuel = acc + (len - p) := by
  intro l
  induction l with
  | nil =>
    intro x p acc fuel h _
    cases fuel with
    | zero =>
      show acc + (lvlAt sl x i).span = acc + (len - p)
      rw [h.2]
    | succ f =>
      show (match (lvlAt sl x i).forward with
        | none => acc + (lvlAt sl x i).span
        | some y => spanSumFrom sl i y (acc + (lvlAt sl x i).span) f) = acc + (len - p)
      rw [h.1, h.2]
  | cons e rest ih =>
    intro x p acc fuel h hf
    rcases e with ⟨v, q⟩
    obtain ⟨h1, h2, h3⟩ := h
    cases fuel with
    | zero => simp at hf
    | succ f =>
      show (match (lvlAt sl x i).forward with
        | none => acc + (lvlAt sl x i).span
        | some y => spanSumFrom sl i y (acc + (lvlAt sl x i).span) f) = acc + (len - p)
      rw [h1, h2]
      show spanSumFrom sl i v (acc + (q - p)) f = acc + (len - p)
      rw [ih h3 (by simpa using hf)]
      ring

/-- Under the invariant, the span sum along every live level equals the length. -/
theorem spanSum_of_wf {sl : SkipList T} {chain : List Nat} (wf : WF sl chain) :
    ∀ i, i < sl.level → spanSum sl i = sl.length := by
  intro i hi
  have hch := wf.hchains i hi
  have hlen : (levOf sl chain i).length ≤ sl.nodes.length :=
    le_trans (levOf_length_le sl chain i) (le_of_lt wf.chain_length_lt)
  unfold spanSum
  rw [spanSumFrom_of_chainAt hch hlen]
  ring

/-- Final level entries of the unlink loop of `delete`: each level `i < n` rewires
`(U i, i)` (bypassing `x` or just shrinking the span), everything else unchanged. -/
theorem del_fold_lvlAt (sl : SkipList T) (x : Nat) (U : Nat → Nat) (n : Nat)
    (hux : ∀ i, i < n → U i ≠ x)
    (hulen : ∀ i, i < n → U i < sl.nodes.length)
    (huh : ∀ i, i < n → i < heightOf sl (U i)) :
    ∀ a i, lvlAt ((List.range n).foldl (fun s i =>
        if (lvlAt s (U i) i).forward = some x then
          setLvl s (U i) i
            ⟨(lvlAt s x i).forward, (lvlAt s (U i) i).span + (lvlAt s x i).span - 1⟩
        else
          setLvl s (U i) i ⟨(lvlAt s (U i) i).forward, (lvlAt s (U i) i).span - 1⟩) sl) a i
      = if i < n ∧ a = U i then
          (if (lvlAt sl (U i) i).forward = some x then
            ⟨(lvlAt sl x i).forward, (lvlAt sl (U i) i).span + (lvlAt sl x i).span - 1⟩
          else ⟨(lvlAt sl (U i) i).forward, (lvlAt sl (U i) i).span - 1⟩)
        else lvlAt sl a i := by
  induction n with
  | zero =>
    intro a i
    simp only [List.range_zero, List.foldl_nil]
    rw [if_neg (by rintro ⟨h1, _⟩; omega)]
  | succ n ih =>
    intro a i
    rw [List.range_succ, List.foldl_append, List.foldl_cons, List.foldl_nil]
    have ihh := ih (fun k hk => hux k (by omega)) (fun k hk => hulen k (by omega))
      (fun k hk => huh k (by omega))
    have hsh := sameShape_foldl (f := fun s i =>
      if (lvlAt s (U i) i).forward = some x then
        setLvl s (U i) i
          ⟨(lvlAt s x i).forward, (lvlAt s (U i) i).span + (lvlAt s x i).span - 1⟩
      else
        setLvl s (U i) i ⟨(lvlAt s (U i) i).forward, (lvlAt s (U i) i).span - 1⟩)
      (fun s k => by
        dsimp only
        split
        · exact sameShape_setLvl _ _ _ _
        · exact sameShape_setLvl _ _ _ _) (List.range n) sl
    set S := (List.range n).foldl (fun s i =>
      if (lvlAt s (U i) i).forward = some x then
        setLvl s (U i) i
          ⟨(lvlAt s x i).forward, (lvlAt s (U i) i).span + (lvlAt s x i).span - 1⟩
      else
        setLvl s (U i) i ⟨(lvlAt s (U i) i).forward, (lvlAt s (U i) i).span - 1⟩) sl with hS
    have hreadU : lvlAt S (U n) n = lvlAt sl (U n) n := by
      rw [ihh (U n) n, if_neg (by rintro ⟨h, _⟩; omega)]
    have hreadX : lvlAt S x n = lvlAt sl x n := by
      rw [ihh x n, if_neg (by rintro ⟨h, hx2⟩; exact hux n (by omega) hx2.symm)]
    show lvlAt (if (lvlAt S (U n) n).forward = some x then
        setLvl S (U n) n
          ⟨(lvlAt S x n).forward, (lvlAt S (U n) n).span + (lvlAt S x n).span - 1⟩
      else
        setLvl S (U n) n ⟨(lvlAt S (U n) n).forward, (lvlAt S (U n) n).span - 1⟩) a i = _
    rw [hreadU, hreadX]
    by_cases hc : a = U n ∧ i = n
    · obtain ⟨h1, h2⟩ := hc
      subst h2
      subst h1
      have hlen' : U i < S.nodes.length := by rw [hsh.1]; exact hulen i (by omega)
      have hht' : i < heightOf S (U i) := by
        rw [hsh.2.2.2.2.2.2.2.2.1]; exact huh i (by omega)
      by_cases hfw : (lvlAt sl (U i) i).forward = some x
      · rw [if_pos hfw, lvlAt_setLvl_self S _ hlen' hht',
          if_pos ⟨by omega, rfl⟩, if_pos hfw]
      · rw [if_neg hfw, lvlAt_setLvl_self S _ hlen' hht',
          if_pos ⟨by omega, rfl⟩, if_neg hfw]
    · have hnw : ∀ (e : SLevel), lvlAt (setLvl S (U n) n e) a i = lvlAt S a i := by
        intro e
        rcases Decidable.not_and_iff_or_not.mp hc with h | h
        · exact lvlAt_setLvl_ne_id S _ _ (fun heq => h heq.symm) i
        · exact lvlAt_setLvl_ne_lvl S _ _ a (fun heq => h heq.symm)
      have hstep : lvlAt (if (lvlAt sl (U n) n).forward = some x then
          setLvl S (U n) n
            ⟨(lvlAt sl x n).forward, (lvlAt sl (U n) n).span + (lvlAt sl x n).span - 1⟩
        else
          setLvl S (U n) n ⟨(lvlAt sl (U n) n).forward, (lvlAt sl (U n) n).span - 1⟩) a i
          = lvlAt S a i := by
        split
        · exact hnw _
        · exact hnw _
      rw [hstep, ihh a i]
      by_cases hin : i < n ∧ a = U i
      · rw [if_pos hin, if_pos (show i < n + 1 ∧ a = U i from ⟨by omega, hin.2⟩)]
      · have hout : ¬ (i < n + 1 ∧ a = U i) := by
          intro hcon
          by_cases hieq : i = n
          · exact hc ⟨hieq ▸ hcon.2, hieq⟩
          · exact hin ⟨by omega, hcon.2⟩
        rw [if_neg hin, if_neg hout]

theorem delete_eq (sl : SkipList T) (nid : Nat) :
    delete sl nid = match delX sl nid with
      | none => (sl, default)
      | some x =>
        if sl.less (delW sl nid) (itemAt sl x) then (sl, default)
        else (delFin sl nid x, itemAt (delS3 sl nid x) x) := rfl

theorem delU_eq_updOf (sl : SkipList T) (nid : Nat) (h1 : 1 ≤ sl.level) :
    ∀ i, i < sl.level → delU sl nid i = (updOf sl (delQ sl nid) i).1 := by
  intro i hi
  unfold delU delUl
  rw [descendU_eq sl (delQ sl nid) (sl.level - 1) 0 0]
  unfold updOf
  exact getD_map_fst (by rw [descendR_length]; omega)

theorem delU_facts {sl : SkipList T} {chain : List Nat} (wf : WF sl chain) (nid : Nat) :
    ∀ i, i < sl.level →
      delU sl nid i < sl.nodes.length ∧ i < heightOf sl (delU sl nid i) ∧
      (delU sl nid i = 0 ∨ delU sl nid i ∈ chain) := by
  intro i hi
  rw [delU_eq_updOf sl nid wf.hlevel1 i hi]
  rcases List.mem_cons.mp (updOf_mem wf (delQ sl nid) hi) with h | h
  · have h0 : (updOf sl (delQ sl nid) i).1 = 0 := congrArg Prod.fst h
    rw [h0]
    refine ⟨wf.hnodes, ?_, Or.inl rfl⟩
    rw [wf.hheadh]
    have := wf.hlevelM
    omega
  · obtain ⟨hw, hh⟩ := levOf_sub h
    have hmem : (updOf sl (delQ sl nid) i).1 ∈ chain := by
      have := withPos_map_fst chain 1 ▸ List.mem_map_of_mem Prod.fst hw
      exact this
    exact ⟨(wf.hvalid _ hmem).1, hh, Or.inr hmem⟩

/-- Generic prefix facts for the descent with predicate `q`: on each live level, the
stop is the last chain element positioned at or before the level-0 stop. -/
theorem updAi_facts {sl : SkipList T} {chain : List Nat} (wf : WF sl chain) (q : T → Bool)
    {i : Nat} (hi : i < sl.level) :
    ((levOf sl chain i).filter
        (fun e => decide (e.2 ≤ (updOf sl q 0).2))).getLastD (0, 0) = updOf sl q i ∧
    ((updOf sl q i).1 = 0 →
      (levOf sl chain i).filter (fun e => decide (e.2 ≤ (updOf sl q 0).2)) = []) ∧
    (((levOf sl chain i).filter (fun e => decide (e.2 ≤ (updOf sl q 0).2))) ≠ [] →
      (updOf sl q i).1 ≠ 0) ∧
    (∀ e ∈ (levOf sl chain i).filter (fun e => decide (e.2 ≤ (updOf sl q 0).2)),
      e.2 ≤ (updOf sl q i).2) ∧
    ((updOf sl q i).1 ≠ 0 → updOf sl q i ∈ withPos chain 1) := by
  have hbound : ∀ e ∈ (levOf sl chain i).filter
      (fun e => decide (e.2 ≤ (updOf sl q 0).2)),
      e ∈ levOf sl chain i ∧ e.2 ≤ (updOf sl q 0).2 := by
    intro e he
    have := List.mem_filter.mp he
    exact ⟨this.1, by simpa using this.2⟩
  have hle : ∀ e ∈ (levOf sl chain i).filter
      (fun e => decide (e.2 ≤ (updOf sl q 0).2)), e.2 ≤ (updOf sl q i).2 := by
    intro e he
    obtain ⟨hl, h2⟩ := hbound e he
    exact updOf_between wf _ hi e hl h2
  rcases List.mem_cons.mp (updOf_mem wf q hi) with hz | hmem
  · have hr0 : (updOf sl q i).2 = 0 := congrArg Prod.snd hz
    have hAe : (levOf sl chain i).filter
        (fun e => decide (e.2 ≤ (updOf sl q 0).2)) = [] := by
      rcases hA : (levOf sl chain i).filter
          (fun e => decide (e.2 ≤ (updOf sl q 0).2)) with _ | ⟨e, t⟩
      · exact hA
      · exfalso
        have he : e ∈ (levOf sl chain i).filter
            (fun e => decide (e.2 ≤ (updOf sl q 0).2)) := by
          rw [hA]; exact List.mem_cons_self _ _
        have h1 := hle e he
        have hpos := (levOf_pos (hbound e he).1).1
        omega
    refine ⟨?_, fun _ => hAe, fun hne => absurd hAe hne, hle, ?_⟩
    · rw [hAe]
      exact hz.symm
    · intro h0
      exact absurd (congrArg Prod.fst hz) h0
  · have hfst : (updOf sl q i).1 ∈ chain := by
      obtain ⟨hw, _⟩ := levOf_sub hmem
      have := withPos_map_fst chain 1 ▸ List.mem_map_of_mem Prod.fst hw
      exact this
    have hU0 : (updOf sl q i).1 ≠ 0 := (wf.hvalid _ hfst).2
    have hin : updOf sl q i ∈ (levOf sl chain i).filter
        (fun e => decide (e.2 ≤ (updOf sl q 0).2)) := by
      apply List.mem_filter.mpr
      refine ⟨hmem, ?_⟩
      have h2 : (updOf sl q i).2 ≤ (updOf sl q 0).2 := updOf_mono wf _ hi (Nat.zero_le i)
      simpa using h2
    refine ⟨sorted_getLastD_eq _ ((levOf_pairwise sl chain i).filter _) hin hle,
      fun h0 => absurd h0 hU0, fun _ => hU0, hle, fun _ => (levOf_sub hmem).1⟩

/-! ### Observations of `freeNode` and further position-list helpers -/

theorem lvlAt_eq_of_nodes {s s' : SkipList T} (h : s'.nodes = s.nodes) :
    ∀ a i, lvlAt s' a i = lvlAt s a i := by
  intro a i
  unfold lvlAt nodeAt
  rw [h]

theorem heightOf_eq_of_nodes {s s' : SkipList T} (h : s'.nodes = s.nodes) :
    ∀ a, heightOf s' a = heightOf s a := by
  intro a
  unfold heightOf nodeAt
  rw [h]

theorem backward_eq_of_nodes {s s' : SkipList T} (h : s'.nodes = s.nodes) :
    ∀ a, (nodeAt s' a).backward = (nodeAt s a).backward := by
  intro a
  unfold nodeAt
  rw [h]

theorem freeNode_eq (sl : SkipList T) (id : Nat) :
    freeNode sl id = if sl.freelist.length < sl.freeCap
      then { setNode sl id ⟨default, (nodeAt sl id).backward,
              (nodeAt sl id).level.map (fun _ => ⟨none, 0⟩)⟩ with
             freelist := sl.freelist ++ [id] }
      else setNode sl id ⟨default, (nodeAt sl id).backward,
              (nodeAt sl id).level.map (fun _ => ⟨none, 0⟩)⟩ := rfl

theorem freeNode_nodes_obs (sl : SkipList T) (id : Nat) :
    (freeNode sl id).nodes = (setNode sl id ⟨default, (nodeAt sl id).backward,
      (nodeAt sl id).level.map (fun _ => ⟨none, 0⟩)⟩).nodes := by
  rw [freeNode_eq]
  split <;> rfl

theorem freeNode_len (sl : SkipList T) (id : Nat) :
    (freeNode sl id).nodes.length = sl.nodes.length := by
  rw [freeNode_nodes_obs]
  simp [setNode]

theorem freeNode_lvlAt_ne (sl : SkipList T) {id a : Nat} (h : id ≠ a) (i : Nat) :
    lvlAt (freeNode sl id) a i = lvlAt sl a i := by
  rw [lvlAt_eq_of_nodes (freeNode_nodes_obs sl id) a i]
  exact congrArg (fun n => (n.level.getD i ⟨none, 0⟩)) (nodeAt_setNode_ne sl _ h)

theorem freeNode_heightOf (sl : SkipList T) (id : Nat) :
    ∀ a, heightOf (freeNode sl id) a = heightOf sl a := by
  intro a
  rw [heightOf_eq_of_nodes (freeNode_nodes_obs sl id) a]
  by_cases h : id = a
  · subst h
    by_cases hlt : id < sl.nodes.length
    · show ((nodeAt _ id).level).length = _
      rw [nodeAt_setNode_self sl _ hlt]
      simp [heightOf]
    · unfold heightOf
      rw [show setNode sl id _ = sl from by
        simp [setNode, List.set_eq_of_length_le (Nat.le_of_not_lt hlt)]]
  · exact congrArg (fun n => n.level.length) (nodeAt_setNode_ne sl _ h)

theorem freeNode_backward (sl : SkipList T) (id : Nat) :
    ∀ a, (nodeAt (freeNode sl id) a).backward = (nodeAt sl a).backward := by
  intro a
  rw [backward_eq_of_nodes (freeNode_nodes_obs sl id) a]
  by_cases h : id = a
  · subst h
    by_cases hlt : id < sl.nodes.length
    · rw [nodeAt_setNode_self sl _ hlt]
    · rw [show setNode sl id _ = sl from by
        simp [setNode, List.set_eq_of_length_le (Nat.le_of_not_lt hlt)]]
  · rw [nodeAt_setNode_ne sl _ h]

theorem freeNode_fields (sl : SkipList T) (id : Nat) :
    (freeNode sl id).tail = sl.tail ∧ (freeNode sl id).length = sl.length ∧
    (freeNode sl id).level = sl.level ∧ (freeNode sl id).maxLevel = sl.maxLevel ∧
    (freeNode sl id).less = sl.less ∧ (freeNode sl id).freeCap = sl.freeCap ∧
    ((freeNode sl id).freelist = sl.freelist ++ [id] ∨
      (freeNode sl id).freelist = sl.freelist) := by
  have h : freeNode sl id = if sl.freelist.length < sl.freeCap
      then { setNode sl id ⟨default, (nodeAt sl id).backward,
              (nodeAt sl id).level.map (fun _ => ⟨none, 0⟩)⟩ with
             freelist := sl.freelist ++ [id] }
      else setNode sl id ⟨default, (nodeAt sl id).backward,
              (nodeAt sl id).level.map (fun _ => ⟨none, 0⟩)⟩ := rfl
  rw [h]
  by_cases hc : sl.freelist.length < sl.freeCap
  · rw [if_pos hc]
    exact ⟨rfl, rfl, rfl, rfl, rfl, rfl, Or.inl rfl⟩
  · rw [if_neg hc]
    exact ⟨rfl, rfl, rfl, rfl, rfl, rfl, Or.inr rfl⟩

/-- In a position-sorted list, an element of minimal position is the head. -/
theorem sorted_head_eq {l : List (Nat × Int)} {e : Nat × Int}
    (hpw : l.Pairwise (fun a b => a.2 < b.2)) (he : e ∈ l)
    (hmin : ∀ f ∈ l, e.2 ≤ f.2) : ∃ t, l = e :: t := by
  cases l with
  | nil => simp at he
  | cons a t =>
    rcases List.mem_cons.mp he with h | h
    · exact ⟨t, by rw [h]⟩
    · exfalso
      have h1 := (List.pairwise_cons.mp hpw).1 e h
      have h2 := hmin a (List.mem_cons_self _ _)
      omega

theorem withPos_shift_down (l : List Nat) (p : Int) :
    withPos l p = (withPos l (p + 1)).map (fun e => (e.1, e.2 + (-1))) := by
  induction l generalizing p with
  | nil => rfl
  | cons a t ih =>
    show (a, p) :: withPos t (p + 1) = (a, p + 1 + -1) :: (withPos t (p + 1 + 1)).map _
    rw [← ih (p + 1)]
    congr 1
    show (a, p) = (a, p + 1 + -1)
    congr 1
    ring

theorem optLast_none_eq_getLastQ (l : List Nat) : optLast none l = l.getLast? := by
  cases l with
  | nil => rfl
  | cons a t =>
    rw [optLast_eq_some (List.cons_ne_nil _ _) none]
    rw [List.getLastD_eq_getLast?, List.getLast?_cons]
    rcases hg : (a :: t).getLast? with _ | g
    · rw [List.getLast?_cons] at hg
      simp at hg
    · rw [List.getLast?_cons] at hg
      rw [hg]
      simp

theorem mem_withPos_of_mem {l : List Nat} {a : Nat} (h : a ∈ l) :
    ∀ (p : Int), ∃ r, (a, r) ∈ withPos l p := by
  induction l with
  | nil => simp at h
  | cons b t ih =>
    intro p
    rcases List.mem_cons.mp h with h2 | h2
    · exact ⟨p, by rw [h2]; exact List.mem_cons_self _ _⟩
    · obtain ⟨r, hr⟩ := ih h2 (p + 1)
      exact ⟨r, List.mem_cons_of_mem _ hr⟩

/-- Removing the chain element at 0-based index `m` splits every level subchain
into the prefix up to position `m` and the down-shifted part past `m+1`. -/
theorem del_levOf_split (sl : SkipList T) (chain : List Nat)
    {m : Nat} (hm : m < chain.length) (i : Nat) :
    levOf sl (chain.take m ++ chain.drop (m + 1)) i
      = (levOf sl chain i).filter (fun e => decide (e.2 ≤ (m : Int)))
        ++ ((levOf sl chain i).filter (fun e => decide (((m : Int) + 1) < e.2))).map
             (fun e => (e.1, e.2 + (-1))) := by
  have hm1 : m + 1 ≤ chain.length := by omega
  unfold levOf
  rw [withPos_append, List.filter_append]
  congr 1
  · rw [← (withPos_take_drop chain m (by omega)).1, filter_swap]
  · have hpos : (1 : Int) + ((chain.take m).length : Int) = (m : Int) + 1 := by
      rw [List.length_take, Nat.min_eq_left (by omega)]
      ring
    rw [hpos, withPos_shift_down (chain.drop (m + 1)) ((m : Int) + 1),
      filter_map_snd _ (fun a => decide (i < heightOf sl a)) (-1)]
    congr 1
    have hc : ((m : Int) + 1) + 1 = (((m + 1 : Nat) : Int)) + 1 := by push_cast; ring
    rw [hc, ← (withPos_take_drop chain (m + 1) hm1).2]
    have hc2 : ∀ e : Nat × Int, (decide (((m + 1 : Nat) : Int) < e.2))
        = (decide ((m : Int) + 1 < e.2)) := by
      intro e
      have : ((m + 1 : Nat) : Int) = (m : Int) + 1 := by push_cast; ring
      rw [this]
    rw [List.filter_congr (fun e _ => hc2 e), filter_swap]

/-- The level-0 forward at the delete descent's bottom stop is the head of the
dropped suffix of the chain. -/
theorem delX_cases {sl : SkipList T} {chain : List Nat} (wf : WF sl chain) (nid : Nat) :
    (chain.drop (delChainIdx sl nid) = [] → delX sl nid = none) ∧
    (∀ b dpt, chain.drop (delChainIdx sl nid) = b :: dpt → delX sl nid = some b) := by
  have h0lv : 0 < sl.level := wf.hlevel1
  have hr0n : 0 ≤ (updOf sl (delQ sl nid) 0).2 := updOf_nonneg wf _ h0lv
  have hr0c : (updOf sl (delQ sl nid) 0).2 ≤ (chain.length : Int) :=
    updOf_le_chain wf _ h0lv
  have hmc : delChainIdx sl nid ≤ chain.length := by unfold delChainIdx; omega
  have hmr : ((delChainIdx sl nid : Nat) : Int) = (updOf sl (delQ sl nid) 0).2 := by
    unfold delChainIdx; omega
  obtain ⟨hlast, _, _, _, _⟩ := updAi_facts wf (delQ sl nid) h0lv
  have hold := wf.hchains 0 h0lv
  rw [sorted_split (levOf_pairwise sl chain 0) (updOf sl (delQ sl nid) 0).2] at hold
  have hch0 := (chainAt_append.mp hold).2
  rw [hlast] at hch0
  have hB0 : (levOf sl chain 0).filter
        (fun e => decide ((updOf sl (delQ sl nid) 0).2 < e.2))
      = withPos (chain.drop (delChainIdx sl nid)) ((delChainIdx sl nid : Int) + 1) := by
    rw [lev0_eq wf, ← hmr, (withPos_take_drop chain (delChainIdx sl nid) hmc).2]
  rw [hB0] at hch0
  have hU0 : delU sl nid 0 = (updOf sl (delQ sl nid) 0).1 :=
    delU_eq_updOf sl nid h0lv 0 h0lv
  constructor
  · intro hdp
    rw [hdp] at hch0
    show (lvlAt sl (delU sl nid 0) 0).forward = none
    rw [hU0]
    exact hch0.1
  · intro b dpt hdp
    rw [hdp] at hch0
    show (lvlAt sl (delU sl nid 0) 0).forward = some b
    rw [hU0]
    exact hch0.1

/-- The delete descent never stops on the node about to be removed. -/
theorem delU_ne_x {sl : SkipList T} {chain : List Nat} (wf : WF sl chain) (nid : Nat)
    {x : Nat} {dpt : List Nat} (hdp : chain.drop (delChainIdx sl nid) = x :: dpt) :
    (delQ sl nid (itemAt sl x) = false) ∧ x ∈ chain ∧
    (∀ i, i < sl.level → delU sl nid i ≠ x) := by
  have h0lv : 0 < sl.level := wf.hlevel1
  have hfwd : delX sl nid = some x := (delX_cases wf nid).2 x dpt hdp
  have hU0 : delU sl nid 0 = (updOf sl (delQ sl nid) 0).1 :=
    delU_eq_updOf sl nid h0lv 0 h0lv
  have hfwd' : (lvlAt sl (updOf sl (delQ sl nid) 0).1 0).forward = some x := by
    rw [← hU0]
    exact hfwd
  have hqx : delQ sl nid (itemAt sl x) = false :=
    (updOf_levelStop wf (delQ sl nid) h0lv).2.2.2.2 x hfwd'
  have hxc : x ∈ chain := List.drop_subset _ _ (by
    rw [hdp]; exact List.mem_cons_self _ _)
  refine ⟨hqx, hxc, ?_⟩
  intro i hi heq
  have hq1 : delQ sl nid (itemAt sl (delU sl nid i)) = true := by
    rw [delU_eq_updOf sl nid h0lv i hi]
    apply (updOf_levelStop wf (delQ sl nid) hi).2.1
    rw [← delU_eq_updOf sl nid h0lv i hi, heq]
    exact (wf.hvalid x hxc).2
  rw [heq, hqx] at hq1
  exact Bool.false_ne_true hq1

/-- After the unlink loop, every level chain over the shortened bottom chain
follows the rewired links with spans for the decremented length. -/
theorem delS1_chains {sl : SkipList T} {chain : List Nat} (wf : WF sl chain) (nid : Nat)
    {x : Nat} {dpt : List Nat}
    (hdp : chain.drop (delChainIdx sl nid) = x :: dpt) :
    ∀ i, i < sl.level →
      chainAt (delS1 sl nid x) (sl.length + (-1)) i 0 0
        ((levOf sl chain i).filter
            (fun e => decide (e.2 ≤ (delChainIdx sl nid : Int)))
          ++ ((levOf sl chain i).filter
                (fun e => decide ((delChainIdx sl nid : Int) + 1 < e.2))).map
               (fun e => (e.1, e.2 + (-1)))) := by
  intro i hi
  have h0lv : 0 < sl.level := wf.hlevel1
  have hr0n : 0 ≤ (updOf sl (delQ sl nid) 0).2 := updOf_nonneg wf _ h0lv
  have hr0c : (updOf sl (delQ sl nid) 0).2 ≤ (chain.length : Int) :=
    updOf_le_chain wf _ h0lv
  have hmc : delChainIdx sl nid ≤ chain.length := by unfold delChainIdx; omega
  have hmr : ((delChainIdx sl nid : Nat) : Int) = (updOf sl (delQ sl nid) 0).2 := by
    unfold delChainIdx; omega
  obtain ⟨hqx, hxchain, hunex⟩ := delU_ne_x wf nid hdp
  have hx0 : x ≠ 0 := (wf.hvalid x hxchain).2
  have hfold : ∀ a j, lvlAt (delS1 sl nid x) a j
      = if j < sl.level ∧ a = delU sl nid j then
          (if (lvlAt sl (delU sl nid j) j).forward = some x then
            ⟨(lvlAt sl x j).forward,
             (lvlAt sl (delU sl nid j) j).span + (lvlAt sl x j).span - 1⟩
          else ⟨(lvlAt sl (delU sl nid j) j).forward,
                (lvlAt sl (delU sl nid j) j).span - 1⟩)
        else lvlAt sl a j :=
    del_fold_lvlAt sl x (delU sl nid) sl.level hunex
      (fun j hj => (delU_facts wf nid j hj).1) (fun j hj => (delU_facts wf nid j hj).2.1)
  have hUeq : delU sl nid i = (updOf sl (delQ sl nid) i).1 :=
    delU_eq_updOf sl nid h0lv i hi
  have hLold : ∀ a, a ≠ delU sl nid i → lvlAt (delS1 sl nid x) a i = lvlAt sl a i := by
    intro a ha
    rw [hfold a i, if_neg (fun h => ha h.2)]
  obtain ⟨hlast, hAe, hAne, hAle, hUR⟩ := updAi_facts wf (delQ sl nid) hi
  have hmemlev : ∀ {j : Nat} {e : Nat × Int}, e ∈ levOf sl chain j → e.1 ∈ chain := by
    intro j e he
    obtain ⟨hw, _⟩ := levOf_sub he
    have := withPos_map_fst chain 1 ▸ List.mem_map_of_mem Prod.fst hw
    exact this
  have hxpos : (x, (updOf sl (delQ sl nid) 0).2 + 1) ∈ withPos chain 1 := by
    have hsplit : withPos chain 1
        = withPos (chain.take (delChainIdx sl nid)) 1
          ++ withPos (chain.drop (delChainIdx sl nid))
               (1 + ((chain.take (delChainIdx sl nid)).length : Int)) := by
      conv_lhs => rw [← List.take_append_drop (delChainIdx sl nid) chain]
      exact withPos_append _ _ 1
    rw [hsplit]
    apply List.mem_append_right
    rw [hdp]
    have hc : (1 : Int) + ((chain.take (delChainIdx sl nid)).length : Int)
        = (updOf sl (delQ sl nid) 0).2 + 1 := by
      rw [List.length_take, Nat.min_eq_left hmc, hmr]
      ring
    rw [hc]
    exact List.mem_cons_self _ _
  -- rewrite the goal's index forms to the descent's rank
  rw [show ((delChainIdx sl nid : Nat) : Int) = (updOf sl (delQ sl nid) 0).2 from hmr]
  -- split of the old level chain
  have hold := wf.hchains i hi
  rw [sorted_split (levOf_pairwise sl chain i) (updOf sl (delQ sl nid) 0).2] at hold
  obtain ⟨hseg, hchB⟩ := chainAt_append.mp hold
  rw [hlast] at hchB
  -- the retained prefix's links are untouched
  have hsegF : segAt (delS1 sl nid x) i 0 0
      ((levOf sl chain i).filter
        (fun e => decide (e.2 ≤ (updOf sl (delQ sl nid) 0).2))) := by
    rcases hA : (levOf sl chain i).filter
        (fun e => decide (e.2 ≤ (updOf sl (delQ sl nid) 0).2)) with _ | ⟨a0, t0⟩
    · rw [hA]
      trivial
    · have hU0 : (updOf sl (delQ sl nid) i).1 ≠ 0 :=
        hAne (by rw [hA]; exact List.cons_ne_nil _ _)
      apply segAt_congr hseg
      intro id hid
      rcases List.mem_cons.mp hid with h0 | hdl
      · subst h0
        exact hLold 0 (fun h => hU0 (by rw [← hUeq, ← h]))
      · rw [dropLast_map_eq] at hdl
        obtain ⟨e, hedl, rfl⟩ := List.mem_map.mp hdl
        have heA : e ∈ (levOf sl chain i).filter
            (fun e => decide (e.2 ≤ (updOf sl (delQ sl nid) 0).2)) :=
          (List.dropLast_sublist _).subset hedl
        have helev : e ∈ levOf sl chain i := (List.mem_filter.mp heA).1
        have helt : e.2 < (updOf sl (delQ sl nid) i).2 := by
          have := sorted_mem_dropLast_lt ((levOf_pairwise sl chain i).filter _)
            (0, 0) e hedl
          rw [hlast] at this
          exact this
        apply hLold e.1
        intro heU
        rw [hUeq] at heU
        have hURm := hUR hU0
        obtain ⟨u, p⟩ := e
        have hp : p = (updOf sl (delQ sl nid) i).2 :=
          withPos_fst_inj wf.hnodup (heU ▸ (levOf_sub helev).1) hURm
        simp only at helt
        omega
  have hBne : ∀ e ∈ (levOf sl chain i).filter
      (fun e => decide ((updOf sl (delQ sl nid) 0).2 < e.2)),
      e.1 ≠ delU sl nid i := by
    intro e he
    have helev : e ∈ levOf sl chain i := (List.mem_filter.mp he).1
    have hegt : (updOf sl (delQ sl nid) 0).2 < e.2 := by
      have := (List.mem_filter.mp he).2
      simpa using this
    have hec : e.1 ∈ chain := hmemlev helev
    intro heU
    rw [hUeq] at heU
    by_cases hU0 : (updOf sl (delQ sl nid) i).1 = 0
    · exact (wf.hvalid _ hec).2 (by rw [heU, hU0])
    · have hURm := hUR hU0
      obtain ⟨u, p⟩ := e
      have hp : p = (updOf sl (delQ sl nid) i).2 :=
        withPos_fst_inj wf.hnodup (heU ▸ (levOf_sub helev).1) hURm
      have hRle : (updOf sl (delQ sl nid) i).2 ≤ (updOf sl (delQ sl nid) 0).2 :=
        updOf_mono wf _ hi (Nat.zero_le i)
      simp only at hegt
      omega
  have hBcongr : ∀ e ∈ (levOf sl chain i).filter
      (fun e => decide ((updOf sl (delQ sl nid) 0).2 < e.2)),
      lvlAt (delS1 sl nid x) e.1 i = lvlAt sl e.1 i :=
    fun e he => hLold e.1 (hBne e he)
  by_cases hbx : i < heightOf sl x
  · -- x sits on this level: its link is bypassed
    have hxlev : (x, (updOf sl (delQ sl nid) 0).2 + 1) ∈ levOf sl chain i :=
      levOf_intro hxpos hbx
    have hxBi : (x, (updOf sl (delQ sl nid) 0).2 + 1) ∈ (levOf sl chain i).filter
        (fun e => decide ((updOf sl (delQ sl nid) 0).2 < e.2)) :=
      List.mem_filter.mpr ⟨hxlev, by simp⟩
    have hpwB : ((levOf sl chain i).filter
        (fun e => decide ((updOf sl (delQ sl nid) 0).2 < e.2))).Pairwise
          (fun a b => a.2 < b.2) := (levOf_pairwise sl chain i).filter _
    obtain ⟨t, hBt⟩ := sorted_head_eq hpwB hxBi (by
      intro f hf
      have := (List.mem_filter.mp hf).2
      simp only [decide_eq_true_eq] at this
      omega)
    rw [hBt] at hchB
    have htall : ∀ f ∈ t, (updOf sl (delQ sl nid) 0).2 + 1 < f.2 := by
      rw [hBt] at hpwB
      exact fun f hf => (List.pairwise_cons.mp hpwB).1 f hf
    have hCt : (levOf sl chain i).filter
        (fun e => decide ((updOf sl (delQ sl nid) 0).2 + 1 < e.2)) = t := by
      conv_lhs => rw [sorted_split (levOf_pairwise sl chain i)
        (updOf sl (delQ sl nid) 0).2, hBt]
      rw [List.filter_append, List.filter_cons]
      rw [List.filter_eq_nil_iff.mpr (fun e he => by
        have := (List.mem_filter.mp he).2
        simp only [decide_eq_true_eq] at this
        simp only [decide_eq_true_eq]
        omega)]
      rw [if_neg (by simp)]
      rw [List.filter_eq_self.mpr (fun e he => by
        have := htall e he
        simpa using this)]
      rfl
    rw [hCt]
    apply chainAt_append.mpr
    refine ⟨hsegF, ?_⟩
    rw [hlast]
    have hfwdx : (lvlAt sl (delU sl nid i) i).forward = some x := by
      rw [hUeq]
      exact hchB.1
    have hLU : lvlAt (delS1 sl nid x) (updOf sl (delQ sl nid) i).1 i
        = ⟨(lvlAt sl x i).forward,
           (lvlAt sl (delU sl nid i) i).span + (lvlAt sl x i).span - 1⟩ := by
      rw [← hUeq, hfold _ i, if_pos ⟨hi, rfl⟩, if_pos hfwdx]
    have hspanU : (lvlAt sl (delU sl nid i) i).span
        = ((updOf sl (delQ sl nid) 0).2 + 1) - (updOf sl (delQ sl nid) i).2 := by
      rw [hUeq]
      exact hchB.2.1
    rcases ht : t with _ | ⟨⟨c, pc⟩, t2⟩
    · rw [ht] at hchB
      refine ⟨?_, ?_⟩
      · rw [hLU]
        exact hchB.2.2.1
      · rw [hLU]
        show (lvlAt sl (delU sl nid i) i).span + (lvlAt sl x i).span - 1
            = sl.length + (-1) - (updOf sl (delQ sl nid) i).2
        rw [hspanU, hchB.2.2.2]
        ring
    · rw [ht] at hchB
      refine ⟨?_, ?_, ?_⟩
      · rw [hLU]
        exact hchB.2.2.1
      · rw [hLU]
        show (lvlAt sl (delU sl nid i) i).span + (lvlAt sl x i).span - 1
            = pc + (-1) - (updOf sl (delQ sl nid) i).2
        rw [hspanU, hchB.2.2.2.1]
        ring
      · have hsh := chainAt_shift (δ := -1) hchB.2.2.2.2
        apply chainAt_congr hsh
        · exact hBcongr (c, pc) (by
            rw [hBt, ht]
            exact List.mem_cons_of_mem _ (List.mem_cons_self _ _))
        · intro e he
          obtain ⟨f, hf, rfl⟩ := List.mem_map.mp he
          exact hBcongr f (by
            rw [hBt, ht]
            exact List.mem_cons_of_mem _ (List.mem_cons_of_mem _ hf))
  · -- x is below this level: only the span shrinks
    have hxnot : ∀ e ∈ levOf sl chain i, e.1 ≠ x := by
      intro e he heq
      have := (levOf_sub he).2
      rw [heq] at this
      omega
    have hBC : (levOf sl chain i).filter
          (fun e => decide ((updOf sl (delQ sl nid) 0).2 < e.2))
        = (levOf sl chain i).filter
          (fun e => decide ((updOf sl (delQ sl nid) 0).2 + 1 < e.2)) := by
      apply List.filter_congr
      intro e he
      have he' : e ∈ withPos chain 1 := (levOf_sub he).1
      by_cases hp : e.2 = (updOf sl (delQ sl nid) 0).2 + 1
      · exfalso
        have : e = (x, (updOf sl (delQ sl nid) 0).2 + 1) :=
          withPos_pos_inj he' hxpos hp
        exact hxnot e he (by rw [this])
      · rw [decide_eq_decide]
        omega
    have hfwd_ne : (lvlAt sl (delU sl nid i) i).forward ≠ some x := by
      rcases hB2 : (levOf sl chain i).filter
          (fun e => decide ((updOf sl (delQ sl nid) 0).2 < e.2)) with _ | ⟨⟨c, pc⟩, t⟩
      · rw [hB2] at hchB
        rw [hUeq, hchB.1]
        simp
      · rw [hB2] at hchB
        rw [hUeq, hchB.1]
        intro hcx
        have hc : c = x := by injection hcx
        have hclev : (c, pc) ∈ levOf sl chain i := by
          have : (c, pc) ∈ (levOf sl chain i).filter
              (fun e => decide ((updOf sl (delQ sl nid) 0).2 < e.2)) := by
            rw [hB2]; exact List.mem_cons_self _ _
          exact (List.mem_filter.mp this).1
        exact hxnot _ hclev hc
    have hLU2 : lvlAt (delS1 sl nid x) (updOf sl (delQ sl nid) i).1 i
        = ⟨(lvlAt sl (delU sl nid i) i).forward,
           (lvlAt sl (delU sl nid i) i).span - 1⟩ := by
      rw [← hUeq, hfold _ i, if_pos ⟨hi, rfl⟩, if_neg hfwd_ne]
    rw [← hBC]
    apply chainAt_append.mpr
    refine ⟨hsegF, ?_⟩
    rw [hlast]
    rcases hB2 : (levOf sl chain i).filter
        (fun e => decide ((updOf sl (delQ sl nid) 0).2 < e.2)) with _ | ⟨⟨c, pc⟩, t⟩
    · rw [hB2] at hchB
      rw [hB2]
      refine ⟨?_, ?_⟩
      · rw [hLU2]
        rw [hUeq]
        exact hchB.1
      · rw [hLU2]
        show (lvlAt sl (delU sl nid i) i).span - 1
            = sl.length + (-1) - (updOf sl (delQ sl nid) i).2
        rw [hUeq, hchB.2]
        ring
    · rw [hB2] at hchB
      rw [hB2]
      refine ⟨?_, ?_, ?_⟩
      · rw [hLU2]
        rw [hUeq]
        exact hchB.1
      · rw [hLU2]
        show (lvlAt sl (delU sl nid i) i).span - 1
            = pc + (-1) - (updOf sl (delQ sl nid) i).2
        rw [hUeq, hchB.2.1]
        ring
      · have hsh := chainAt_shift (δ := -1) hchB.2.2
        apply chainAt_congr hsh
        · exact hBcongr (c, pc) (by rw [hB2]; exact List.mem_cons_self _ _)
        · intro e he
          obtain ⟨f, hf, rfl⟩ := List.mem_map.mp he
          exact hBcongr f (by rw [hB2]; exact List.mem_cons_of_mem _ hf)

/-- The bottom forward of the node being removed is the next chain element. -/
theorem delX_fwd0 {sl : SkipList T} {chain : List Nat} (wf : WF sl chain) (nid : Nat)
    {x : Nat} {dpt : List Nat}
    (hdp : chain.drop (delChainIdx sl nid) = x :: dpt) :
    (dpt = [] → (lvlAt sl x 0).forward = none) ∧
    (∀ c dpt2, dpt = c :: dpt2 → (lvlAt sl x 0).forward = some c) := by
  have h0lv : 0 < sl.level := wf.hlevel1
  have hr0n : 0 ≤ (updOf sl (delQ sl nid) 0).2 := updOf_nonneg wf _ h0lv
  have hr0c : (updOf sl (delQ sl nid) 0).2 ≤ (chain.length : Int) :=
    updOf_le_chain wf _ h0lv
  have hmc : delChainIdx sl nid ≤ chain.length := by unfold delChainIdx; omega
  have hmr : ((delChainIdx sl nid : Nat) : Int) = (updOf sl (delQ sl nid) 0).2 := by
    unfold delChainIdx; omega
  obtain ⟨hlast, _, _, _, _⟩ := updAi_facts wf (delQ sl nid) h0lv
  have hold := wf.hchains 0 h0lv
  rw [sorted_split (levOf_pairwise sl chain 0) (updOf sl (delQ sl nid) 0).2] at hold
  have hch0 := (chainAt_append.mp hold).2
  rw [hlast] at hch0
  have hB0 : (levOf sl chain 0).filter
        (fun e => decide ((updOf sl (delQ sl nid) 0).2 < e.2))
      = withPos (chain.drop (delChainIdx sl nid)) ((delChainIdx sl nid : Int) + 1) := by
    rw [lev0_eq wf, ← hmr, (withPos_take_drop chain (delChainIdx sl nid) hmc).2]
  rw [hB0, hdp] at hch0
  -- hch0 now walks (x, m+1) :: withPos dpt (m+2)
  have hchx : chainAt sl sl.length 0 x ((delChainIdx sl nid : Int) + 1)
      (withPos dpt ((delChainIdx sl nid : Int) + 1 + 1)) := hch0.2.2
  constructor
  · intro hde
    rw [hde] at hchx
    exact hchx.1
  · intro c dpt2 hde
    rw [hde] at hchx
    exact hchx.1

/-- `delete` removes exactly the chain node after the bottom stop, preserving the
structural invariant over the shortened chain. -/
theorem delete_wf {sl : SkipList T} {chain : List Nat} (wf : WF sl chain) (nid : Nat)
    {x : Nat} {dpt : List Nat}
    (hdp : chain.drop (delChainIdx sl nid) = x :: dpt) :
    WF (delFin sl nid x)
      (chain.take (delChainIdx sl nid) ++ chain.drop (delChainIdx sl nid + 1)) := by
  have h0lv : 0 < sl.level := wf.hlevel1
  have hr0n : 0 ≤ (updOf sl (delQ sl nid) 0).2 := updOf_nonneg wf _ h0lv
  have hr0c : (updOf sl (delQ sl nid) 0).2 ≤ (chain.length : Int) :=
    updOf_le_chain wf _ h0lv
  have hmc : delChainIdx sl nid ≤ chain.length := by unfold delChainIdx; omega
  obtain ⟨hqx, hxchain, hunex⟩ := delU_ne_x wf nid hdp
  have hx0 : x ≠ 0 := (wf.hvalid x hxchain).2
  have hxlen : x < sl.nodes.length := (wf.hvalid x hxchain).1
  have hmlt : delChainIdx sl nid < chain.length := by
    by_contra h
    push_neg at h
    rw [List.drop_eq_nil_of_le h] at hdp
    exact (List.cons_ne_nil _ _) hdp.symm
  have hdpt : chain.drop (delChainIdx sl nid + 1) = dpt := by
    have h2 : chain.drop (delChainIdx sl nid + 1)
        = (chain.drop (delChainIdx sl nid)).drop 1 := by
      rw [List.drop_drop]
    rw [h2, hdp]
    rfl
  have hxmid : x ∉ chain.take (delChainIdx sl nid) ++ dpt := by
    have hnd : (chain.take (delChainIdx sl nid) ++ x :: dpt).Nodup := by
      rw [← hdp, List.take_append_drop]
      exact wf.hnodup
    exact (List.nodup_cons.mp (List.nodup_middle.mp hnd)).1
  have hnd' : (chain.take (delChainIdx sl nid) ++ dpt).Nodup := by
    have hnd : (chain.take (delChainIdx sl nid) ++ x :: dpt).Nodup := by
      rw [← hdp, List.take_append_drop]
      exact wf.hnodup
    exact List.Nodup.sublist
      (List.Sublist.append_left ((List.Sublist.refl dpt).cons x) _) hnd
  have hsub : ∀ id ∈ chain.take (delChainIdx sl nid) ++ dpt, id ∈ chain := by
    intro id hid
    rcases List.mem_append.mp hid with h | h
    · exact List.take_subset _ _ h
    · exact List.drop_subset (delChainIdx sl nid + 1) _ (by rw [hdpt]; exact h)
  -- pipeline observations
  have hsh1 : SameShape (delS1 sl nid x) sl := sameShape_foldl (fun s k => by
    split
    · exact sameShape_setLvl _ _ _ _
    · exact sameShape_setLvl _ _ _ _) _ sl
  obtain ⟨hL1, hL2, hL3, hL4⟩ := shrink_spec (delS1 sl nid x)
  have hS2eq : delS2 sl nid x = { delS1 sl nid x with level := (delS2 sl nid x).level } := hL4
  have hnodes2 : (delS2 sl nid x).nodes = (delS1 sl nid x).nodes := by rw [hS2eq]
  have hlvl2 : ∀ a j, lvlAt (delS2 sl nid x) a j = lvlAt (delS1 sl nid x) a j :=
    lvlAt_eq_of_nodes hnodes2
  have hh2 : ∀ a, heightOf (delS2 sl nid x) a = heightOf sl a := fun a =>
    (heightOf_eq_of_nodes hnodes2 a).trans (hsh1.2.2.2.2.2.2.2.2.1 a)
  have hb2 : ∀ a, (nodeAt (delS2 sl nid x) a).backward = (nodeAt sl a).backward := fun a =>
    (backward_eq_of_nodes hnodes2 a).trans (hsh1.2.2.2.2.2.2.2.2.2.2 a)
  have hfold : ∀ a j, lvlAt (delS1 sl nid x) a j
      = if j < sl.level ∧ a = delU sl nid j then
          (if (lvlAt sl (delU sl nid j) j).forward = some x then
            ⟨(lvlAt sl x j).forward,
             (lvlAt sl (delU sl nid j) j).span + (lvlAt sl x j).span - 1⟩
          else ⟨(lvlAt sl (delU sl nid j) j).forward,
                (lvlAt sl (delU sl nid j) j).span - 1⟩)
        else lvlAt sl a j :=
    del_fold_lvlAt sl x (delU sl nid) sl.level hunex
      (fun j hj => (delU_facts wf nid j hj).1) (fun j hj => (delU_facts wf nid j hj).2.1)
  have hlvlx : ∀ j, lvlAt (delS1 sl nid x) x j = lvlAt sl x j := by
    intro j
    rw [hfold x j]
    by_cases hj : j < sl.level
    · rw [if_neg (fun h => hunex j hj h.2.symm)]
    · rw [if_neg (fun h => hj h.1)]
  have hfwdX := delX_fwd0 wf nid hdp
  have hlvlx02 : (lvlAt (delS2 sl nid x) x 0).forward = (lvlAt sl x 0).forward := by
    rw [hlvl2, hlvlx]
  -- the backward of x seen by the relink step
  have hold2 : backOk sl none (chain.take (delChainIdx sl nid) ++ x :: dpt) := by
    rw [← hdp, List.take_append_drop]
    exact wf.hback
  obtain ⟨hbk_tk, hbk_xdpt⟩ := backOk_append.mp hold2
  have hbk_x : (nodeAt sl x).backward = optLast none (chain.take (delChainIdx sl nid)) :=
    hbk_xdpt.1
  have hbk_dpt : backOk sl (some x) dpt := hbk_xdpt.2
  -- observation bundle for delS3
  have hcltlen : ∀ c dpt2, dpt = c :: dpt2 → c < (delS2 sl nid x).nodes.length := by
    intro c dpt2 hde
    have hcch : c ∈ chain := List.drop_subset _ _ (by
      rw [hdp, hde]
      exact List.mem_cons_of_mem _ (List.mem_cons_self _ _))
    rw [hnodes2, hsh1.1]
    exact (wf.hvalid _ hcch).1
  have hobs : (∀ a j, lvlAt (delS3 sl nid x) a j = lvlAt (delS1 sl nid x) a j) ∧
      (delS3 sl nid x).nodes.length = sl.nodes.length ∧
      (delS3 sl nid x).length = sl.length ∧
      (delS3 sl nid x).level = (delS2 sl nid x).level ∧
      (delS3 sl nid x).maxLevel = sl.maxLevel ∧
      (delS3 sl nid x).freelist = sl.freelist ∧
      (delS3 sl nid x).freeCap = sl.freeCap ∧
      (∀ a, heightOf (delS3 sl nid x) a = heightOf sl a) ∧
      (dpt = [] → (delS3 sl nid x).tail
          = optLast none (chain.take (delChainIdx sl nid)) ∧
        (∀ a, (nodeAt (delS3 sl nid x) a).backward = (nodeAt sl a).backward)) ∧
      (∀ c dpt2, dpt = c :: dpt2 → (delS3 sl nid x).tail = sl.tail ∧
        (nodeAt (delS3 sl nid x) c).backward
          = optLast none (chain.take (delChainIdx sl nid)) ∧
        (∀ a, a ≠ c → (nodeAt (delS3 sl nid x) a).backward = (nodeAt sl a).backward)) := by
    rcases hde : dpt with _ | ⟨c, dpt2⟩
    · have hfw : (lvlAt (delS2 sl nid x) x 0).forward = none := by
        rw [hlvlx02]
        exact hfwdX.1 hde
      have hS3 : delS3 sl nid x
          = { delS2 sl nid x with tail := (nodeAt (delS2 sl nid x) x).backward } := by
        unfold delS3
        rw [hfw]
      rw [hS3]
      refine ⟨fun a j => hlvl2 a j, ?_, ?_, rfl, ?_, ?_, ?_, ?_, ?_, ?_⟩
      · show (delS2 sl nid x).nodes.length = _
        rw [hnodes2, hsh1.1]
      · show (delS2 sl nid x).length = _
        rw [hS2eq]
        exact hsh1.2.2.1
      · show (delS2 sl nid x).maxLevel = _
        rw [hS2eq]
        exact hsh1.2.2.2.2.1
      · show (delS2 sl nid x).freelist = _
        rw [hS2eq]
        exact hsh1.2.2.2.2.2.1
      · show (delS2 sl nid x).freeCap = _
        rw [hS2eq]
        exact hsh1.2.2.2.2.2.2.1
      · intro a
        show heightOf (delS2 sl nid x) a = _
        exact hh2 a
      · intro _
        exact ⟨by show (nodeAt (delS2 sl nid x) x).backward = _; rw [hb2 x, hbk_x],
          fun a => hb2 a⟩
      · intro c dpt2 hcon
        exact absurd hcon.symm (List.cons_ne_nil _ _)
    · have hfw : (lvlAt (delS2 sl nid x) x 0).forward = some c := by
        rw [hlvlx02]
        exact hfwdX.2 c dpt2 hde
      have hS3 : delS3 sl nid x
          = setBackward (delS2 sl nid x) c (nodeAt (delS2 sl nid x) x).backward := by
        unfold delS3
        rw [hfw]
      rw [hS3]
      refine ⟨fun a j => (lvlAt_setBackward _ _ _ a j).trans (hlvl2 a j),
        ?_, ?_, rfl, ?_, ?_, ?_, ?_, ?_, ?_⟩
      · show (setBackward (delS2 sl nid x) c _).nodes.length = _
        rw [show (setBackward (delS2 sl nid x) c _).nodes.length
            = (delS2 sl nid x).nodes.length from by simp [setBackward, setNode]]
        rw [hnodes2, hsh1.1]
      · show (delS2 sl nid x).length = _
        rw [hS2eq]
        exact hsh1.2.2.1
      · show (delS2 sl nid x).maxLevel = _
        rw [hS2eq]
        exact hsh1.2.2.2.2.1
      · show (delS2 sl nid x).freelist = _
        rw [hS2eq]
        exact hsh1.2.2.2.2.2.1
      · show (delS2 sl nid x).freeCap = _
        rw [hS2eq]
        exact hsh1.2.2.2.2.2.2.1
      · intro a
        exact (heightOf_setBackward _ _ _ a).trans (hh2 a)
      · intro hcon
        exact absurd hcon (List.cons_ne_nil _ _)
      · intro c' dpt2' hde'
        have hc : c = c' := by injection hde'
        refine ⟨?_, ?_, ?_⟩
        · show (delS2 sl nid x).tail = _
          rw [hS2eq]
          exact hsh1.2.1
        · rw [← hc]
          rw [backward_setBackward_self _ _ (hcltlen c dpt2 hde)]
          rw [hb2 x, hbk_x]
        · intro a ha
          rw [← hc] at ha
          rw [backward_setBackward_ne _ _ (fun h => ha h.symm)]
          exact hb2 a
  obtain ⟨ho_lvl, ho_n, ho_len, ho_lev, ho_max, ho_fl, ho_cap, ho_h, ho_nil, ho_cons⟩ := hobs
  obtain ⟨hf_tail, hf_len, hf_lev, hf_max, hf_less, hf_cap, hf_fl⟩ :=
    freeNode_fields (delS3 sl nid x) x
  -- final-state observations
  have hFn : (delFin sl nid x).nodes.length = sl.nodes.length := by
    show (freeNode (delS3 sl nid x) x).nodes.length = _
    rw [freeNode_len]
    exact ho_n
  have hFlvl : ∀ a j, a ≠ x → lvlAt (delFin sl nid x) a j = lvlAt (delS1 sl nid x) a j := by
    intro a j ha
    show lvlAt (freeNode (delS3 sl nid x) x) a j = _
    rw [freeNode_lvlAt_ne _ (fun h => ha h.symm), ho_lvl a j]
  have hFh : ∀ a, heightOf (delFin sl nid x) a = heightOf sl a := by
    intro a
    show heightOf (freeNode (delS3 sl nid x) x) a = _
    rw [freeNode_heightOf]
    exact ho_h a
  have hFb : ∀ a, (nodeAt (delFin sl nid x) a).backward
      = (nodeAt (delS3 sl nid x) a).backward := by
    intro a
    show (nodeAt (freeNode (delS3 sl nid x) x) a).backward = _
    rw [freeNode_backward]
  have hFtail : (delFin sl nid x).tail = (delS3 sl nid x).tail := hf_tail
  have hFlen : (delFin sl nid x).length = sl.length - 1 := by
    show (freeNode (delS3 sl nid x) x).length - 1 = _
    rw [hf_len, ho_len]
  have hFlev : (delFin sl nid x).level = (delS2 sl nid x).level := by
    show (freeNode (delS3 sl nid x) x).level = _
    rw [hf_lev, ho_lev]
  have hFmax : (delFin sl nid x).maxLevel = sl.maxLevel := by
    show (freeNode (delS3 sl nid x) x).maxLevel = _
    rw [hf_max, ho_max]
  have hLlev1 : 1 ≤ (delS2 sl nid x).level := by
    apply hL2
    rw [hsh1.2.2.2.1]
    exact wf.hlevel1
  have hLlevS : (delS2 sl nid x).level ≤ sl.level := by
    have := hL1
    rw [hsh1.2.2.2.1] at this
    exact this
  -- the new level chains
  have hmr : ((delChainIdx sl nid : Nat) : Int) = (updOf sl (delQ sl nid) 0).2 := by
    unfold delChainIdx; omega
  have hchains1 := delS1_chains wf nid hdp
  have hlev_new : ∀ i, levOf (delFin sl nid x)
      (chain.take (delChainIdx sl nid) ++ dpt) i
      = (levOf sl chain i).filter
          (fun e => decide (e.2 ≤ (delChainIdx sl nid : Int)))
        ++ ((levOf sl chain i).filter
              (fun e => decide ((delChainIdx sl nid : Int) + 1 < e.2))).map
             (fun e => (e.1, e.2 + (-1))) := by
    intro i
    rw [levOf_congr i (fun id _ => hFh id), ← hdpt]
    exact del_levOf_split sl chain hmlt i
  have hmemnew : ∀ {i : Nat} {e : Nat × Int},
      e ∈ (levOf sl chain i).filter
          (fun e => decide (e.2 ≤ (delChainIdx sl nid : Int)))
        ++ ((levOf sl chain i).filter
              (fun e => decide ((delChainIdx sl nid : Int) + 1 < e.2))).map
             (fun e => (e.1, e.2 + (-1))) →
      e.1 ∈ chain.take (delChainIdx sl nid) ++ dpt := by
    intro i e he
    have he2 : e ∈ levOf sl (chain.take (delChainIdx sl nid) ++ dpt) i := by
      rw [← hdpt, del_levOf_split sl chain hmlt i]
      exact he
    obtain ⟨hw, _⟩ := levOf_sub he2
    have := withPos_map_fst (chain.take (delChainIdx sl nid) ++ dpt) 1
        ▸ List.mem_map_of_mem Prod.fst hw
    exact this
  have hchainsF : ∀ i, i < sl.level →
      chainAt (delFin sl nid x) (sl.length + (-1)) i 0 0
        ((levOf sl chain i).filter
            (fun e => decide (e.2 ≤ (delChainIdx sl nid : Int)))
          ++ ((levOf sl chain i).filter
                (fun e => decide ((delChainIdx sl nid : Int) + 1 < e.2))).map
               (fun e => (e.1, e.2 + (-1)))) := by
    intro i hi
    apply chainAt_congr (hchains1 i hi)
    · exact hFlvl 0 i (fun h => hx0 h.symm)
    · intro e he
      apply hFlvl e.1 i
      intro heq
      exact hxmid (heq ▸ hmemnew he)
  rw [hdpt]
  refine ⟨?_, ?_, ?_, ?_, ?_, ?_, hnd', ?_, ?_, ?_, ?_, ?_, ?_, ?_⟩
  · -- hlen
    rw [hFlen, wf.hlen]
    have hlc : (chain.take (delChainIdx sl nid) ++ dpt).length = chain.length - 1 := by
      rw [List.length_append, List.length_take, ← hdpt, List.length_drop]
      omega
    rw [hlc]
    omega
  · rw [hFn]; exact wf.hnodes
  · rw [hFh 0, wf.hheadh, hFmax]
  · rw [hFlev]; exact hLlev1
  · rw [hFlev, hFmax]; exact le_trans hLlevS wf.hlevelM
  · intro id hid
    rw [hFn]
    exact wf.hvalid id (hsub id hid)
  · -- hhts
    intro id hid
    rw [hFh id, hFlev]
    refine ⟨(wf.hhts id (hsub id hid)).1, ?_⟩
    by_contra hgt
    push_neg at hgt
    have hh1 : 1 ≤ heightOf sl id := (wf.hhts id (hsub id hid)).1
    have hhS : heightOf sl id ≤ sl.level := (wf.hhts id (hsub id hid)).2
    have hi' : heightOf sl id - 1 < sl.level := by omega
    have hS2lvl : (delS2 sl nid x).level = (shrink (delS1 sl nid x)).level := rfl
    have htopempty : (lvlAt (delS1 sl nid x) 0 (heightOf sl id - 1)).forward = none :=
      hL3 _ (by omega) (by rw [hsh1.2.2.2.1]; omega)
    obtain ⟨r, hr⟩ := mem_withPos_of_mem hid 1
    have hmem : (id, r) ∈ levOf sl (chain.take (delChainIdx sl nid) ++ dpt)
        (heightOf sl id - 1) :=
      levOf_intro hr (by show heightOf sl id - 1 < heightOf sl id; omega)
    rw [← hdpt] at hmem
    rw [del_levOf_split sl chain hmlt _] at hmem
    have hch := hchains1 (heightOf sl id - 1) hi'
    rcases hl : (levOf sl chain (heightOf sl id - 1)).filter
          (fun e => decide (e.2 ≤ (delChainIdx sl nid : Int)))
        ++ ((levOf sl chain (heightOf sl id - 1)).filter
              (fun e => decide ((delChainIdx sl nid : Int) + 1 < e.2))).map
             (fun e => (e.1, e.2 + (-1))) with _ | ⟨⟨v, q⟩, rest⟩
    · rw [hl] at hmem
      simp at hmem
    · rw [hl] at hch
      rw [hch.1] at htopempty
      exact Option.some_ne_none _ htopempty
  · -- hchains
    intro i hi
    rw [hFlev] at hi
    rw [hlev_new i, hFlen, show sl.length - 1 = sl.length + (-1) from by ring]
    exact hchainsF i (lt_of_lt_of_le hi hLlevS)
  · -- htop
    intro i hi
    rw [hFlev] at hi
    rw [hFlvl 0 i (fun h => hx0 h.symm)]
    by_cases his : i < sl.level
    · exact hL3 i hi (by rw [hsh1.2.2.2.1]; exact his)
    · rw [hfold 0 i, if_neg (fun h => his h.1)]
      exact wf.htop i (le_of_not_lt his)
  · -- hback
    apply backOk_append.mpr
    constructor
    · apply backOk_congr hbk_tk
      intro id hid
      rw [hFb id]
      rcases hde : dpt with _ | ⟨c, dpt2⟩
      · exact (ho_nil hde).2 id
      · apply (ho_cons c dpt2 hde).2.2 id
        intro heq
        have hcdpt : c ∈ dpt := by rw [hde]; exact List.mem_cons_self _ _
        have hdisj := List.disjoint_of_nodup_append hnd'
        exact hdisj hid (heq ▸ hcdpt)
    · rcases hde : dpt with _ | ⟨c, dpt2⟩
      · trivial
      · refine ⟨?_, ?_⟩
        · rw [hFb c]
          exact (ho_cons c dpt2 hde).2.1
        · have hbk2 : backOk sl (some c) dpt2 := by
            rw [hde] at hbk_dpt
            exact hbk_dpt.2
          apply backOk_congr hbk2
          intro id hid
          rw [hFb id]
          apply (ho_cons c dpt2 hde).2.2 id
          intro heq
          have hnddpt : dpt.Nodup := by
            have : (chain.drop (delChainIdx sl nid)).Nodup :=
              List.Nodup.sublist (List.drop_sublist _ _) wf.hnodup
            rw [hdp] at this
            exact (List.nodup_cons.mp this).2
          rw [hde] at hnddpt
          exact (List.nodup_cons.mp hnddpt).1 (heq ▸ hid)
  · -- htail
    rw [hFtail]
    rcases hde : dpt with _ | ⟨c, dpt2⟩
    · rw [List.append_nil, (ho_nil hde).1]
      exact optLast_none_eq_getLastQ _
    · rw [(ho_cons c dpt2 hde).1, wf.htail]
      have hcg : chain.getLast? = (c :: dpt2).getLast? := by
        conv_lhs => rw [← List.take_append_drop (delChainIdx sl nid) chain]
        rw [hdp, hde, getLastQ_append_right _ (List.cons_ne_nil _ _), getLastQ_cons₂]
      rw [hcg, getLastQ_append_right _ (List.cons_ne_nil _ _)]
  · -- hfree
    intro id hid
    have hflF : (delFin sl nid x).freelist = (freeNode (delS3 sl nid x) x).freelist := rfl
    rw [hflF] at hid
    rcases hf_fl with hfl | hfl
    · rw [hfl, ho_fl] at hid
      rcases List.mem_append.mp hid with h | h
      · refine ⟨by rw [hFn]; exact (wf.hfree id h).1, (wf.hfree id h).2.1, ?_⟩
        intro hmem
        exact (wf.hfree id h).2.2 (hsub id hmem)
      · have hidx : id = x := by simpa using h
        subst hidx
        exact ⟨by rw [hFn]; exact hxlen, hx0, hxmid⟩
    · rw [hfl, ho_fl] at hid
      refine ⟨by rw [hFn]; exact (wf.hfree id hid).1, (wf.hfree id hid).2.1, ?_⟩
      intro hmem
      exact (wf.hfree id hid).2.2 (hsub id hmem)
  · -- hfreend
    have hflF : (delFin sl nid x).freelist = (freeNode (delS3 sl nid x) x).freelist := rfl
    rw [hflF]
    rcases hf_fl with hfl | hfl
    · rw [hfl, ho_fl]
      rw [List.nodup_append]
      refine ⟨wf.hfreend, List.nodup_singleton _, ?_⟩
      intro a ha hax
      have : a = x := by simpa using hax
      subst this
      exact (wf.hfree a ha).2.2 hxchain
    · rw [hfl, ho_fl]
      exact wf.hfreend

/-! ### Reachability: the invariant from a fresh list through Add/Remove -/

theorem newSkipList_wf {maxLevel : Nat} (hM : 1 ≤ maxLevel) (less : T → T → Bool) :
    WF (newSkipList maxLevel less) ([] : List Nat) := by
  have hlvl : ∀ i, lvlAt (newSkipList maxLevel less) 0 i = ⟨none, 0⟩ := by
    intro i
    show (List.replicate maxLevel (⟨none, 0⟩ : SLevel)).getD i ⟨none, 0⟩ = _
    exact getD_replicate _ _ _
  refine ⟨rfl, Nat.one_pos, ?_, le_refl _, hM, ?_, List.nodup_nil, ?_, ?_, ?_, trivial, rfl,
    ?_, List.nodup_nil⟩
  · show (List.replicate maxLevel (⟨none, 0⟩ : SLevel)).length = maxLevel
    simp
  · intro id h
    simp at h
  · intro id h
    simp at h
  · intro i _
    show chainAt _ 0 i 0 0 []
    refine ⟨?_, ?_⟩
    · rw [hlvl i]
    · rw [hlvl i]
      simp
  · intro i _
    rw [hlvl i]
  · intro id h
    simp [newSkipList] at h

theorem updateItem_cases (sl : SkipList T) (nid : Nat) (v : T) :
    updateItem sl nid v = (setItem sl nid v, true) ∨ updateItem sl nid v = (sl, false) := by
  have h : updateItem sl nid v
      = if ((match (lvlAt sl nid 0).forward with
              | none => true
              | some f => !sl.less (itemAt sl f) v) &&
            (match (nodeAt sl nid).backward with
              | none => true
              | some b => !sl.less v (itemAt sl b))) = true
        then (setItem sl nid v, true) else (sl, false) := rfl
  rw [h]
  split
  · exact Or.inl rfl
  · exact Or.inr rfl

theorem updateItem_wf {sl : SkipList T} {chain : List Nat} (wf : WF sl chain)
    (nid : Nat) (v : T) : WF (updateItem sl nid v).1 chain := by
  rcases updateItem_cases sl nid v with h | h
  · rw [h]
    exact setItem_wf wf nid v
  · rw [h]
    exact wf

theorem updateItem_maxLevel (sl : SkipList T) (nid : Nat) (v : T) :
    (updateItem sl nid v).1.maxLevel = sl.maxLevel := by
  rcases updateItem_cases sl nid v with h | h
  · rw [h]
    rfl
  · rw [h]

theorem delFin_maxLevel (sl : SkipList T) (nid x : Nat) :
    (delFin sl nid x).maxLevel = sl.maxLevel := by
  show (freeNode (delS3 sl nid x) x).maxLevel = _
  rw [(freeNode_fields _ _).2.2.2.1]
  have h3 : (delS3 sl nid x).maxLevel = (delS2 sl nid x).maxLevel := by
    unfold delS3
    cases (lvlAt (delS2 sl nid x) x 0).forward <;> rfl
  rw [h3, show delS2 sl nid x = shrink (delS1 sl nid x) from rfl,
    (shrink_spec (delS1 sl nid x)).2.2.2]
  show (delS1 sl nid x).maxLevel = sl.maxLevel
  exact (sameShape_foldl (fun s k => by
    split
    · exact sameShape_setLvl _ _ _ _
    · exact sameShape_setLvl _ _ _ _) _ sl).2.2.2.2.1

theorem delete_wf_any {sl : SkipList T} {chain : List Nat} (wf : WF sl chain) (nid : Nat) :
    ∃ chain2, WF (delete sl nid).1 chain2 ∧ (delete sl nid).1.maxLevel = sl.maxLevel := by
  rw [delete_eq]
  rcases hX : delX sl nid with _ | x
  · exact ⟨chain, wf, rfl⟩
  · show ∃ chain2, WF (if sl.less (delW sl nid) (itemAt sl x) = true then (sl, default)
        else (delFin sl nid x, itemAt (delS3 sl nid x) x)).1 chain2 ∧
      (if sl.less (delW sl nid) (itemAt sl x) = true then (sl, default)
        else (delFin sl nid x, itemAt (delS3 sl nid x) x)).1.maxLevel = sl.maxLevel
    by_cases hg : sl.less (delW sl nid) (itemAt sl x) = true
    · rw [if_pos hg]
      exact ⟨chain, wf, rfl⟩
    · rw [if_neg hg]
      rcases hdd : chain.drop (delChainIdx sl nid) with _ | ⟨b, dpt⟩
      · have := ((delX_cases wf nid).1 hdd).symm.trans hX
        exact absurd this (by simp)
      · have hbx : b = x := by injection ((delX_cases wf nid).2 b dpt hdd).symm.trans hX
        rw [hbx] at hdd
        exact ⟨_, delete_wf wf nid hdd, delFin_maxLevel sl nid x⟩

theorem insert_wf_any {sl : SkipList T} {chain : List Nat} (wf : WF sl chain) (v : T)
    {lvl : Nat} (h1 : 1 ≤ lvl) (hM : lvl ≤ sl.maxLevel) :
    ∃ chain2, WF (insert sl v lvl).1 chain2 ∧ (insert sl v lvl).1.maxLevel = sl.maxLevel := by
  rw [insert_eq]
  exact ⟨_, insert_wf wf v h1 hM, (insFin_misc wf v hM).2.2.2.1⟩

theorem Add_sl_cases (zs : ZSet K T) (key : K) (v : T) (lvl : Nat) :
    (Add zs key v lvl).1.sl = match dictFind zs.dict key with
      | none => (insert zs.sl v lvl).1
      | some nid =>
        if (updateItem zs.sl nid v).2 then (updateItem zs.sl nid v).1
        else (insert (delete zs.sl nid).1 v lvl).1 := by
  unfold Add
  cases hf : dictFind zs.dict key with
  | none => rfl
  | some nid =>
    show (if (updateItem zs.sl nid v).2 = true
        then ({ zs with sl := (updateItem zs.sl nid v).1 }, (default : T))
        else (⟨dictSet zs.dict key (insert (delete zs.sl nid).1 v lvl).2,
               (insert (delete zs.sl nid).1 v lvl).1⟩, (delete zs.sl nid).2)).1.sl
      = if (updateItem zs.sl nid v).2 = true then (updateItem zs.sl nid v).1
        else (insert (delete zs.sl nid).1 v lvl).1
    by_cases hb : (updateItem zs.sl nid v).2 = true
    · rw [if_pos hb, if_pos hb]
    · rw [if_neg hb, if_neg hb]

theorem Remove_sl_cases (zs : ZSet K T) (key : K) :
    (Remove zs key).1.sl = match dictFind zs.dict key with
      | none => zs.sl
      | some nid => (delete zs.sl nid).1 := by
  unfold Remove
  cases hf : dictFind zs.dict key with
  | none => rfl
  | some nid => rfl

theorem applyOp_wf {zs : ZSet K T} (h : ∃ chain, WF zs.sl chain)
    (hmax : zs.sl.maxLevel = DefaultMaxLevel) (op : ZOp K T)
    (hop : match op with
      | .add _ _ lvl => 1 ≤ lvl ∧ lvl ≤ DefaultMaxLevel
      | .rem _ => True) :
    (∃ chain, WF (applyOp zs op).sl chain) ∧
      (applyOp zs op).sl.maxLevel = DefaultMaxLevel := by
  obtain ⟨chain, wf⟩ := h
  cases op with
  | add key v lvl =>
    obtain ⟨h1, hL⟩ := hop
    show (∃ c, WF (Add zs key v lvl).1.sl c) ∧ (Add zs key v lvl).1.sl.maxLevel = _
    rw [Add_sl_cases]
    cases hf : dictFind zs.dict key with
    | none =>
      show (∃ c, WF (insert zs.sl v lvl).1 c) ∧ (insert zs.sl v lvl).1.maxLevel = _
      obtain ⟨c2, hwf2, hm2⟩ := insert_wf_any wf v h1 (by rw [hmax]; exact hL)
      exact ⟨⟨c2, hwf2⟩, by rw [hm2, hmax]⟩
    | some nid =>
      show (∃ c, WF (if (updateItem zs.sl nid v).2 = true then (updateItem zs.sl nid v).1
          else (insert (delete zs.sl nid).1 v lvl).1) c) ∧
        (if (updateItem zs.sl nid v).2 = true then (updateItem zs.sl nid v).1
          else (insert (delete zs.sl nid).1 v lvl).1).maxLevel = _
      by_cases hb : (updateItem zs.sl nid v).2 = true
      · rw [if_pos hb]
        exact ⟨⟨chain, updateItem_wf wf nid v⟩,
          by rw [updateItem_maxLevel, hmax]⟩
      · rw [if_neg hb]
        obtain ⟨c2, hwf2, hm2⟩ := delete_wf_any wf nid
        obtain ⟨c3, hwf3, hm3⟩ := insert_wf_any hwf2 v h1 (by rw [hm2, hmax]; exact hL)
        exact ⟨⟨c3, hwf3⟩, by rw [hm3, hm2, hmax]⟩
  | rem key =>
    show (∃ c, WF (Remove zs key).1.sl c) ∧ (Remove zs key).1.sl.maxLevel = _
    rw [Remove_sl_cases]
    cases hf : dictFind zs.dict key with
    | none => exact ⟨⟨chain, wf⟩, hmax⟩
    | some nid =>
      show (∃ c, WF (delete zs.sl nid).1 c) ∧ (delete zs.sl nid).1.maxLevel = _
      obtain ⟨c2, hwf2, hm2⟩ := delete_wf_any wf nid
      exact ⟨⟨c2, hwf2⟩, by rw [hm2, hmax]⟩

theorem foldl_applyOp_wf : ∀ (ops : List (ZOp K T)) (zs : ZSet K T),
    (∃ chain, WF zs.sl chain) → zs.sl.maxLevel = DefaultMaxLevel →
    (∀ op ∈ ops, match op with
      | .add _ _ lvl => 1 ≤ lvl ∧ lvl ≤ DefaultMaxLevel
      | .rem _ => True) →
    (∃ chain, WF (ops.foldl applyOp zs).sl chain) ∧
      (ops.foldl applyOp zs).sl.maxLevel = DefaultMaxLevel := by
  intro ops
  induction ops with
  | nil => intro zs h hmax _; exact ⟨h, hmax⟩
  | cons op rest ih =>
    intro zs h hmax hops
    rw [List.foldl_cons]
    obtain ⟨h2, hmax2⟩ := applyOp_wf h hmax op (hops op (List.mem_cons_self _ _))
    exact ih (applyOp zs op) h2 hmax2 (fun o ho => hops o (List.mem_cons_of_mem _ ho))

theorem applyOps_wf (less : T → T → Bool) (ops : List (ZOp K T)) (hops : validOps ops) :
    (∃ chain, WF (applyOps less ops).sl chain) ∧
      (applyOps less ops).sl.maxLevel = DefaultMaxLevel := by
  unfold applyOps
  exact foldl_applyOp_wf ops (zsNew less) ⟨[], newSkipList_wf (by norm_num [DefaultMaxLevel]) less⟩
    rfl hops

/-! ### Claim C1 -/

/-- C1: after every sequence of Add and Remove operations starting from a new ZSet
(with the levels drawn for insertions in `randomLevel`'s range `[1, DefaultMaxLevel]`),
for every level `i` below the skip list's current level, the sum of the span fields
along the level-`i` chain from the header — including the span of the final link
whose forward pointer is nil — equals the list's length.  The proof goes through
preservation of the structural invariant by `insert` (`insert_wf`), `delete`
(`delete_wf`) and the in-place update (`updateItem_wf`). -/
theorem c1_span_sum (less : T → T → Bool) (ops : List (ZOp K T)) (hops : validOps ops) :
    ∀ i, i < (applyOps less ops).sl.level →
      spanSum (applyOps less ops).sl i = Length (applyOps less ops) := by
  obtain ⟨⟨chain, wf⟩, _⟩ := applyOps_wf less ops hops
  intro i hi
  show spanSum _ i = (applyOps less ops).sl.length
  exact spanSum_of_wf wf i hi

theorem c1_span_sum_witness :
    validOps [ZOp.add (1 : Nat) (5 : Int) 1, ZOp.rem 1] ∧
    0 < (applyOps (fun a b => decide (a < b))
      [ZOp.add (1 : Nat) (5 : Int) 1, ZOp.rem 1]).sl.level ∧
    spanSum (applyOps (fun a b => decide (a < b))
      [ZOp.add (1 : Nat) (5 : Int) 1, ZOp.rem 1]).sl 0
      = Length (applyOps (fun a b => decide (a < b))
          [ZOp.add (1 : Nat) (5 : Int) 1, ZOp.rem 1]) := by
  have hops : validOps [ZOp.add (1 : Nat) (5 : Int) 1, ZOp.rem 1] := by
    intro op hop
    rcases List.mem_cons.mp hop with h | hop
    · rw [h]
      exact ⟨le_refl 1, by norm_num [DefaultMaxLevel]⟩
    rcases List.mem_cons.mp hop with h | hop
    · rw [h]
      trivial
    · simp at hop
  have hlev : 0 < (applyOps (fun a b => decide (a < b))
      [ZOp.add (1 : Nat) (5 : Int) 1, ZOp.rem 1]).sl.level := by decide
  exact ⟨hops, hlev, c1_span_sum _ _ hops 0 hlev⟩

/-! ### Specification of the rank-targeted walk (`getNodeByRank`) -/

theorem sorted_mem_le_getLastD : ∀ {l : List (Nat × Int)},
    l.Pairwise (fun a b => a.2 < b.2) → ∀ (d : Nat × Int), ∀ e ∈ l, e.2 ≤ (l.getLastD d).2 := by
  intro l
  induction l with
  | nil => intro _ d e he; simp at he
  | cons a t ih =>
    intro hpw d e he
    rw [List.getLastD_cons]
    cases t with
    | nil => simp only [List.mem_singleton] at he; rw [he]; simp [List.getLastD]
    | cons b u =>
      rcases List.mem_cons.mp he with he | he
      · have hab := (List.pairwise_cons.mp hpw).1 b (by simp)
        have hb := ih (List.pairwise_cons.mp hpw).2 a b (by simp)
        rw [he]; omega
      · exact ih (List.pairwise_cons.mp hpw).2 a e he

/-- `walkSpan` consumes exactly the prefix of the remaining chain whose positions
are at most `target` (positions are what accumulated spans compute to). -/
theorem walkSpan_spec {sl : SkipList T} {len : Int} {i : Nat} (target : Int) :
    ∀ {l : List (Nat × Int)} {x : Nat} {px : Int} {fuel : Nat},
      chainAt sl len i x px l → l.length ≤ fuel →
      ∃ l1 l2, l = l1 ++ l2 ∧
        (∀ e ∈ l1, e.2 ≤ target) ∧
        walkSpan sl target i x px fuel = l1.getLastD (x, px) ∧
        chainAt sl len i (l1.getLastD (x, px)).1 (l1.getLastD (x, px)).2 l2 ∧
        (∀ e ∈ l2.head?, ¬ e.2 ≤ target) := by
  intro l
  induction l with
  | nil =>
    intro x px fuel h _
    refine ⟨[], [], by simp, by simp, ?_, by simpa [List.getLastD] using h, by simp⟩
    cases fuel with
    | zero => rfl
    | succ f => simp [walkSpan, h.1]
  | cons a rest ih =>
    intro x px fuel h hf
    rcases a with ⟨v, q0⟩
    obtain ⟨h1, h2, h3⟩ := h
    cases fuel with
    | zero => simp at hf
    | succ f =>
      have hf' : rest.length ≤ f := by simpa using hf
      have harith : px + (lvlAt sl x i).span = q0 := by rw [h2]; ring
      by_cases hp : q0 ≤ target
      · obtain ⟨l1, l2, heq, hq, hw, hc, hh⟩ := ih h3 hf'
        refine ⟨(v, q0) :: l1, l2, by simp [heq], ?_, ?_, ?_, hh⟩
        · intro e he
          rcases List.mem_cons.mp he with he | he
          · rw [he]; exact hp
          · exact hq e he
        · have hcond : px + (lvlAt sl x i).span ≤ target := by rw [harith]; exact hp
          simp only [walkSpan, h1, if_pos hcond]
          rw [harith, List.getLastD_cons]
          exact hw
        · rw [List.getLastD_cons]
          exact hc
      · refine ⟨[], (v, q0) :: rest, by simp, by simp, ?_, ?_, ?_⟩
        · have hcond : ¬ px + (lvlAt sl x i).span ≤ target := by rw [harith]; exact hp
          simp [walkSpan, h1, hcond]
        · exact ⟨h1, h2, h3⟩
        · intro e he
          simp only [List.head?_cons, Option.mem_def, Option.some.injEq] at he
          rw [← he]
          exact hp

/-- Behaviour of the per-level walk of `getNodeByRank` from a stop on the level
chain: it lands on the last level-`i` element positioned at most `target`. -/
theorem walkSpan_stop {sl : SkipList T} {chain : List Nat} (wf : WF sl chain)
    {target : Int} {j : Nat} (hj : j < sl.level) {x : Nat} {px : Int}
    (hm : (x, px) ∈ ((0 : Nat), (0 : Int)) :: levOf sl chain j) (hpx : px ≤ target) :
    (walkSpan sl target j x px sl.nodes.length
        ∈ ((0 : Nat), (0 : Int)) :: levOf sl chain j) ∧
    (walkSpan sl target j x px sl.nodes.length).2 ≤ target ∧
    px ≤ (walkSpan sl target j x px sl.nodes.length).2 ∧
    (∀ e ∈ levOf sl chain j, px < e.2 → e.2 ≤ target →
      e.2 ≤ (walkSpan sl target j x px sl.nodes.length).2) := by
  have hch0 := wf.hchains j hj
  have hpw := levOf_pairwise sl chain j
  have hpos : ∀ e ∈ levOf sl chain j, (0 : Int) < e.2 := fun e he => (levOf_pos he).1
  have hsfx := chainAt_suffix hch0 hpw hpos hm
  set sfx := (levOf sl chain j).filter (fun e => decide (px < e.2)) with hsfxdef
  have hsub : ∀ e ∈ sfx, e ∈ levOf sl chain j := fun e he => (List.mem_filter.mp he).1
  have hgt : ∀ e ∈ sfx, px < e.2 := fun e he => by
    have := (List.mem_filter.mp he).2
    simpa using this
  have hflen : sfx.length ≤ sl.nodes.length := by
    calc sfx.length ≤ (levOf sl chain j).length := List.length_filter_le _ _
      _ ≤ chain.length := levOf_length_le _ _ _
      _ ≤ sl.nodes.length := le_of_lt wf.chain_length_lt
  obtain ⟨l1, l2, heq, hq, hw, hc, hh⟩ := walkSpan_spec target hsfx hflen
  set s := l1.getLastD (x, px) with hsdef
  have hsmem : s = (x, px) ∨ s ∈ l1 := by
    rcases List.mem_cons.mp (getLastD_mem_cons l1 (x, px)) with h | h
    · exact Or.inl h
    · exact Or.inr h
  have hl1sub : ∀ e ∈ l1, e ∈ sfx := fun e he => heq ▸ List.mem_append_left _ he
  have hl2sub : ∀ e ∈ l2, e ∈ sfx := fun e he => heq ▸ List.mem_append_right _ he
  rw [hw]
  refine ⟨?_, ?_, ?_, ?_⟩
  · rcases hsmem with h | h
    · rw [h]; exact hm
    · exact List.mem_cons_of_mem _ (hsub s (hl1sub s h))
  · rcases hsmem with h | h
    · rw [h]; exact hpx
    · exact hq s h
  · rcases hsmem with h | h
    · rw [h]
    · exact le_of_lt (hgt s (hl1sub s h))
  · intro e he hgt1 hle
    have hesfx : e ∈ sfx := List.mem_filter.mpr ⟨he, by simpa using hgt1⟩
    rw [heq] at hesfx
    have hpw2 : sfx.Pairwise (fun a b => a.2 < b.2) := hpw.filter _
    rw [heq] at hpw2
    rcases List.mem_append.mp hesfx with h | h
    · exact sorted_mem_le_getLastD (List.pairwise_append.mp hpw2).1 (x, px) e h
    · exfalso
      cases l2 with
      | nil => simp at h
      | cons a t =>
        have hha : ¬ a.2 ≤ target := hh a (by simp)
        rcases List.mem_cons.mp h with h2 | h2
        · rw [h2] at hle; exact hha hle
        · have := (List.pairwise_cons.mp (List.pairwise_append.mp hpw2).2.1).1 e h2
          omega

theorem getNodeByRankAux_zero (sl : SkipList T) (target : Int) (x : Nat) (tr : Int) :
    getNodeByRankAux sl target 0 x tr
      = (if (walkSpan sl target 0 x tr sl.nodes.length).2 = target
         then some (walkSpan sl target 0 x tr sl.nodes.length).1 else none) := rfl

theorem getNodeByRankAux_succ (sl : SkipList T) (target : Int) (i : Nat) (x : Nat) (tr : Int) :
    getNodeByRankAux sl target (i+1) x tr
      = (if (walkSpan sl target (i+1) x tr sl.nodes.length).2 = target
         then some (walkSpan sl target (i+1) x tr sl.nodes.length).1
         else getNodeByRankAux sl target i (walkSpan sl target (i+1) x tr sl.nodes.length).1
                (walkSpan sl target (i+1) x tr sl.nodes.length).2) := rfl

/-- With a non-positive target the span walk does not leave the header. -/
theorem walkSpan_header_nonpos {sl : SkipList T} {chain : List Nat} (wf : WF sl chain)
    {target : Int} (ht : target ≤ 0) {j : Nat} (hj : j < sl.level) :
    walkSpan sl target j 0 0 sl.nodes.length = (0, 0) := by
  have hch := wf.hchains j hj
  have hflen : (levOf sl chain j).length ≤ sl.nodes.length :=
    le_trans (levOf_length_le sl chain j) (le_of_lt wf.chain_length_lt)
  obtain ⟨l1, l2, heq, hq, hw, _, _⟩ := walkSpan_spec target hch hflen
  have hl1 : l1 = [] := by
    cases l1 with
    | nil => rfl
    | cons a t =>
      exfalso
      have hmem : a ∈ levOf sl chain j := heq ▸ List.mem_append_left _ (by simp)
      have h1 := (levOf_pos hmem).1
      have h2 := hq a (by simp)
      omega
  rw [hw, hl1]
  rfl

/-- A negative rank target makes every level of the lookup fail. -/
theorem getNodeByRankAux_neg {sl : SkipList T} {chain : List Nat} (wf : WF sl chain)
    {target : Int} (ht : target < 0) :
    ∀ j, j < sl.level → getNodeByRankAux sl target j 0 0 = none := by
  intro j
  induction j with
  | zero =>
    intro hj
    rw [getNodeByRankAux_zero, walkSpan_header_nonpos wf (le_of_lt ht) hj, if_neg (by omega)]
  | succ j ih =>
    intro hj
    rw [getNodeByRankAux_succ, walkSpan_header_nonpos wf (le_of_lt ht) hj, if_neg (by omega)]
    exact ih (by omega)

/-- If the walk stop sits at position `target ≥ 1`, its node is the chain entry
of (0-based) index `target - 1`. -/
theorem stop_node_getD {sl : SkipList T} {chain : List Nat} {j : Nat} {target : Int}
    {s : Nat × Int} (hsm : s ∈ ((0 : Nat), (0 : Int)) :: levOf sl chain j)
    (h1 : 1 ≤ target) (hseq : s.2 = target) :
    chain.getD (target.toNat - 1) 0 = s.1 := by
  rcases List.mem_cons.mp hsm with h | h
  · exfalso
    rw [h] at hseq
    simp at hseq
    omega
  · have hw : (s.1, s.2) ∈ withPos chain 1 := (levOf_sub h).1
    have := (withPos_mem_getD hw).1
    rw [hseq] at this
    exact this

/-- For a target inside `[1, length]`, the lookup returns the chain node of
that 1-based rank (regardless of the level the descent is currently on). -/
theorem getNodeByRankAux_in_range {sl : SkipList T} {chain : List Nat} (wf : WF sl chain)
    {target : Int} (h1 : 1 ≤ target) (h2 : target ≤ sl.length) :
    ∀ j, j < sl.level → ∀ x px,
      (x, px) ∈ ((0 : Nat), (0 : Int)) :: levOf sl chain j → px ≤ target →
      getNodeByRankAux sl target j x px = some (chain.getD (target.toNat - 1) 0) := by
  have hkt : target.toNat - 1 < chain.length := by
    have := wf.hlen
    omega
  have hE : (chain.getD (target.toNat - 1) 0, target) ∈ withPos chain 1 := by
    have hget := withPos_get (l := chain) (p := 1) hkt
    have harith : (1 : Int) + ((target.toNat - 1 : Nat) : Int) = target := by push_cast; omega
    rw [harith] at hget
    exact hget
  intro j
  induction j with
  | zero =>
    intro hj x px hm hpx
    obtain ⟨hsm, hsle, hpxs, hmax⟩ := walkSpan_stop wf hj hm hpx
    rw [getNodeByRankAux_zero]
    have hE0 : (chain.getD (target.toNat - 1) 0, target) ∈ levOf sl chain 0 := by
      rw [lev0_eq wf]
      exact hE
    have hseq : (walkSpan sl target 0 x px sl.nodes.length).2 = target := by
      rcases lt_or_eq_of_le hpx with h | h
      · have := hmax _ hE0 h (le_refl target)
        omega
      · omega
    rw [if_pos hseq, stop_node_getD hsm h1 hseq]
  | succ j ih =>
    intro hj x px hm hpx
    obtain ⟨hsm, hsle, hpxs, hmax⟩ := walkSpan_stop wf hj hm hpx
    rw [getNodeByRankAux_succ]
    by_cases hseq : (walkSpan sl target (j+1) x px sl.nodes.length).2 = target
    · rw [if_pos hseq, stop_node_getD hsm h1 hseq]
    · rw [if_neg hseq]
      have hsm' : ((walkSpan sl target (j+1) x px sl.nodes.length).1,
          (walkSpan sl target (j+1) x px sl.nodes.length).2)
            ∈ ((0 : Nat), (0 : Int)) :: levOf sl chain j := by
        rcases List.mem_cons.mp hsm with h | h
        · rw [h]
          exact List.mem_cons_self _ _
        · exact List.mem_cons_of_mem _ (levOf_mono (Nat.le_succ j) h)
      exact ih (by omega) _ _ hsm' hsle

/-- For a target beyond the length, every level fails and the lookup is `none`. -/
theorem getNodeByRankAux_over {sl : SkipList T} {chain : List Nat} (wf : WF sl chain)
    {target : Int} (h2 : sl.length < target) :
    ∀ j, j < sl.level → ∀ x px,
      (x, px) ∈ ((0 : Nat), (0 : Int)) :: levOf sl chain j → px ≤ target →
      getNodeByRankAux sl target j x px = none := by
  have hlen := wf.hlen
  intro j
  induction j with
  | zero =>
    intro hj x px hm hpx
    obtain ⟨hsm, _, _, _⟩ := walkSpan_stop wf hj hm hpx
    rw [getNodeByRankAux_zero]
    refine if_neg ?_
    rcases List.mem_cons.mp hsm with h | h
    · rw [h]
      simp
      omega
    · have := (levOf_pos h).2
      omega
  | succ j ih =>
    intro hj x px hm hpx
    obtain ⟨hsm, hsle, _, _⟩ := walkSpan_stop wf hj hm hpx
    rw [getNodeByRankAux_succ]
    have hne : ¬ (walkSpan sl target (j+1) x px sl.nodes.length).2 = target := by
      rcases List.mem_cons.mp hsm with h | h
      · rw [h]
        simp
        omega
      · have := (levOf_pos h).2
        omega
    rw [if_neg hne]
    have hsm' : ((walkSpan sl target (j+1) x px sl.nodes.length).1,
        (walkSpan sl target (j+1) x px sl.nodes.length).2)
          ∈ ((0 : Nat), (0 : Int)) :: levOf sl chain j := by
      rcases List.mem_cons.mp hsm with h | h
      · rw [h]
        exact List.mem_cons_self _ _
      · exact List.mem_cons_of_mem _ (levOf_mono (Nat.le_succ j) h)
    exact ih (by omega) _ _ hsm' hsle

/-- Full behaviour of `getNodeByRank` on a well-formed list: `none` for negative
targets and targets beyond the length, the node of the requested 1-based rank for
targets in `[1, length]`, and the *header* (not `none`) for target `0`. -/
theorem getNodeByRank_cases {sl : SkipList T} {chain : List Nat} (wf : WF sl chain)
    (target : Int) :
    (target < 0 → getNodeByRank sl target = none) ∧
    (target = 0 → getNodeByRank sl target = some 0) ∧
    (1 ≤ target → target ≤ sl.length →
      getNodeByRank sl target = some (chain.getD (target.toNat - 1) 0)) ∧
    (sl.length < target → getNodeByRank sl target = none) := by
  have hj : sl.level - 1 < sl.level := by
    have := wf.hlevel1
    omega
  have hlen0 : 0 ≤ sl.length := by
    rw [wf.hlen]
    positivity
  refine ⟨?_, ?_, ?_, ?_⟩
  · intro ht
    exact getNodeByRankAux_neg wf ht _ hj
  · intro ht
    subst ht
    unfold getNodeByRank
    cases hl : sl.level - 1 with
    | zero =>
      rw [getNodeByRankAux_zero, walkSpan_header_nonpos wf (le_refl 0) (hl ▸ hj)]
      rfl
    | succ n =>
      rw [getNodeByRankAux_succ, walkSpan_header_nonpos wf (le_refl 0) (hl ▸ hj)]
      rfl
  · intro ht1 ht2
    exact getNodeByRankAux_in_range wf ht1 ht2 _ hj 0 0 (List.mem_cons_self _ _) (by omega)
  · intro ht
    exact getNodeByRankAux_over wf ht _ hj 0 0 (List.mem_cons_self _ _) (by omega)

/-! ### Claim C7 -/

/-- C7 (amended): on a well-formed skip list, `getNodeByRank` returns `none` for
negative targets and for targets beyond the length, and the node holding the
requested 1-based rank for targets in `[1, length]`; but for target `0` it
returns the **header** node (index 0), not `none` — the claimed "null for
target 0" is false, since the per-level `traversed == rank` check fires at the
top level with `traversed = 0` before any advance. -/
theorem c7_get_node_by_rank {sl : SkipList T} {chain : List Nat} (wf : WF sl chain)
    (target : Int) :
    (target < 0 → getNodeByRank sl target = none) ∧
    (target = 0 → getNodeByRank sl target = some 0) ∧
    (1 ≤ target → target ≤ sl.length →
      getNodeByRank sl target = some (chain.getD (target.toNat - 1) 0)) ∧
    (sl.length < target → getNodeByRank sl target = none) :=
  getNodeByRank_cases wf target

theorem c7_get_node_by_rank_witness :
    getNodeByRank (newSkipList 32 (fun a b : Int => decide (a < b))) (-1) = none ∧
    getNodeByRank (newSkipList 32 (fun a b : Int => decide (a < b))) 0 = some 0 :=
  ⟨(c7_get_node_by_rank (newSkipList_wf (by norm_num) _) (-1)).1 (by decide),
   (c7_get_node_by_rank (newSkipList_wf (by norm_num) _) 0).2.1 rfl⟩

/-- C7 counterexample: on a (nonempty, reachable) list, rank target `0` — which
lies outside `[1, length]` — does *not* yield null: the lookup returns the header. -/
theorem c7_counterexample :
    getNodeByRank
      (applyOps (fun a b : Int => decide (a < b)) [ZOp.add (1 : Nat) (5 : Int) 1]).sl 0
      ≠ none := by decide

/-! ### Chain-index stepping (forward and backward pointers by position) -/

/-- Backward pointer of the chain node at (0-based) index `k`. -/
theorem wf_backward_getD {sl : SkipList T} {chain : List Nat} (wf : WF sl chain) :
    ∀ k, k < chain.length →
      (nodeAt sl (chain.getD k 0)).backward
        = if k = 0 then none else some (chain.getD (k - 1) 0) := by
  intro k hk
  have hb : backOk sl none (chain.take k ++ chain.drop k) := by
    rw [List.take_append_drop]
    exact wf.hback
  obtain ⟨_, hdp⟩ := backOk_append.mp hb
  have hdrop : chain.drop k = chain.getD k 0 :: chain.drop (k + 1) := by
    rw [List.drop_eq_getElem_cons hk]
    congr 1
    rw [List.getD_eq_getElem?_getD, List.getElem?_eq_getElem hk]
    rfl
  rw [hdrop] at hdp
  rw [hdp.1]
  by_cases hk0 : k = 0
  · subst hk0
    rfl
  · rw [if_neg hk0]
    have htk : chain.take k ≠ [] := by
      intro h
      have := congrArg List.length h
      simp only [List.length_take, List.length_nil] at this
      omega
    rw [optLast_eq_some htk none]
    congr 1
    rw [getLastD_eq_getD _ 0, List.length_take]
    have hmin : min k chain.length = k := min_eq_left (le_of_lt hk)
    rw [hmin, List.getD_eq_getElem?_getD, List.getD_eq_getElem?_getD,
      List.getElem?_take, if_pos (by omega)]

/-- Consecutive forward pointers along a positioned chain suffix. -/
theorem chainAt_fwd_getD {sl : SkipList T} {len : Int} :
    ∀ {l : List Nat} (x : Nat) (px : Int),
      chainAt sl len 0 x px (withPos l (px + 1)) →
      ∀ k, k < l.length →
        (lvlAt sl (l.getD k 0) 0).forward
          = if k + 1 < l.length then some (l.getD (k+1) 0) else none := by
  intro l
  induction l with
  | nil => intro x px _ k hk; simp at hk
  | cons a t ih =>
    intro x px h k hk
    obtain ⟨h1, h2, h3⟩ := h
    cases k with
    | zero =>
      cases t with
      | nil =>
        simpa using h3.1
      | cons b u =>
        have := h3.1
        simpa using this
    | succ k =>
      have hk' : k < t.length := by simpa using hk
      have := ih a (px + 1) h3 k hk'
      simpa [Nat.succ_lt_succ_iff] using this

/-- Forward pointer (level 0) of the chain node at (0-based) index `k`. -/
theorem wf_fwd0_getD {sl : SkipList T} {chain : List Nat} (wf : WF sl chain) :
    ∀ k, k < chain.length →
      (lvlAt sl (chain.getD k 0) 0).forward
        = if k + 1 < chain.length then some (chain.getD (k+1) 0) else none := by
  have hch := wf.hchains 0 (by have := wf.hlevel1; omega)
  rw [lev0_eq wf] at hch
  exact chainAt_fwd_getD 0 0 hch

/-- The forward `Range` loop, started on the chain node of index `j` with an
always-true visitor, yields the next `cnt` chain items with ranks counted from
`start + i0` upward. -/
theorem rangeFwd_trace {sl : SkipList T} {chain : List Nat} (wf : WF sl chain)
    (start : Int) :
    ∀ (cnt : Nat) (j : Nat) (i0 : Int), j < chain.length → j + cnt ≤ chain.length →
      rangeFwd sl (fun _ _ => true) start cnt (chain.getD j 0) i0
        = (List.range cnt).map
            (fun k => (itemAt sl (chain.getD (j + k) 0), start + (i0 + k))) := by
  intro cnt
  induction cnt with
  | zero => intro j i0 _ _; rfl
  | succ cnt ih =>
    intro j i0 hj hcnt
    have hstep : rangeFwd sl (fun _ _ => true) start (cnt+1) (chain.getD j 0) i0
        = (itemAt sl (chain.getD j 0), start + i0)
          :: rangeFwd sl (fun _ _ => true) start cnt
               ((lvlAt sl (chain.getD j 0) 0).forward.getD 0) (i0 + 1) := rfl
    rw [hstep]
    cases cnt with
    | zero =>
      simp [rangeFwd, List.range_succ]
    | succ c =>
      have hfwd := wf_fwd0_getD wf j hj
      rw [if_pos (by omega)] at hfwd
      rw [hfwd]
      show _ :: rangeFwd sl (fun _ _ => true) start (c+1) (chain.getD (j+1) 0) (i0+1) = _
      rw [ih (j+1) (i0+1) (by omega) (by omega)]
      conv_rhs => rw [List.range_succ_eq_map, List.map_cons, List.map_map]
      congr 1
      · norm_num
      · apply List.map_congr_left
        intro k _
        simp only [Function.comp_apply]
        refine Prod.ext ?_ ?_
        · show itemAt sl _ = itemAt sl _
          congr 2
          omega
        · push_cast
          ring

/-- The reverse `Range` loop, started on the chain node of index `j` with an
always-true visitor, yields `cnt` chain items walking *down* the chain while the
rank it reports keeps counting *up* from `start + i0`. -/
theorem rangeRev_trace {sl : SkipList T} {chain : List Nat} (wf : WF sl chain)
    (start : Int) :
    ∀ (cnt : Nat) (j : Nat) (i0 : Int), j < chain.length → cnt ≤ j + 1 →
      rangeRev sl (fun _ _ => true) start cnt (chain.getD j 0) i0
        = (List.range cnt).map
            (fun k => (itemAt sl (chain.getD (j - k) 0), start + (i0 + k))) := by
  intro cnt
  induction cnt with
  | zero => intro j i0 _ _; rfl
  | succ cnt ih =>
    intro j i0 hj hcnt
    have hstep : rangeRev sl (fun _ _ => true) start (cnt+1) (chain.getD j 0) i0
        = (itemAt sl (chain.getD j 0), start + i0)
          :: rangeRev sl (fun _ _ => true) start cnt
               ((nodeAt sl (chain.getD j 0)).backward.getD 0) (i0 + 1) := rfl
    rw [hstep]
    cases cnt with
    | zero =>
      simp [rangeRev, List.range_succ]
    | succ c =>
      have hbk := wf_backward_getD wf j hj
      rw [if_neg (by omega)] at hbk
      rw [hbk]
      show _ :: rangeRev sl (fun _ _ => true) start (c+1) (chain.getD (j-1) 0) (i0+1) = _
      rw [ih (j-1) (i0+1) (by omega) (by omega)]
      conv_rhs => rw [List.range_succ_eq_map, List.map_cons, List.map_map]
      congr 1
      · norm_num
      · apply List.map_congr_left
        intro k _
        simp only [Function.comp_apply]
        refine Prod.ext ?_ ?_
        · show itemAt sl _ = itemAt sl _
          congr 2
          omega
        · push_cast
          ring

/-! ### Claim C5 -/

/-- C5 (amended): with an always-true visitor and an in-bounds, already
normalised range, the forward `Range` hands the visitor each element's true
forward 1-based rank; the reverse `Range` walks the elements *downward* while
the rank it passes keeps counting `start+1, start+2, …` *upward* — the `k`-th
visited element is the one at forward 0-based index `length - 1 - start - k`,
so the rank passed is **not** that element's forward rank (the original claim
fails in the reverse direction). -/
theorem c5_range_ranks {zs : ZSet K T} {chain : List Nat} (wf : WF zs.sl chain)
    (start0 end0 : Int) (hs : 0 ≤ start0) (hse : start0 ≤ end0)
    (he : end0 < zs.sl.length) :
    Range zs start0 end0 false (fun _ _ => true)
      = (List.range (end0 - start0 + 1).toNat).map
          (fun k => (itemAt zs.sl (chain.getD (start0.toNat + k) 0), start0 + 1 + k)) ∧
    Range zs start0 end0 true (fun _ _ => true)
      = (List.range (end0 - start0 + 1).toNat).map
          (fun k => (itemAt zs.sl (chain.getD ((zs.sl.length - 1 - start0).toNat - k) 0),
                     start0 + 1 + k)) := by
  have hlen := wf.hlen
  have h1 : ¬ start0 < 0 := by omega
  have h2 : ¬ end0 < 0 := by omega
  have hg : ¬ (start0 > end0 ∨ start0 ≥ zs.sl.length) := by push_neg; exact ⟨hse, by omega⟩
  have h4 : ¬ end0 ≥ zs.sl.length := by omega
  constructor
  · simp only [Range]
    rw [if_neg h1, if_neg h2, if_neg h1, if_neg hg, if_neg h4]
    have hnode := (getNodeByRank_cases wf (start0 + 1)).2.2.1 (by omega) (by omega)
    rw [if_neg (by simp)]
    rw [hnode, Option.getD_some]
    have hidx : (start0 + 1).toNat - 1 = start0.toNat := by omega
    rw [hidx]
    rw [rangeFwd_trace wf start0 (end0 - start0 + 1).toNat start0.toNat 1
      (by omega) (by omega)]
    apply List.map_congr_left
    intro k _
    refine Prod.ext rfl ?_
    show start0 + (1 + (k : Int)) = start0 + 1 + k
    ring
  · simp only [Range]
    rw [if_neg h1, if_neg h2, if_neg h1, if_neg hg, if_neg h4]
    have hnode := (getNodeByRank_cases wf (zs.sl.length - start0)).2.2.1
      (by omega) (by omega)
    rw [if_pos trivial]
    rw [hnode, Option.getD_some]
    have hidx : (zs.sl.length - start0).toNat - 1 = (zs.sl.length - 1 - start0).toNat := by
      omega
    rw [hidx]
    rw [rangeRev_trace wf start0 (end0 - start0 + 1).toNat
      (zs.sl.length - 1 - start0).toNat 1 (by omega) (by omega)]
    apply List.map_congr_left
    intro k _
    refine Prod.ext rfl ?_
    show start0 + (1 + (k : Int)) = start0 + 1 + k
    ring

/-- A concrete reachable two-element instance (items 5 and 7 under `<` on `Int`),
with its explicit bottom chain `[1, 2]`. -/
theorem wf_concrete_two :
    WF (applyOps (fun a b : Int => decide (a < b))
      [ZOp.add (1 : Nat) (5 : Int) 1, ZOp.add 2 7 1]).sl [1, 2] := by
  have wf0 : WF (newSkipList DefaultMaxLevel (fun a b : Int => decide (a < b)))
      ([] : List Nat) :=
    newSkipList_wf (by norm_num [DefaultMaxLevel]) _
  have wf1 := insert_wf wf0 (5 : Int) (le_refl 1) (by decide)
  have hc1 : (([] : List Nat).take
        (insChainIdx (newSkipList DefaultMaxLevel (fun a b : Int => decide (a < b))) 5)
      ++ insXid (newSkipList DefaultMaxLevel (fun a b : Int => decide (a < b))) 5 1
      :: ([] : List Nat).drop
        (insChainIdx (newSkipList DefaultMaxLevel (fun a b : Int => decide (a < b))) 5))
      = [1] := by decide
  rw [hc1] at wf1
  have wf2 := insert_wf wf1 (7 : Int) (le_refl 1) (by decide)
  have hc2 : (([1] : List Nat).take
        (insChainIdx (insFin (newSkipList DefaultMaxLevel
          (fun a b : Int => decide (a < b))) 5 1) 7)
      ++ insXid (insFin (newSkipList DefaultMaxLevel
          (fun a b : Int => decide (a < b))) 5 1) 7 1
      :: ([1] : List Nat).drop
        (insChainIdx (insFin (newSkipList DefaultMaxLevel
          (fun a b : Int => decide (a < b))) 5 1) 7)) = [1, 2] := by decide
  rw [hc2] at wf2
  exact wf2

theorem c5_range_ranks_witness :
    (0 : Int) ≤ 0 ∧ (0 : Int) ≤ 1 ∧
    (1 : Int) < (applyOps (fun a b : Int => decide (a < b))
      [ZOp.add (1 : Nat) (5 : Int) 1, ZOp.add 2 7 1]).sl.length ∧
    Range (applyOps (fun a b : Int => decide (a < b))
        [ZOp.add (1 : Nat) (5 : Int) 1, ZOp.add 2 7 1]) 0 1 false (fun _ _ => true)
      = [((5 : Int), 1), (7, 2)] ∧
    Range (applyOps (fun a b : Int => decide (a < b))
        [ZOp.add (1 : Nat) (5 : Int) 1, ZOp.add 2 7 1]) 0 1 true (fun _ _ => true)
      = [((7 : Int), 1), (5, 2)] := by
  have h := c5_range_ranks wf_concrete_two 0 1 (by decide) (by decide) (by decide)
  refine ⟨by decide, by decide, by decide, ?_, ?_⟩
  · rw [h.1]; decide
  · rw [h.2]; decide

/-- C5 counterexample: in the reverse direction the first visit passes rank 1
alongside item 7, whose forward rank is 2 — not the forward rank the claim
promises. -/
theorem c5_counterexample :
    Range (applyOps (fun a b : Int => decide (a < b))
        [ZOp.add (1 : Nat) (5 : Int) 1, ZOp.add 2 7 1]) 0 1 true (fun _ _ => true)
      = [((7 : Int), 1), (5, 2)] ∧
    getRank (applyOps (fun a b : Int => decide (a < b))
        [ZOp.add (1 : Nat) (5 : Int) 1, ZOp.add 2 7 1]).sl 7 = 2 := by decide

/-! ### Claim C6 -/

/-- C6 (code bug): on the two-element set `{5, 7}`, the reverse iterator over the
full range is valid at its first position, holds item 7 — the element of
ascending 1-based position 2 — yet `Rank()` (which returns `cur + 1` with no
direction correction) reports 1.  The mandated "correct 1-based position in
ascending order regardless of iteration direction" is violated by the code. -/
theorem c6_rank_bug :
    (RangeIterator (applyOps (fun a b : Int => decide (a < b))
        [ZOp.add (1 : Nat) (5 : Int) 1, ZOp.add 2 7 1]) 0 1 true).valid = true ∧
    RangeIter.rankI (RangeIterator (applyOps (fun a b : Int => decide (a < b))
        [ZOp.add (1 : Nat) (5 : Int) 1, ZOp.add 2 7 1]) 0 1 true) = 1 ∧
    iterItem (applyOps (fun a b : Int => decide (a < b))
        [ZOp.add (1 : Nat) (5 : Int) 1, ZOp.add 2 7 1]).sl
      (RangeIterator (applyOps (fun a b : Int => decide (a < b))
        [ZOp.add (1 : Nat) (5 : Int) 1, ZOp.add 2 7 1]) 0 1 true) = 7 ∧
    getRank (applyOps (fun a b : Int => decide (a < b))
        [ZOp.add (1 : Nat) (5 : Int) 1, ZOp.add 2 7 1]).sl 7 = 2 := by decide

/-! ### Claim C9 -/

theorem map_const_eq_replicate {α β : Type _} (l : List α) (c : β) :
    l.map (fun _ => c) = List.replicate l.length c := by
  induction l with
  | nil => rfl
  | cons a t ih => simp [List.replicate_succ, ih]

/-- C9: `freeNode` clears the node's item and zeroes every entry of its level
array unconditionally, appends the node to the free list exactly when the list
currently holds fewer nodes than its capacity (leaving the pool untouched
otherwise), and returns `true` exactly when the node was retained. -/
theorem c9_free_node (f : FreeList T) (n : SNode T) :
    (f.free n).2.1.item = default ∧
    (f.free n).2.1.level = List.replicate n.level.length ⟨none, 0⟩ ∧
    (f.free n).2.1.backward = n.backward ∧
    (f.free n).1.freelist
      = (if f.freelist.length < f.cap
         then f.freelist ++ [(f.free n).2.1] else f.freelist) ∧
    (f.free n).1.cap = f.cap ∧
    (f.free n).2.2 = decide (f.freelist.length < f.cap) := by
  by_cases h : f.freelist.length < f.cap <;>
    simp [FreeList.free, h, map_const_eq_replicate]

/-! ### Claim C3 -/

/-- C3 (amended): `Add` returns the zero value whenever the key is absent **or**
the in-place update succeeds; the displaced prior value (the `removeItem`
result of the internal delete) is returned only on the rejected-update path.
The claimed "returns the prior value including the update-success case" is
false: the accepted in-place update discards the prior value. -/
theorem c3_add_return (zs : ZSet K T) (key : K) (v : T) (lvl : Nat) :
    (Add zs key v lvl).2
      = match dictFind zs.dict key with
        | none => default
        | some nid =>
          if (updateItem zs.sl nid v).2 then default else (delete zs.sl nid).2 := by
  unfold Add
  cases h : dictFind zs.dict key with
  | none => rfl
  | some nid =>
    by_cases hu : (updateItem zs.sl nid v).2 <;> simp [hu]

/-- C3 counterexample: on `{key 1 ↦ 5}`, `Add(1, 6)` succeeds as an in-place
update and returns `0` (the zero value of `Int`), not the displaced prior
value 5 — which was indeed stored before and is indeed replaced by 6. -/
theorem c3_counterexample :
    (Add (applyOps (fun a b : Int => decide (a < b))
        [ZOp.add (1 : Nat) (5 : Int) 1]) 1 6 1).2 = 0 ∧
    Get (applyOps (fun a b : Int => decide (a < b))
        [ZOp.add (1 : Nat) (5 : Int) 1]) 1 = some 5 ∧
    Get (Add (applyOps (fun a b : Int => decide (a < b))
        [ZOp.add (1 : Nat) (5 : Int) 1]) 1 6 1).1 1 = some 6 := by decide

/-! ### Claim C8 -/

/-- C8 (amended): for a key whose stored item yields a *positive* forward rank,
the forward and reverse ranks sum to `length + 1` — this is forced by the code,
which computes the reverse rank as `length - r + 1`.  The extra positivity
premise is needed: a key can be "present" in the dict while its node was
displaced from the skip list by `Remove` of an equivalent item, in which case
both ranks are 0 (see the counterexample). -/
theorem c8_rank_sum {zs : ZSet K T} {k : K} {nid : Nat}
    (h : dictFind zs.dict k = some nid)
    (hr : 0 < getRank zs.sl (itemAt zs.sl nid)) :
    Rank zs k false + Rank zs k true = Length zs + 1 := by
  have e1 : Rank zs k false = getRank zs.sl (itemAt zs.sl nid) := by
    unfold Rank
    rw [h]
    show (if 0 < getRank zs.sl (itemAt zs.sl nid)
          then (if false = true
                then zs.sl.length - getRank zs.sl (itemAt zs.sl nid) + 1
                else getRank zs.sl (itemAt zs.sl nid))
          else 0)
        = getRank zs.sl (itemAt zs.sl nid)
    rw [if_pos hr]
    rfl
  have e2 : Rank zs k true = zs.sl.length - getRank zs.sl (itemAt zs.sl nid) + 1 := by
    unfold Rank
    rw [h]
    show (if 0 < getRank zs.sl (itemAt zs.sl nid)
          then (if true = true
                then zs.sl.length - getRank zs.sl (itemAt zs.sl nid) + 1
                else getRank zs.sl (itemAt zs.sl nid))
          else 0)
        = zs.sl.length - getRank zs.sl (itemAt zs.sl nid) + 1
    rw [if_pos hr]
    rfl
  rw [e1, e2]
  unfold Length
  ring

theorem c8_rank_sum_witness :
    dictFind (applyOps (fun a b : Int => decide (a < b))
        [ZOp.add (1 : Nat) (5 : Int) 1, ZOp.add 2 7 1]).dict 2 = some 2 ∧
    0 < getRank (applyOps (fun a b : Int => decide (a < b))
        [ZOp.add (1 : Nat) (5 : Int) 1, ZOp.add 2 7 1]).sl
      (itemAt (applyOps (fun a b : Int => decide (a < b))
        [ZOp.add (1 : Nat) (5 : Int) 1, ZOp.add 2 7 1]).sl 2) ∧
    Rank (applyOps (fun a b : Int => decide (a < b))
        [ZOp.add (1 : Nat) (5 : Int) 1, ZOp.add 2 7 1]) 2 false
      + Rank (applyOps (fun a b : Int => decide (a < b))
          [ZOp.add (1 : Nat) (5 : Int) 1, ZOp.add 2 7 1]) 2 true
      = Length (applyOps (fun a b : Int => decide (a < b))
          [ZOp.add (1 : Nat) (5 : Int) 1, ZOp.add 2 7 1]) + 1 :=
  ⟨by decide, by decide,
   c8_rank_sum (show dictFind (applyOps (fun a b : Int => decide (a < b))
       [ZOp.add (1 : Nat) (5 : Int) 1, ZOp.add 2 7 1]).dict 2 = some 2 by decide)
     (by decide)⟩

/-- C8 counterexample: with the strict weak ordering comparing only first
components, after adding keys 1 ↦ (1,1) and 2 ↦ (1,2) (equivalent items) and
removing key 1, the delete walk — which searches by *item*, not identity —
removed key 2's node instead.  Key 2 is still present in the dict, yet both its
ranks are 0, so the claimed `Rank(k,false) + Rank(k,true) = Length() + 1` fails
(0 ≠ 2). -/
theorem c8_counterexample :
    IsSWO (fun a b : Int × Int => decide (a.1 < b.1)) ∧
    dictFind (applyOps (fun a b : Int × Int => decide (a.1 < b.1))
        [ZOp.add (1 : Nat) ((1 : Int), (1 : Int)) 1, ZOp.add 2 (1, 2) 1,
         ZOp.rem 1]).dict 2 ≠ none ∧
    Rank (applyOps (fun a b : Int × Int => decide (a.1 < b.1))
        [ZOp.add (1 : Nat) ((1 : Int), (1 : Int)) 1, ZOp.add 2 (1, 2) 1,
         ZOp.rem 1]) 2 false
      + Rank (applyOps (fun a b : Int × Int => decide (a.1 < b.1))
          [ZOp.add (1 : Nat) ((1 : Int), (1 : Int)) 1, ZOp.add 2 (1, 2) 1,
           ZOp.rem 1]) 2 true = 0 ∧
    Length (applyOps (fun a b : Int × Int => decide (a.1 < b.1))
        [ZOp.add (1 : Nat) ((1 : Int), (1 : Int)) 1, ZOp.add 2 (1, 2) 1,
         ZOp.rem 1]) + 1 = 2 := by
  refine ⟨⟨?_, ?_, ?_⟩, by decide, by decide, by decide⟩
  · intro a
    simp
  · intro a b c hab hbc
    simp only [decide_eq_true_eq] at hab hbc ⊢
    omega
  · intro a b c hab hbc
    simp only [decide_eq_false_iff_not] at hab hbc ⊢
    omega

/-! ### Claim C10 -/

theorem walk_congr {sl : SkipList T} {p1 p2 : T → Bool} (h : ∀ y, p1 y = p2 y)
    (i : Nat) : ∀ (fuel : Nat) (x : Nat) (r : Int),
      walk sl p1 i x r fuel = walk sl p2 i x r fuel := by
  intro fuel
  induction fuel with
  | zero => intro x r; rfl
  | succ f ih =>
    intro x r
    cases hf : (lvlAt sl x i).forward with
    | none => simp [walk, hf]
    | some y => simp [walk, hf, h, ih]

theorem getRankAux_zero_eq (sl : SkipList T) (v : T) (x : Nat) (r : Int) :
    getRankAux sl v 0 x r
      = (if (walk sl (fun y => !sl.less v y) 0 x r sl.nodes.length).1 ≠ 0 ∧
            sl.less (itemAt sl (walk sl (fun y => !sl.less v y) 0 x r
              sl.nodes.length).1) v = false
         then (walk sl (fun y => !sl.less v y) 0 x r sl.nodes.length).2 else 0) := rfl

theorem getRankAux_succ_eq (sl : SkipList T) (v : T) (i : Nat) (x : Nat) (r : Int) :
    getRankAux sl v (i+1) x r
      = (if (walk sl (fun y => !sl.less v y) (i+1) x r sl.nodes.length).1 ≠ 0 ∧
            sl.less (itemAt sl (walk sl (fun y => !sl.less v y) (i+1) x r
              sl.nodes.length).1) v = false
         then (walk sl (fun y => !sl.less v y) (i+1) x r sl.nodes.length).2
         else getRankAux sl v i
           (walk sl (fun y => !sl.less v y) (i+1) x r sl.nodes.length).1
           (walk sl (fun y => !sl.less v y) (i+1) x r sl.nodes.length).2) := rfl

/-- `getRank` only sees the queried item through `less` calls, so items with
pointwise-equal comparisons rank identically. -/
theorem getRankAux_congr {sl : SkipList T} {v1 v2 : T}
    (hl : ∀ y, sl.less y v1 = sl.less y v2)
    (hr : ∀ y, sl.less v1 y = sl.less v2 y) :
    ∀ (i : Nat) (x : Nat) (r : Int), getRankAux sl v1 i x r = getRankAux sl v2 i x r := by
  have hw : ∀ (i : Nat) (x : Nat) (r : Int),
      walk sl (fun y => !sl.less v1 y) i x r sl.nodes.length
        = walk sl (fun y => !sl.less v2 y) i x r sl.nodes.length :=
    fun i x r => walk_congr (fun y => by rw [hr y]) i _ x r
  intro i
  induction i with
  | zero =>
    intro x r
    rw [getRankAux_zero_eq, getRankAux_zero_eq, hw, hl]
  | succ i ih =>
    intro x r
    rw [getRankAux_succ_eq, getRankAux_succ_eq, hw, hl, ih]

/-- Equivalent items (under a strict weak ordering) are indistinguishable to
every `less` call, hence to `getRank`. -/
theorem getRank_congr {sl : SkipList T} {v1 v2 : T} (hswo : IsSWO sl.less)
    (h12 : sl.less v1 v2 = false) (h21 : sl.less v2 v1 = false) :
    getRank sl v1 = getRank sl v2 := by
  obtain ⟨_, _, hneg⟩ := hswo
  have hl : ∀ y, sl.less y v1 = sl.less y v2 := by
    intro y
    cases hy : sl.less y v2 with
    | false => exact hneg y v2 v1 hy h21
    | true =>
      cases hyv : sl.less y v1 with
      | true => rfl
      | false =>
        have := hneg y v1 v2 hyv h12
        rw [hy] at this
        exact this.symm
  have hr : ∀ y, sl.less v1 y = sl.less v2 y := by
    intro y
    cases hy : sl.less v2 y with
    | false => exact hneg v1 v2 y h12 hy
    | true =>
      cases hyv : sl.less v1 y with
      | true => rfl
      | false =>
        have := hneg v2 v1 y h21 hyv
        rw [hy] at this
        exact this.symm
  unfold getRank
  exact getRankAux_congr hl hr _ 0 0

/-- C10: two keys simultaneously present whose stored items are equivalent under
a strict-weak-ordering `less` get the same (forward) `Rank`: the rank walk only
inspects the queried item through `less`, which cannot separate equivalents. -/
theorem c10_rank_equiv {zs : ZSet K T} {k1 k2 : K} {n1 n2 : Nat}
    (hswo : IsSWO zs.sl.less)
    (h1 : dictFind zs.dict k1 = some n1) (h2 : dictFind zs.dict k2 = some n2)
    (he1 : zs.sl.less (itemAt zs.sl n1) (itemAt zs.sl n2) = false)
    (he2 : zs.sl.less (itemAt zs.sl n2) (itemAt zs.sl n1) = false) :
    Rank zs k1 false = Rank zs k2 false := by
  unfold Rank
  rw [h1, h2]
  show (if 0 < getRank zs.sl (itemAt zs.sl n1)
        then (if false = true
              then zs.sl.length - getRank zs.sl (itemAt zs.sl n1) + 1
              else getRank zs.sl (itemAt zs.sl n1))
        else 0)
      = (if 0 < getRank zs.sl (itemAt zs.sl n2)
        then (if false = true
              then zs.sl.length - getRank zs.sl (itemAt zs.sl n2) + 1
              else getRank zs.sl (itemAt zs.sl n2))
        else 0)
  rw [getRank_congr hswo he1 he2]

theorem c10_rank_equiv_witness :
    Rank (applyOps (fun a b : Int × Int => decide (a.1 < b.1))
        [ZOp.add (1 : Nat) ((1 : Int), (1 : Int)) 1, ZOp.add 2 (1, 2) 1]) 1 false
      = Rank (applyOps (fun a b : Int × Int => decide (a.1 < b.1))
          [ZOp.add (1 : Nat) ((1 : Int), (1 : Int)) 1, ZOp.add 2 (1, 2) 1]) 2 false := by
  have hswo : IsSWO (fun a b : Int × Int => decide (a.1 < b.1)) := by
    refine ⟨fun a => by simp, ?_, ?_⟩
    · intro a b c hab hbc
      simp only [decide_eq_true_eq] at hab hbc ⊢
      omega
    · intro a b c hab hbc
      simp only [decide_eq_false_iff_not] at hab hbc ⊢
      omega
  exact c10_rank_equiv hswo
    (show dictFind (applyOps (fun a b : Int × Int => decide (a.1 < b.1))
        [ZOp.add (1 : Nat) ((1 : Int), (1 : Int)) 1, ZOp.add 2 (1, 2) 1]).dict 1
      = some 1 by decide)
    (show dictFind (applyOps (fun a b : Int × Int => decide (a.1 < b.1))
        [ZOp.add (1 : Nat) ((1 : Int), (1 : Int)) 1, ZOp.add 2 (1, 2) 1]).dict 2
      = some 2 by decide)
    (by decide) (by decide)

/-! ### Claim C2 -/

theorem getD_eq_getElem_of_lt {l : List Nat} {j : Nat} (hj : j < l.length) :
    l.getD j 0 = l[j] := by
  rw [List.getD_eq_getElem?_getD, List.getElem?_eq_getElem hj]
  rfl

/-- Head step of a positioned chain: forward pointer and unit span. -/
theorem chainAt_head {sl : SkipList T} {len : Int} {l : List Nat} {x : Nat} {px : Int}
    (h : chainAt sl len 0 x px (withPos l (px + 1))) (hl : 0 < l.length) :
    (lvlAt sl x 0).forward = some (l.getD 0 0) ∧ (lvlAt sl x 0).span = 1 := by
  cases l with
  | nil => simp at hl
  | cons a t =>
    refine ⟨h.1, ?_⟩
    have := h.2.1
    rw [this]
    ring

/-- C2 (amended): on a well-formed, order-consistent list with a strict weak
ordering, `insert` places the new node at bottom position `insChainIdx sl v`,
where every node strictly before is *strictly less* than `v` and every node
from that position on — **including all existing equivalents of `v`** — is
not less than `v`.  The new node therefore lands *before* all existing
equivalent nodes, not after them as claimed: the walk advances only while
`less(y.item, v)` holds, and equivalents fail that strict test. -/
theorem c2_stable_insert {sl : SkipList T} {chain : List Nat} (wf : WF sl chain)
    (hswo : IsSWO sl.less)
    (hord : chain.Pairwise (fun a b => sl.less (itemAt sl b) (itemAt sl a) = false))
    (v : T) {lvl : Nat} (h1 : 1 ≤ lvl) (hM : lvl ≤ sl.maxLevel) :
    WF (insFin sl v lvl)
      (chain.take (insChainIdx sl v)
        ++ insXid sl v lvl :: chain.drop (insChainIdx sl v)) ∧
    (∀ j, j < insChainIdx sl v → sl.less (itemAt sl (chain.getD j 0)) v = true) ∧
    (∀ j, insChainIdx sl v ≤ j → j < chain.length →
      sl.less (itemAt sl (chain.getD j 0)) v = false) := by
  obtain ⟨_, _, hneg⟩ := hswo
  have h0lv : 0 < sl.level := wf.hlevel1
  have stop := updOf_levelStop wf (insQ sl v) h0lv
  have hmem := stop.1
  have hnn : 0 ≤ (updOf sl (insQ sl v) 0).2 := updOf_nonneg wf _ h0lv
  have hm : ((insChainIdx sl v : Nat) : Int) = (updOf sl (insQ sl v) 0).2 := by
    unfold insChainIdx
    rw [insRnk0_eq wf v]
    omega
  have hpair := List.pairwise_iff_getElem.mp hord
  refine ⟨insert_wf wf v h1 hM, ?_, ?_⟩
  · intro j hj
    rcases List.mem_cons.mp hmem with h | h
    · exfalso
      have : (updOf sl (insQ sl v) 0).2 = 0 := congrArg Prod.snd h
      omega
    · have hup := withPos_mem_getD (show ((updOf sl (insQ sl v) 0).1,
          (updOf sl (insQ sl v) 0).2) ∈ withPos chain 1 from (levOf_sub h).1)
      have hfst : (updOf sl (insQ sl v) 0).1 ∈ chain := by
        have := mem_withPos (levOf_sub h).1
        exact this.1
      have hq0 : sl.less (itemAt sl (updOf sl (insQ sl v) 0).1) v = true :=
        stop.2.1 (wf.hvalid _ hfst).2
      have hidx : chain.getD (insChainIdx sl v - 1) 0 = (updOf sl (insQ sl v) 0).1 := by
        have := hup.1
        have harg : (updOf sl (insQ sl v) 0).2.toNat - 1 = insChainIdx sl v - 1 := by omega
        rw [harg] at this
        exact this
      have hmlen : insChainIdx sl v ≤ chain.length := by
        have := hup.2.2
        omega
      by_cases hjl : j = insChainIdx sl v - 1
      · rw [hjl, hidx]
        exact hq0
      · have hjlt : j < insChainIdx sl v - 1 := by omega
        have hjlen : j < chain.length := by omega
        have hmm1 : insChainIdx sl v - 1 < chain.length := by omega
        have hpw := hpair j (insChainIdx sl v - 1) hjlen hmm1 (by omega)
        rw [← getD_eq_getElem_of_lt hjlen, ← getD_eq_getElem_of_lt hmm1, hidx] at hpw
        cases hc : sl.less (itemAt sl (chain.getD j 0)) v with
        | true => rfl
        | false =>
          exfalso
          have := hneg _ _ _ hpw hc
          rw [hq0] at this
          exact Bool.true_eq_false.mp this
  · intro j hmj hjlen
    have hmlen : insChainIdx sl v < chain.length := by omega
    have hfwd : (lvlAt sl (updOf sl (insQ sl v) 0).1 0).forward
        = some (chain.getD (insChainIdx sl v) 0) := by
      rcases List.mem_cons.mp hmem with h | h
      · have h2 : (updOf sl (insQ sl v) 0).2 = 0 := congrArg Prod.snd h
        have h1' : (updOf sl (insQ sl v) 0).1 = 0 := congrArg Prod.fst h
        have hm0 : insChainIdx sl v = 0 := by omega
        have hch := wf.hchains 0 h0lv
        rw [lev0_eq wf] at hch
        rw [h1', hm0]
        exact (chainAt_head hch (by omega)).1
      · have hup := withPos_mem_getD (show ((updOf sl (insQ sl v) 0).1,
            (updOf sl (insQ sl v) 0).2) ∈ withPos chain 1 from (levOf_sub h).1)
        have hpos1 : 1 ≤ (updOf sl (insQ sl v) 0).2 := hup.2.1
        have hidx : chain.getD (insChainIdx sl v - 1) 0 = (updOf sl (insQ sl v) 0).1 := by
          have := hup.1
          have harg : (updOf sl (insQ sl v) 0).2.toNat - 1 = insChainIdx sl v - 1 := by omega
          rw [harg] at this
          exact this
        have hstep := wf_fwd0_getD wf (insChainIdx sl v - 1) (by omega)
        rw [if_pos (by omega)] at hstep
        rw [← hidx]
        rw [hstep]
        congr 2
        omega
    have hqm : sl.less (itemAt sl (chain.getD (insChainIdx sl v) 0)) v = false :=
      stop.2.2.2.2 _ hfwd
    by_cases hjm : j = insChainIdx sl v
    · rw [hjm]
      exact hqm
    · have hpw := hpair (insChainIdx sl v) j hmlen hjlen (by omega)
      rw [← getD_eq_getElem_of_lt hmlen, ← getD_eq_getElem_of_lt hjlen] at hpw
      exact hneg _ _ _ hpw hqm

/-- A concrete reachable one-element instance over `Int × Int` with the
first-component strict weak ordering, with explicit bottom chain `[1]`. -/
theorem wf_concrete_pair :
    WF (applyOps (fun a b : Int × Int => decide (a.1 < b.1))
      [ZOp.add (1 : Nat) ((1 : Int), (1 : Int)) 1]).sl [1] := by
  have wf0 : WF (newSkipList DefaultMaxLevel (fun a b : Int × Int => decide (a.1 < b.1)))
      ([] : List Nat) :=
    newSkipList_wf (by norm_num [DefaultMaxLevel]) _
  have wf1 := insert_wf wf0 ((1 : Int), (1 : Int)) (le_refl 1) (by decide)
  have hc1 : (([] : List Nat).take
        (insChainIdx (newSkipList DefaultMaxLevel
          (fun a b : Int × Int => decide (a.1 < b.1))) (1, 1))
      ++ insXid (newSkipList DefaultMaxLevel
          (fun a b : Int × Int => decide (a.1 < b.1))) (1, 1) 1
      :: ([] : List Nat).drop
        (insChainIdx (newSkipList DefaultMaxLevel
          (fun a b : Int × Int => decide (a.1 < b.1))) (1, 1)))
      = [1] := by decide
  rw [hc1] at wf1
  exact wf1

theorem c2_stable_insert_witness :
    insChainIdx (applyOps (fun a b : Int × Int => decide (a.1 < b.1))
        [ZOp.add (1 : Nat) ((1 : Int), (1 : Int)) 1]).sl ((1 : Int), (2 : Int)) = 0 ∧
    (applyOps (fun a b : Int × Int => decide (a.1 < b.1))
        [ZOp.add (1 : Nat) ((1 : Int), (1 : Int)) 1]).sl.less
      (itemAt (applyOps (fun a b : Int × Int => decide (a.1 < b.1))
          [ZOp.add (1 : Nat) ((1 : Int), (1 : Int)) 1]).sl
        (([1] : List Nat).getD 0 0)) (1, 2) = false := by
  have hswo : IsSWO (fun a b : Int × Int => decide (a.1 < b.1)) := by
    refine ⟨fun a => by simp, ?_, ?_⟩
    · intro a b c hab hbc
      simp only [decide_eq_true_eq] at hab hbc ⊢
      omega
    · intro a b c hab hbc
      simp only [decide_eq_false_iff_not] at hab hbc ⊢
      omega
  have h := c2_stable_insert wf_concrete_pair hswo (by simp)
    ((1 : Int), (2 : Int)) (le_refl 1) (by decide)
  exact ⟨by decide, h.2.2 0 (by decide) (by decide)⟩

/-- C2 counterexample: insert (1,1), then add the equivalent (1,2) (same first
component).  A forward full-range traversal shows the newer equivalent sitting
**first** — the new node was placed before, not after, the existing equivalent. -/
theorem c2_counterexample :
    Range (applyOps (fun a b : Int × Int => decide (a.1 < b.1))
        [ZOp.add (1 : Nat) ((1 : Int), (1 : Int)) 1, ZOp.add 2 (1, 2) 1])
      0 1 false (fun _ _ => true)
      = [((((1 : Int), (2 : Int))), 1), ((1, 1), 2)] := by decide

/-! ### Claim C4: monotone-predicate searches -/

/-- Level-0 spans along a positioned chain suffix: 1 between consecutive nodes,
`len - position` for the final link. -/
theorem chainAt_span_getD {sl : SkipList T} {len : Int} :
    ∀ {l : List Nat} (x : Nat) (px : Int),
      chainAt sl len 0 x px (withPos l (px + 1)) →
      ∀ k, k < l.length →
        (lvlAt sl (l.getD k 0) 0).span
          = if k + 1 < l.length then 1 else len - (px + k + 1) := by
  intro l
  induction l with
  | nil => intro x px _ k hk; simp at hk
  | cons a t ih =>
    intro x px h k hk
    obtain ⟨h1, h2, h3⟩ := h
    cases k with
    | zero =>
      cases t with
      | nil =>
        have := h3.2
        simp only [List.length_cons, List.length_nil]
        rw [if_neg (by omega)]
        simpa using this
      | cons b u =>
        have := h3.2.1
        simp only [List.length_cons]
        rw [if_pos (by omega)]
        simp only [List.getD_cons_zero]
        rw [this]
        ring
    | succ k =>
      have hk' : k < t.length := by simpa using hk
      have := ih a (px + 1) h3 k hk'
      simp only [List.getD_cons_succ, List.length_cons]
      rw [this]
      by_cases hlt : k + 1 < t.length
      · rw [if_pos hlt, if_pos (by omega)]
      · rw [if_neg hlt, if_neg (by omega)]
        push_cast
        ring

/-- Level-0 span of the chain node at index `k` on a well-formed list. -/
theorem wf_span0_getD {sl : SkipList T} {chain : List Nat} (wf : WF sl chain) :
    ∀ k, k < chain.length →
      (lvlAt sl (chain.getD k 0) 0).span
        = if k + 1 < chain.length then 1 else sl.length - (k + 1) := by
  have hch := wf.hchains 0 (by have := wf.hlevel1; omega)
  rw [lev0_eq wf] at hch
  intro k hk
  have := chainAt_span_getD 0 0 hch k hk
  rw [this]
  by_cases h : k + 1 < chain.length
  · rw [if_pos h, if_pos h]
  · rw [if_neg h, if_neg h]
    ring_nf

/-- Where the full descent stops for a prefix-true predicate whose `true` values
occupy exactly the first `c` chain positions. -/
theorem updOf_prefix_stop {sl : SkipList T} {chain : List Nat} (wf : WF sl chain)
    {q : T → Bool} {c : Nat} (hc : c ≤ chain.length)
    (hq : ∀ k, k < chain.length → q (itemAt sl (chain.getD k 0)) = decide (k < c)) :
    updOf sl q 0
      = if c = 0 then ((0 : Nat), (0 : Int)) else (chain.getD (c-1) 0, (c : Int)) := by
  have h0lv : 0 < sl.level := wf.hlevel1
  have stop := updOf_levelStop wf q h0lv
  rcases List.mem_cons.mp stop.1 with h | h
  · have hC : c = 0 := by
      by_contra hc0
      have hlen1 : 0 < chain.length := by omega
      have hch := wf.hchains 0 h0lv
      rw [lev0_eq wf] at hch
      have hfwd : (lvlAt sl (updOf sl q 0).1 0).forward = some (chain.getD 0 0) := by
        rw [show (updOf sl q 0).1 = 0 from congrArg Prod.fst h]
        exact (chainAt_head hch hlen1).1
      have hfail := stop.2.2.2.2 _ hfwd
      rw [hq 0 hlen1] at hfail
      simp at hfail
      omega
    rw [if_pos hC]
    exact h
  · have hup := withPos_mem_getD (show ((updOf sl q 0).1, (updOf sl q 0).2)
        ∈ withPos chain 1 from (levOf_sub h).1)
    have hfst : (updOf sl q 0).1 ∈ chain := (mem_withPos (levOf_sub h).1).1
    have hq1 : q (itemAt sl (updOf sl q 0).1) = true := stop.2.1 (wf.hvalid _ hfst).2
    have hpos1 : 1 ≤ (updOf sl q 0).2 := hup.2.1
    have hposle : (updOf sl q 0).2.toNat ≤ chain.length := hup.2.2
    have hgd : chain.getD ((updOf sl q 0).2.toNat - 1) 0 = (updOf sl q 0).1 := hup.1
    have hlt : (updOf sl q 0).2.toNat - 1 < c := by
      have hqk := hq ((updOf sl q 0).2.toNat - 1) (by omega)
      rw [hgd, hq1] at hqk
      exact of_decide_eq_true hqk.symm
    have hge : c ≤ (updOf sl q 0).2.toNat := by
      by_cases hlast : (updOf sl q 0).2.toNat < chain.length
      · have hfwd := wf_fwd0_getD wf ((updOf sl q 0).2.toNat - 1) (by omega)
        rw [if_pos (by omega), hgd] at hfwd
        have harg : (updOf sl q 0).2.toNat - 1 + 1 = (updOf sl q 0).2.toNat := by omega
        rw [harg] at hfwd
        have hfail := stop.2.2.2.2 _ hfwd
        rw [hq _ hlast] at hfail
        have := of_decide_eq_false hfail
        omega
      · omega
    rw [if_neg (by omega)]
    refine Prod.ext ?_ ?_
    · show (updOf sl q 0).1 = chain.getD (c - 1) 0
      rw [show c - 1 = (updOf sl q 0).2.toNat - 1 from by omega]
      exact hgd.symm
    · show (updOf sl q 0).2 = (c : Int)
      omega

/-- `findPrev` under a prefix-true predicate with split `c`: the last satisfying
node (the header when none does) together with its rank `c`. -/
theorem findPrev_mono {sl : SkipList T} {chain : List Nat} (wf : WF sl chain)
    {q : T → Bool} {c : Nat} (hc : c ≤ chain.length)
    (hq : ∀ k, k < chain.length → q (itemAt sl (chain.getD k 0)) = decide (k < c)) :
    findPrev sl q = ((if c = 0 then 0 else chain.getD (c-1) 0), (c : Int)) := by
  unfold findPrev
  rw [descendF_eq]
  show updOf sl q 0 = _
  rw [updOf_prefix_stop wf hc hq]
  by_cases h : c = 0
  · rw [if_pos h, if_pos h, h]
    rfl
  · rw [if_neg h, if_neg h]

/-- `findNext` for a predicate false on exactly the first `c` chain positions:
the first satisfying node (none when all fail) and, when it exists, its rank
`c + 1`. -/
theorem findNext_mono {sl : SkipList T} {chain : List Nat} (wf : WF sl chain)
    {lop : T → Bool} {c : Nat} (hc : c ≤ chain.length)
    (hq : ∀ k, k < chain.length → lop (itemAt sl (chain.getD k 0)) = decide (c ≤ k)) :
    findNext sl lop
      = ((if c < chain.length then some (chain.getD c 0) else none),
         if c < chain.length then (c : Int) + 1 else sl.length) := by
  have hq' : ∀ k, k < chain.length →
      (fun y => !lop y) (itemAt sl (chain.getD k 0)) = decide (k < c) := by
    intro k hk
    show (!lop (itemAt sl (chain.getD k 0))) = decide (k < c)
    rw [hq k hk]
    by_cases h : c ≤ k
    · rw [decide_eq_true h, decide_eq_false (show ¬ k < c by omega)]
      rfl
    · rw [decide_eq_false h, decide_eq_true (show k < c by omega)]
      rfl
  have hstop : updOf sl (fun y => !lop y) 0
      = if c = 0 then ((0 : Nat), (0 : Int)) else (chain.getD (c-1) 0, (c : Int)) :=
    updOf_prefix_stop wf hc hq'
  have hlen := wf.hlen
  have hch := wf.hchains 0 wf.hlevel1
  rw [lev0_eq wf] at hch
  unfold findNext
  rw [descendF_eq]
  show ((lvlAt sl (updOf sl (fun y => !lop y) 0).1 0).forward,
    (updOf sl (fun y => !lop y) 0).2 + (lvlAt sl (updOf sl (fun y => !lop y) 0).1 0).span) = _
  rw [hstop]
  by_cases h0 : c = 0
  · rw [if_pos h0]
    subst h0
    by_cases hlen0 : 0 < chain.length
    · rw [if_pos hlen0, if_pos hlen0]
      rw [show ((0:Nat), (0:Int)).1 = 0 from rfl, show ((0:Nat), (0:Int)).2 = 0 from rfl]
      rw [(chainAt_head hch hlen0).1, (chainAt_head hch hlen0).2]
      norm_num
    · have hnil : chain = [] := List.length_eq_zero.mp (by omega)
      rw [if_neg hlen0, if_neg hlen0]
      rw [show ((0:Nat), (0:Int)).1 = 0 from rfl, show ((0:Nat), (0:Int)).2 = 0 from rfl]
      rw [hnil] at hch
      rw [hch.1]
      have hsp := hch.2
      rw [hsp]
      rw [hnil] at hlen
      simp only [List.length_nil] at hlen
      refine Prod.ext rfl ?_
      show (0 : Int) + (sl.length - 0) = sl.length
      omega
  · rw [if_neg h0]
    have hc1 : c - 1 < chain.length := by omega
    have hfwd := wf_fwd0_getD wf (c-1) hc1
    have hspan := wf_span0_getD wf (c-1) hc1
    have harg : c - 1 + 1 = c := by omega
    rw [harg] at hfwd hspan
    show ((lvlAt sl (chain.getD (c-1) 0) 0).forward,
      (c : Int) + (lvlAt sl (chain.getD (c-1) 0) 0).span) = _
    rw [hfwd, hspan]
    by_cases hlast : c < chain.length
    · rw [if_pos hlast, if_pos hlast, if_pos hlast]
    · rw [if_neg hlast, if_neg hlast, if_neg hlast]
      refine Prod.ext rfl ?_
      omega

/-- The forward `RangeByScore` loop from the chain node of index `j` with an
always-true visitor: the next `cnt` chain items with ranks from `i0` upward. -/
theorem rbsFwd_trace {sl : SkipList T} {chain : List Nat} (wf : WF sl chain) :
    ∀ (cnt : Nat) (j : Nat) (i0 : Int), j < chain.length → j + cnt ≤ chain.length →
      rbsFwd sl (fun _ _ => true) cnt (chain.getD j 0) i0
        = (List.range cnt).map
            (fun k => (itemAt sl (chain.getD (j + k) 0), i0 + k)) := by
  intro cnt
  induction cnt with
  | zero => intro j i0 _ _; rfl
  | succ cnt ih =>
    intro j i0 hj hcnt
    have hstep : rbsFwd sl (fun _ _ => true) (cnt+1) (chain.getD j 0) i0
        = (itemAt sl (chain.getD j 0), i0)
          :: rbsFwd sl (fun _ _ => true) cnt
               ((lvlAt sl (chain.getD j 0) 0).forward.getD 0) (i0 + 1) := rfl
    rw [hstep]
    cases cnt with
    | zero =>
      simp [rbsFwd, List.range_succ]
    | succ c =>
      have hfwd := wf_fwd0_getD wf j hj
      rw [if_pos (by omega)] at hfwd
      rw [hfwd]
      show _ :: rbsFwd sl (fun _ _ => true) (c+1) (chain.getD (j+1) 0) (i0+1) = _
      rw [ih (j+1) (i0+1) (by omega) (by omega)]
      conv_rhs => rw [List.range_succ_eq_map, List.map_cons, List.map_map]
      congr 1
      · norm_num
      · apply List.map_congr_left
        intro k _
        simp only [Function.comp_apply]
        refine Prod.ext ?_ ?_
        · show itemAt sl _ = itemAt sl _
          congr 2
          omega
        · push_cast
          ring

/-- The reverse `RangeByScore` loop from the chain node of index `j` with an
always-true visitor: `cnt` chain items walking down, while the reported rank
`length - i + 1` is computed from the decreasing loop counter `i`. -/
theorem rbsRev_trace {sl : SkipList T} {chain : List Nat} (wf : WF sl chain) :
    ∀ (cnt : Nat) (j : Nat) (i0 : Int), j < chain.length → cnt ≤ j + 1 →
      rbsRev sl (fun _ _ => true) cnt (chain.getD j 0) i0
        = (List.range cnt).map
            (fun k => (itemAt sl (chain.getD (j - k) 0), sl.length - (i0 - k) + 1)) := by
  intro cnt
  induction cnt with
  | zero => intro j i0 _ _; rfl
  | succ cnt ih =>
    intro j i0 hj hcnt
    have hstep : rbsRev sl (fun _ _ => true) (cnt+1) (chain.getD j 0) i0
        = (itemAt sl (chain.getD j 0), sl.length - i0 + 1)
          :: rbsRev sl (fun _ _ => true) cnt
               ((nodeAt sl (chain.getD j 0)).backward.getD 0) (i0 - 1) := rfl
    rw [hstep]
    cases cnt with
    | zero =>
      simp [rbsRev, List.range_succ]
    | succ c =>
      have hbk := wf_backward_getD wf j hj
      rw [if_neg (by omega)] at hbk
      rw [hbk]
      show _ :: rbsRev sl (fun _ _ => true) (c+1) (chain.getD (j-1) 0) (i0-1) = _
      rw [ih (j-1) (i0-1) (by omega) (by omega)]
      conv_rhs => rw [List.range_succ_eq_map, List.map_cons, List.map_map]
      congr 1
      · norm_num
      · apply List.map_congr_left
        intro k _
        simp only [Function.comp_apply]
        refine Prod.ext ?_ ?_
        · show itemAt sl _ = itemAt sl _
          congr 2
          omega
        · push_cast
          ring

theorem RangeByScore_some (zs : ZSet K T) (lop hip : T → Bool) (reverse : Bool)
    (it : T → Int → Bool) :
    RangeByScore zs (some lop) (some hip) reverse it
      = match (findNext zs.sl lop).1 with
        | none => []
        | some minN =>
          if reverse then
            rbsRev zs.sl it
              ((findPrev zs.sl hip).2 - (findNext zs.sl lop).2 + 1).toNat
              (findPrev zs.sl hip).1 (findPrev zs.sl hip).2
          else
            rbsFwd zs.sl it
              ((findPrev zs.sl hip).2 - (findNext zs.sl lop).2 + 1).toNat
              minN (findNext zs.sl lop).2 := rfl

/-- C4: with `lo` monotone false-then-true along the chain (false exactly on the
first `cLo` positions) and `hi` monotone true-then-false (true exactly on the
first `cHi` positions), and an always-true visitor, `RangeByScore` visits
exactly the elements satisfying both predicates — chain indices
`cLo ≤ k < cHi` — once each: in ascending order when `reverse` is false and in
descending order when `reverse` is true, and no other element. -/
theorem c4_range_by_score {zs : ZSet K T} {chain : List Nat} (wf : WF zs.sl chain)
    (lop hip : T → Bool) (cLo cHi : Nat)
    (hcLo : cLo ≤ chain.length) (hcHi : cHi ≤ chain.length)
    (hlo : ∀ k, k < chain.length →
      lop (itemAt zs.sl (chain.getD k 0)) = decide (cLo ≤ k))
    (hhi : ∀ k, k < chain.length →
      hip (itemAt zs.sl (chain.getD k 0)) = decide (k < cHi)) :
    RangeByScore zs (some lop) (some hip) false (fun _ _ => true)
      = (List.range (cHi - cLo)).map
          (fun k => (itemAt zs.sl (chain.getD (cLo + k) 0), (cLo : Int) + 1 + k)) ∧
    RangeByScore zs (some lop) (some hip) true (fun _ _ => true)
      = (List.range (cHi - cLo)).map
          (fun k => (itemAt zs.sl (chain.getD (cHi - 1 - k) 0),
                     zs.sl.length - ((cHi : Int) - k) + 1)) := by
  have hlen := wf.hlen
  have hmin := findNext_mono wf hcLo hlo
  have hmax := findPrev_mono wf hcHi hhi
  by_cases hcl : cLo < chain.length
  · have hmin' : findNext zs.sl lop
        = (some (chain.getD cLo 0), (cLo : Int) + 1) := by
      rw [hmin, if_pos hcl, if_pos hcl]
    constructor
    · rw [RangeByScore_some, hmin', hmax]
      show rbsFwd zs.sl (fun _ _ => true) (((cHi : Int)) - ((cLo : Int) + 1) + 1).toNat
        (chain.getD cLo 0) ((cLo : Int) + 1) = _
      have hcnt : (((cHi : Int)) - ((cLo : Int) + 1) + 1).toNat = cHi - cLo := by omega
      rw [hcnt]
      by_cases hle : cHi ≤ cLo
      · rw [show cHi - cLo = 0 from by omega]
        rfl
      · rw [rbsFwd_trace wf (cHi - cLo) cLo ((cLo : Int) + 1) hcl (by omega)]
    · rw [RangeByScore_some, hmin', hmax]
      show rbsRev zs.sl (fun _ _ => true) (((cHi : Int)) - ((cLo : Int) + 1) + 1).toNat
        (if cHi = 0 then 0 else chain.getD (cHi - 1) 0) ((cHi : Int)) = _
      have hcnt : (((cHi : Int)) - ((cLo : Int) + 1) + 1).toNat = cHi - cLo := by omega
      rw [hcnt]
      by_cases hle : cHi ≤ cLo
      · rw [show cHi - cLo = 0 from by omega]
        rfl
      · rw [if_neg (by omega)]
        rw [rbsRev_trace wf (cHi - cLo) (cHi - 1) ((cHi : Int)) (by omega) (by omega)]
  · have hmin' : findNext zs.sl lop = (none, zs.sl.length) := by
      rw [hmin, if_neg hcl, if_neg hcl]
    have hz : cHi - cLo = 0 := by omega
    constructor
    · rw [RangeByScore_some, hmin', hz]
      rfl
    · rw [RangeByScore_some, hmin', hz]
      rfl

theorem c4_range_by_score_witness :
    RangeByScore (applyOps (fun a b : Int => decide (a < b))
        [ZOp.add (1 : Nat) (5 : Int) 1, ZOp.add 2 7 1])
      (some (fun y : Int => decide (6 < y))) (some (fun y : Int => decide (y < 100)))
      false (fun _ _ => true) = [((7 : Int), 2)] ∧
    RangeByScore (applyOps (fun a b : Int => decide (a < b))
        [ZOp.add (1 : Nat) (5 : Int) 1, ZOp.add 2 7 1])
      (some (fun y : Int => decide (6 < y))) (some (fun y : Int => decide (y < 100)))
      true (fun _ _ => true) = [((7 : Int), 1)] := by
  have h := c4_range_by_score wf_concrete_two
    (fun y : Int => decide (6 < y)) (fun y : Int => decide (y < 100)) 1 2
    (by decide) (by decide) (by decide) (by decide)
  refine ⟨?_, ?_⟩
  · rw [h.1]; decide
  · rw [h.2]; decide

end Zset
